import Mathlib

/-!
# Helio Workstation: the piano roll

A shallow embedding of `Source/UI/Sequencer/PianoRoll/PianoRoll.cpp`: the cache of
background highlighting schemes (a sorted array searched by binary search), the row
height of the roll, and the two-level index `patternMap` of note components that
follows the project's change notifications.

Painting, fading and repaint requests have no effect on the state modelled here and
are left out of the embedding.
-/

namespace Helio

/-! ## Data model -/

/-- Modelled from the spec: `Scale` is declared outside the sources; spec 4.1 says that
scale equivalence is a deep comparison (same interval pattern), not reference
equality. A scale is a named interval pattern. -/
structure Scale where
  name : String
  keys : List Nat
deriving DecidableEq, Repr

/-- Modelled from the spec: two scales are equivalent when their interval patterns
are the same, whatever their names. -/
def Scale.isEquivalentTo (a b : Scale) : Bool :=
  decide (a.keys = b.keys)

/-- The pair a highlighting scheme is identified by: root key and scale. Both
`KeySignatureEvent` and `HighlightingScheme` expose it through `getRootKey()` and
`getScale()`. -/
structure SchemeId where
  rootKey : Int
  scale : Scale
deriving DecidableEq, Repr

/-- Same root key and equivalent scales: the test written out in
`PianoRoll::onChangeMidiEvent` for key signatures. -/
def SchemeId.same (a b : SchemeId) : Bool :=
  decide (a.rootKey = b.rootKey) && a.scale.isEquivalentTo b.scale

/-- A key signature event of the project. `addr` is the identity of the object: the
code compares key signatures by address (`k != &key`). -/
structure KeySignatureEvent where
  addr : Nat
  rootKey : Int
  scale : Scale
deriving DecidableEq, Repr

/-- The scheme identity of a key signature. -/
def KeySignatureEvent.id (k : KeySignatureEvent) : SchemeId :=
  { rootKey := k.rootKey, scale := k.scale }

/-- A rendered tile image; only its size is modelled, not its pixels. -/
structure Image where
  width : Int
  height : Int
deriving DecidableEq, Repr

/-- `PianoRoll::HighlightingScheme`: root key, scale and the tile images, one per
row height. -/
structure HighlightingScheme where
  rootKey : Int
  scale : Scale
  rows : List Image
deriving DecidableEq, Repr

/-- The scheme identity of a cached scheme. -/
def HighlightingScheme.id (s : HighlightingScheme) : SchemeId :=
  { rootKey := s.rootKey, scale := s.scale }

/-- What `PianoRoll.cpp` takes from headers that are not part of the sources: the
three-way comparator `HighlightingScheme::compareElements` (a function of the
(root key, scale) of its two arguments) and the row height and header constants. -/
structure Decls where
  compareElements : SchemeId → SchemeId → Int
  PIANOROLL_MIN_ROW_HEIGHT : Int
  PIANOROLL_MAX_ROW_HEIGHT : Int
  HYBRID_ROLL_HEADER_HEIGHT : Int

/-- The comparator is the one spec 4.1 describes: a three-way comparison for a total
order on (root key, scale) in which exactly the pairs with the same root key and
equivalent scales compare equal. -/
structure Decls.SchemeOrder (d : Decls) : Prop where
  eq_zero_iff : ∀ a b, d.compareElements a b = 0 ↔ a.same b = true
  swap : ∀ a b, d.compareElements a b < 0 ↔ 0 < d.compareElements b a
  le_trans : ∀ a b c, d.compareElements a b ≤ 0 → d.compareElements b c ≤ 0 →
    d.compareElements a c ≤ 0

/-- `#define ROWS_OF_TWO_OCTAVES 24`. -/
def ROWS_OF_TWO_OCTAVES : Int := 24

/-! ## Background pattern images cache -/

/-- `PianoRoll::renderRowsPattern`: a 1x1 placeholder below the minimal row height,
otherwise a tile 128 pixels wide and two octaves high (the drawing itself is not
modelled). -/
def renderRowsPattern (d : Decls) (_scale : Scale) (_root : Int) (height : Int) : Image :=
  if height < d.PIANOROLL_MIN_ROW_HEIGHT then
    { width := 1, height := 1 }
  else
    { width := 128, height := height * ROWS_OF_TWO_OCTAVES }

/-- `PianoRoll::renderBackgroundCacheFor`: one image for every `j` from 0 to
`PIANOROLL_MAX_ROW_HEIGHT` inclusive. -/
def renderBackgroundCacheFor (d : Decls) (rootKey : Int) (scale : Scale) : List Image :=
  (List.range (d.PIANOROLL_MAX_ROW_HEIGHT + 1).toNat).map
    (fun j => renderRowsPattern d scale rootKey (j : Int))

/-- The loop of `PianoRoll::binarySearchForHighlightingScheme` on the window
`[s, e)`. The recursion is on `fuel`, an upper bound of the width `e - s` that every
iteration lowers; with no fuel left the window is empty, the loop condition `s < e`
fails and the code returns -1. Both `getUnchecked` reads are inside the array because
`s < e ≤ size`. -/
def searchLoop (d : Decls) (cache : List HighlightingScheme) (target : KeySignatureEvent) :
    (fuel s e : Nat) → e ≤ cache.length → e - s ≤ fuel → Int
  | 0, _, _, _, _ => -1
  | fuel + 1, s, e, he, hf =>
    if hs : s < e then
      if d.compareElements target.id (cache[s]).id = 0 then
        (s : Int)
      else
        if hh : (s + e) / 2 = s then
          -1
        else
          if d.compareElements target.id (cache[(s + e) / 2]).id ≥ 0 then
            searchLoop d cache target fuel ((s + e) / 2) e he (by omega)
          else
            searchLoop d cache target fuel s ((s + e) / 2) (by omega) (by omega)
    else
      -1

/-- `PianoRoll::binarySearchForHighlightingScheme` on the array `backgroundsCache`:
the index of a scheme that compares equal to the target, or -1. -/
def binarySearchForHighlightingScheme (d : Decls) (cache : List HighlightingScheme)
    (target : KeySignatureEvent) : Int :=
  searchLoop d cache target cache.length 0 cache.length (le_refl _) (by omega)

/-- `backgroundsCache.getUnchecked (index)`: the element at the index. A read outside
the array has no defined result: `none`. -/
def getUnchecked (cache : List HighlightingScheme) (index : Int) : Option HighlightingScheme :=
  if 0 ≤ index then cache[index.toNat]? else none

/-- What one pass through the body of the loop of `binarySearchForHighlightingScheme`
does: it returns an index, it breaks out of the loop, it goes on with another window,
or it has read outside the array. -/
inductive SearchStep where
  | returned (index : Int)
  | broke
  | next (s e : Int)
  | outOfBounds
deriving DecidableEq, Repr

/-- The body of the loop of `binarySearchForHighlightingScheme` on the window `[s, e)`,
entered when `s < e`, with both reads unchecked as in the source. `(s + e) / 2` is the
division of `int`, which rounds towards zero. The sum is taken without overflow: the
cache holds one scheme per key signature identity and stays far below `2^30` entries. -/
def searchIteration (d : Decls) (cache : List HighlightingScheme) (target : KeySignatureEvent)
    (s e : Int) : SearchStep :=
  match getUnchecked cache s with
  | none => .outOfBounds
  | some scheme =>
    if d.compareElements target.id scheme.id = 0 then .returned s
    else
      let halfway := Int.tdiv (s + e) 2
      if halfway = s then .broke
      else
        match getUnchecked cache halfway with
        | none => .outOfBounds
        | some scheme2 =>
          if d.compareElements target.id scheme2.id ≥ 0 then .next halfway e
          else .next s halfway

/-- How a run of the loop ends: with the value that the function returns, with a read
outside the array, or still running after the passes it was given. -/
inductive SearchResult where
  | value (index : Int)
  | outOfBounds
  | outOfFuel
deriving DecidableEq, Repr

/-- The loop `while (s < e)` of `binarySearchForHighlightingScheme` and the
`return -1` behind it, run for at most `fuel` passes from the window `[s, e)`. -/
def searchRun (d : Decls) (cache : List HighlightingScheme) (target : KeySignatureEvent) :
    Nat → Int → Int → SearchResult
  | 0, s, e => if s < e then .outOfFuel else .value (-1)
  | fuel + 1, s, e =>
    if s < e then
      match searchIteration d cache target s e with
      | .returned index => .value index
      | .broke => .value (-1)
      | .next s2 e2 => searchRun d cache target fuel s2 e2
      | .outOfBounds => .outOfBounds
    else .value (-1)

/-- Modelled from the spec: `OwnedArray::addSorted` is toolkit code outside the
sources; spec 4.1 says the new scheme is inserted in sorted position. The new element
goes in front of the first entry that compares greater than it. -/
def addSorted (d : Decls) : List HighlightingScheme → HighlightingScheme →
    List HighlightingScheme
  | [], newElement => [newElement]
  | x :: xs, newElement =>
    if d.compareElements newElement.id x.id < 0 then newElement :: x :: xs
    else x :: addSorted d xs newElement

/-- `PianoRoll::updateBackgroundCacheFor` on the array `backgroundsCache`: a scheme
for the key signature is rendered and added unless the search finds one. -/
def updateBackgroundCacheFor (d : Decls) (cache : List HighlightingScheme)
    (key : KeySignatureEvent) : List HighlightingScheme :=
  if binarySearchForHighlightingScheme d cache key < 0 then
    addSorted d cache
      { rootKey := key.rootKey, scale := key.scale,
        rows := renderBackgroundCacheFor d key.rootKey key.scale }
  else
    cache

/-- `PianoRoll::removeBackgroundCacheFor` on the array `backgroundsCache`.
`sequences` is the project's key signature sequence
(`project.getTimeline()->getKeySignatures()->getSequence()`). The removal is refused
when another event of the sequence compares equal to `key`. -/
def removeBackgroundCacheFor (d : Decls) (sequences : List KeySignatureEvent)
    (cache : List HighlightingScheme) (key : KeySignatureEvent) : List HighlightingScheme :=
  if sequences.any (fun k => decide (k.addr ≠ key.addr) &&
      decide (d.compareElements k.id key.id = 0)) then
    cache
  else
    let index := binarySearchForHighlightingScheme d cache key
    if index ≥ 0 then cache.eraseIdx index.toNat else cache


/-! ## The project, as the roll reads it -/

/-- Modelled from the spec: `Note` is declared outside the sources; spec 3 gives its
identity as (key, beat, length, velocity, owning sequence). `sequence` is the track
that owns the sequence (`getSequence()->getTrack()`). Beat, length and velocity are
floats in the source; the index only compares them for equality and they stand here
as integers on a fixed grid. -/
structure Note where
  sequence : Nat
  key : Int
  beat : Int
  length : Int
  velocity : Int
deriving DecidableEq, Repr

/-- Modelled from the spec: `Clip` is declared outside the sources; spec 3 gives its
identity as (pattern, beat offset, owning track). `pattern` is the track that owns the
pattern (`getPattern()->getTrack()`). -/
structure Clip where
  pattern : Nat
  beat : Int
deriving DecidableEq, Repr

/-- A MIDI event with its type tag: a note, a key signature, or an event of another
type (annotation, time signature, automation). -/
inductive MidiEvent where
  | note (n : Note)
  | keySignature (k : KeySignatureEvent)
  | other (type : Nat)
deriving DecidableEq, Repr

/-- A track: its identity, its pattern (the list of its clips, which may be missing)
and its sequence of events. -/
structure MidiTrack where
  id : Nat
  pattern : Option (List Clip)
  sequence : List MidiEvent
deriving DecidableEq, Repr

/-- The project as the roll queries it: `getTracks()` and the key signature sequence
of the timeline (`getTimeline()->getKeySignatures()->getSequence()`). -/
structure Project where
  tracks : List MidiTrack
  keySignatures : List KeySignatureEvent
deriving DecidableEq, Repr

/-! ## The state of the roll -/

/-- What the `const Clip &` of a component is bound to: the clip object of the document
(`loadTrack`, `onAddClip`), the key of the entry of `patternMap` that holds the component
(`c.first` in `onAddMidiEvent`), or an object that has been destroyed. -/
inductive ClipRef where
  | document
  | mapKey
  | destroyed
deriving DecidableEq, Repr

/-- A `NoteComponent` on the heap. `ptr` is its address, which is what the lasso
selection and `newNoteDragging` hold; `note` and `clip` are the event and the clip it
holds references to, read at their current value; `clipRef` says what the reference to
the clip is bound to. -/
structure NoteComponent where
  ptr : Nat
  note : Note
  clip : Clip
  active : Bool
  clipRef : ClipRef := .document
deriving DecidableEq, Repr

/-- Modelled from the spec: the map type behind `SequenceMap` and `PatternMap` is
declared outside the sources; spec 3 and 9 describe an associative container keyed by
value objects whose values are owned entries. A key is bound to an owned value or to
the null pointer, and no key occurs twice. The order of the list stands for the
iteration order of the container. -/
abbrev HashMap (κ ν : Type) := List (κ × Option ν)

/-- `SequenceMap`: note to the component that shows it. -/
abbrev SequenceMap := HashMap Note NoteComponent

/-- `PatternMap`: clip to the sequence map of that clip. -/
abbrev PatternMap := HashMap Clip SequenceMap

instance instDecidableEqSequenceMap : DecidableEq SequenceMap :=
  inferInstanceAs (DecidableEq (List (Note × Option NoteComponent)))

instance instDecidableEqPatternMap : DecidableEq PatternMap :=
  inferInstanceAs (DecidableEq (List (Clip × Option SequenceMap)))

/-- The keys of the map (`map.size()` is their number). -/
def HashMap.keys {κ ν : Type} (m : HashMap κ ν) : List κ :=
  m.map Prod.fst

/-- `map.contains(key)`. -/
def HashMap.contains {κ ν : Type} [DecidableEq κ] (m : HashMap κ ν) (k : κ) : Bool :=
  m.any (fun e => decide (e.1 = k))

/-- The pointer read by `map[key].get()`: null when the key is missing or bound to
null. -/
def HashMap.get {κ ν : Type} [DecidableEq κ] : HashMap κ ν → κ → Option ν
  | [], _ => none
  | (k1, v) :: rest, k => if k1 = k then v else HashMap.get rest k

/-- The map after `map[key] = value`: the value of an existing key is replaced, a
missing key is inserted (this is how `loadTrack` and `onAddMidiEvent` insert). The
subscript itself creates the slot of a missing key, with a null pointer in it, so
`assign map key none` is also the map after `map[key].release()`. -/
def HashMap.assign {κ ν : Type} [DecidableEq κ] : HashMap κ ν → κ → Option ν → HashMap κ ν
  | [], k, v => [(k, v)]
  | (k1, v1) :: rest, k, v =>
    if k1 = k then (k1, v) :: rest else (k1, v1) :: HashMap.assign rest k v

/-- The map after `map[key].get()`: the value is left alone, and the subscript has
created the slot of a missing key, with a null pointer in it. -/
def HashMap.subscript {κ ν : Type} [DecidableEq κ] (m : HashMap κ ν) (k : κ) : HashMap κ ν :=
  if m.contains k then m else m ++ [(k, none)]

/-- `map.erase(key)`. -/
def HashMap.erase {κ ν : Type} [DecidableEq κ] (m : HashMap κ ν) (k : κ) : HashMap κ ν :=
  m.filter (fun e => decide (e.1 ≠ k))

/-- The part of the viewport the roll reads and sets. -/
structure Viewport where
  viewPositionX : Int
  viewPositionY : Int
  viewWidth : Int
  viewHeight : Int
deriving DecidableEq, Repr

/-- The state of a `PianoRoll`. `selection` holds the addresses of the selected
components, `setSizeCalls` records every call of `setSize`, and `nextComponent` is the
address the next `new NoteComponent` gets. -/
structure PianoRoll where
  patternMap : PatternMap
  selection : List Nat
  backgroundsCache : List HighlightingScheme
  activeTrack : Option Nat
  activeClip : Option Clip
  numRows : Int
  rowHeight : Int
  width : Int
  height : Int
  setSizeCalls : List (Int × Int)
  newNoteDragging : Option Nat
  addNewNoteMode : Bool
  ghostNotes : List NoteComponent
  batchRepaintList : List Nat
  asyncUpdatePending : Bool
  viewport : Viewport
  nextComponent : Nat
deriving DecidableEq, Repr

/-- Modelled from the spec: `NoteComponent::belongsTo` is outside the sources; spec 4.2
says a component is active when it matches the active track and clip. -/
def belongsTo (note : Note) (clip : Clip) (activeTrack : Option Nat)
    (activeClip : Option Clip) : Bool :=
  decide (activeTrack = some note.sequence) && decide (activeClip = some clip)

/-- The macro `forEachSequenceMapOfGivenTrack`: `body` runs, in iteration order, on
every sequence map whose clip belongs to `track`; it may change the rest of the state
and the sequence map it is given. Dereferencing a null sequence map
(`*c.second.get()`) has no defined result: `none`. -/
def forEachSequenceMapOfGivenTrack (track : Nat)
    (body : PianoRoll → Clip → SequenceMap → PianoRoll × SequenceMap) :
    PatternMap → PianoRoll → Option (PatternMap × PianoRoll)
  | [], roll => some ([], roll)
  | (clip, v) :: rest, roll =>
    if clip.pattern = track then
      match v with
      | none => none
      | some sequenceMap =>
        match forEachSequenceMapOfGivenTrack track body rest
            (body roll clip sequenceMap).1 with
        | none => none
        | some (rest2, roll2) =>
          some ((clip, some (body roll clip sequenceMap).2) :: rest2, roll2)
    else
      match forEachSequenceMapOfGivenTrack track body rest roll with
      | none => none
      | some (rest2, roll2) => some ((clip, v) :: rest2, roll2)

/-- Runs the macro on the roll's own `patternMap` and stores the result. -/
def PianoRoll.forEachOfTrack (roll : PianoRoll) (track : Nat)
    (body : PianoRoll → Clip → SequenceMap → PianoRoll × SequenceMap) : Option PianoRoll :=
  match forEachSequenceMapOfGivenTrack track body roll.patternMap roll with
  | none => none
  | some (patternMap, roll2) => some { roll2 with patternMap := patternMap }

/-! ## ProjectListener: note and key signature events -/

/-- The loop body of `PianoRoll::onAddMidiEvent` for a note: a new component is bound
to the note in the sequence map, its clip being the key `c.first` of the entry of
`patternMap`; in `addNewNoteMode` an active component becomes the note being dragged
and the only selected one. -/
def addNoteBody (note : Note) (roll : PianoRoll) (clip : Clip) (sequenceMap : SequenceMap) :
    PianoRoll × SequenceMap :=
  let isActive := belongsTo note clip roll.activeTrack roll.activeClip
  let component : NoteComponent :=
    { ptr := roll.nextComponent, note := note, clip := clip, active := isActive,
      clipRef := .mapKey }
  let roll1 : PianoRoll :=
    { roll with
      nextComponent := roll.nextComponent + 1
      batchRepaintList := roll.batchRepaintList ++ [component.ptr]
      asyncUpdatePending := true }
  let roll2 : PianoRoll :=
    if roll.addNewNoteMode && isActive then
      { roll1 with
        newNoteDragging := some component.ptr
        addNewNoteMode := false
        selection := [component.ptr] }
    else roll1
  (roll2, HashMap.assign sequenceMap note (some component))

/-- The loop body of `PianoRoll::onChangeMidiEvent` for a note: when
`sequenceMap[note].release()` yields a component, the old key is erased and the
component is bound to the new key; the component refers to the changed event. When it
yields null, only the subscript has happened. -/
def changeNoteBody (note newNote : Note) (roll : PianoRoll) (_clip : Clip)
    (sequenceMap : SequenceMap) : PianoRoll × SequenceMap :=
  match HashMap.get sequenceMap note with
  | some component =>
    let released := HashMap.assign sequenceMap note none
    let erased := HashMap.erase released note
    ({ roll with
        batchRepaintList := roll.batchRepaintList ++ [component.ptr]
        asyncUpdatePending := true },
      HashMap.assign erased newNote (some { component with note := newNote }))
  | none => (roll, HashMap.assign sequenceMap note none)

/-- The loop body of `PianoRoll::onRemoveMidiEvent` for a note: when
`sequenceMap[note].get()` yields a component it is deselected and its key erased. -/
def removeNoteBody (note : Note) (roll : PianoRoll) (_clip : Clip)
    (sequenceMap : SequenceMap) : PianoRoll × SequenceMap :=
  match HashMap.get sequenceMap note with
  | some deletedComponent =>
    ({ roll with selection := roll.selection.filter (fun p => decide (p ≠ deletedComponent.ptr)) },
      HashMap.erase sequenceMap note)
  | none => (roll, HashMap.subscript sequenceMap note)

/-- `PianoRoll::hideAllGhostNotes`: the ghost notes fade out and the list is
cleared. -/
def hideAllGhostNotes (roll : PianoRoll) : PianoRoll :=
  { roll with ghostNotes := [] }

/-- `PianoRoll::onAddMidiEvent`. The call of the base class handler that ends each
of the three event handlers is outside the sources and not modelled. -/
def onAddMidiEvent (d : Decls) (roll : PianoRoll) (event : MidiEvent) : Option PianoRoll :=
  match event with
  | .note note => roll.forEachOfTrack note.sequence (addNoteBody note)
  | .keySignature key =>
    some { roll with backgroundsCache := updateBackgroundCacheFor d roll.backgroundsCache key }
  | .other _ => some roll

/-- `PianoRoll::onChangeMidiEvent`. Both events have the type of the old one (the
code casts the new event to it); the track is that of the new event. -/
def onChangeMidiEvent (d : Decls) (project : Project) (roll : PianoRoll)
    (oldEvent newEvent : MidiEvent) : Option PianoRoll :=
  match oldEvent, newEvent with
  | .note note, .note newNote =>
    roll.forEachOfTrack newNote.sequence (changeNoteBody note newNote)
  | .keySignature oldKey, .keySignature newKey =>
    if oldKey.rootKey ≠ newKey.rootKey ∨ ¬ (oldKey.scale.isEquivalentTo newKey.scale = true) then
      let removed := removeBackgroundCacheFor d project.keySignatures roll.backgroundsCache oldKey
      some { roll with backgroundsCache := updateBackgroundCacheFor d removed newKey }
    else some roll
  | .other _, _ => some roll
  | _, _ => none

/-- `PianoRoll::onRemoveMidiEvent`. -/
def onRemoveMidiEvent (d : Decls) (project : Project) (roll : PianoRoll)
    (event : MidiEvent) : Option PianoRoll :=
  match event with
  | .note note => (hideAllGhostNotes roll).forEachOfTrack note.sequence (removeNoteBody note)
  | .keySignature key =>
    some { roll with
      backgroundsCache :=
        removeBackgroundCacheFor d project.keySignatures roll.backgroundsCache key }
  | .other _ => some roll

/-! ## ProjectListener: clips and tracks -/

/-- The first loop of `PianoRoll::onAddClip`: the first entry of `patternMap`, in
iteration order, whose clip belongs to `track` (the loop breaks there). -/
def findReferenceMap (track : Nat) : PatternMap → Option (Clip × Option SequenceMap)
  | [] => none
  | (clip, v) :: rest =>
    if clip.pattern = track then some (clip, v) else findReferenceMap track rest

/-- The second loop of `PianoRoll::onAddClip`, over the entries of the reference map:
every component's note gets a new component bound to `clip` in the new sequence map.
Reading the note of a null component (`e.second.get()->getNote()`) has no defined
result: `none`. -/
def cloneSequence (clip : Clip) : SequenceMap → PianoRoll → SequenceMap →
    Option (PianoRoll × SequenceMap)
  | [], roll, sequenceMap => some (roll, sequenceMap)
  | (_, none) :: _, _, _ => none
  | (_, some referenceComponent) :: rest, roll, sequenceMap =>
    let note := referenceComponent.note
    let component : NoteComponent :=
      { ptr := roll.nextComponent, note := note, clip := clip,
        active := belongsTo note clip roll.activeTrack roll.activeClip }
    cloneSequence clip rest
      { roll with
        nextComponent := roll.nextComponent + 1
        batchRepaintList := roll.batchRepaintList ++ [component.ptr] }
      (HashMap.assign sequenceMap note (some component))

/-- `PianoRoll::onAddClip`. Without a reference map (no entry for the track, or a
null pointer in the first one) nothing happens. When the first entry for the track is
the one of `clip` itself, `patternMap[clip] = ...` destroys the reference map before
it is read, which has no defined result: `none`. -/
def onAddClip (roll : PianoRoll) (clip : Clip) : Option PianoRoll :=
  match findReferenceMap clip.pattern roll.patternMap with
  | none => some roll
  | some (_, none) => some roll
  | some (first, some referenceMap) =>
    if first = clip then none
    else
      match cloneSequence clip referenceMap roll [] with
      | none => none
      | some (roll2, sequenceMap) =>
        some { roll2 with
          patternMap := HashMap.assign roll.patternMap clip (some sequenceMap)
          asyncUpdatePending := true }

/-- A sequence map whose clip has changed and whose old key `onChangeClip` has erased:
a component that refers to the clip object of the document reads its new value
(`onChangeClip`: their beats should change); the reference of a component that refers
to the erased key of `patternMap` is left dangling. -/
def rebindClip (newClip : Clip) (sequenceMap : SequenceMap) : SequenceMap :=
  sequenceMap.map (fun e => (e.1, e.2.map (fun c =>
    match c.clipRef with
    | .document => { c with clip := newClip }
    | _ => { c with clipRef := .destroyed })))

/-- The addresses of the components of a sequence map; a null pointer is not
recorded. -/
def componentsOf (sequenceMap : SequenceMap) : List Nat :=
  sequenceMap.filterMap (fun e => e.2.map (fun c => c.ptr))

/-- `PianoRoll::onChangeClip`: when `patternMap[clip].release()` yields a sequence
map, the old key is erased, the map is bound to the new key and its components are
put on the repaint list. When it yields null, only the subscript has happened. -/
def onChangeClip (roll : PianoRoll) (clip newClip : Clip) : PianoRoll :=
  match HashMap.get roll.patternMap clip with
  | some sequenceMap =>
    let released := HashMap.assign roll.patternMap clip none
    let erased := HashMap.erase released clip
    { roll with
      patternMap := HashMap.assign erased newClip (some (rebindClip newClip sequenceMap))
      batchRepaintList := roll.batchRepaintList ++ componentsOf sequenceMap
      asyncUpdatePending := true }
  | none => { roll with patternMap := HashMap.assign roll.patternMap clip none }

/-- `PianoRoll::onRemoveClip`: when `patternMap[clip].get()` yields a sequence map the
key is erased, which destroys the map and its components. When it yields null, only
the subscript has happened. The selection is not touched. -/
def onRemoveClip (roll : PianoRoll) (clip : Clip) : PianoRoll :=
  match HashMap.get roll.patternMap clip with
  | some _ => { roll with patternMap := HashMap.erase roll.patternMap clip }
  | none => { roll with patternMap := HashMap.subscript roll.patternMap clip }

/-- The loop `for (const auto &c : this->patternMap)` of `PianoRoll::onRemoveTrack`:
`body` runs on every sequence map of the index, whatever its track. Dereferencing a
null sequence map (`*c.second.get()`) has no defined result: `none`. -/
def forEachSequenceMap (body : PianoRoll → Clip → SequenceMap → PianoRoll × SequenceMap) :
    PatternMap → PianoRoll → Option (PatternMap × PianoRoll)
  | [], roll => some ([], roll)
  | (_, none) :: _, _ => none
  | (clip, some sequenceMap) :: rest, roll =>
    match forEachSequenceMap body rest (body roll clip sequenceMap).1 with
    | none => none
    | some (rest2, roll2) =>
      some ((clip, some (body roll clip sequenceMap).2) :: rest2, roll2)

/-- The loop over the events of the removed track in `PianoRoll::onRemoveTrack`: the
components of a note are deselected and erased in every sequence map, with the loop
body of `onRemoveMidiEvent`; the background of a key signature is released. -/
def removeTrackEvents (d : Decls) (project : Project) : List MidiEvent → PianoRoll →
    Option PianoRoll
  | [], roll => some roll
  | .note note :: rest, roll =>
    match forEachSequenceMap (removeNoteBody note) roll.patternMap roll with
    | none => none
    | some (patternMap, roll2) =>
      removeTrackEvents d project rest { roll2 with patternMap := patternMap }
  | .keySignature key :: rest, roll =>
    removeTrackEvents d project rest
      { roll with
        backgroundsCache :=
          removeBackgroundCacheFor d project.keySignatures roll.backgroundsCache key }
  | .other _ :: rest, roll => removeTrackEvents d project rest roll

/-- `PianoRoll::onRemoveTrack`: the selection and the ghost notes are dropped, then
every event of the track's sequence is handled. -/
def onRemoveTrack (d : Decls) (project : Project) (roll : PianoRoll) (track : MidiTrack) :
    Option PianoRoll :=
  removeTrackEvents d project track.sequence (hideAllGhostNotes { roll with selection := [] })

/-! ## Loading the project -/

/-- The inner loop of `PianoRoll::loadTrack`: one component for every note event of
the sequence, bound to the clip. -/
def loadSequence (clip : Clip) : List MidiEvent → PianoRoll → SequenceMap →
    PianoRoll × SequenceMap
  | [], roll, sequenceMap => (roll, sequenceMap)
  | .note note :: rest, roll, sequenceMap =>
    let nc : NoteComponent :=
      { ptr := roll.nextComponent, note := note, clip := clip,
        active := belongsTo note clip roll.activeTrack roll.activeClip }
    loadSequence clip rest { roll with nextComponent := roll.nextComponent + 1 }
      (HashMap.assign sequenceMap note (some nc))
  | _ :: rest, roll, sequenceMap => loadSequence clip rest roll sequenceMap

/-- The outer loop of `PianoRoll::loadTrack`: every clip of the pattern gets a fresh
sequence map under its key. -/
def loadClips (sequence : List MidiEvent) : List Clip → PianoRoll → PianoRoll
  | [], roll => roll
  | clip :: rest, roll =>
    let filled := loadSequence clip sequence roll []
    loadClips sequence rest
      { filled.1 with patternMap := HashMap.assign filled.1.patternMap clip (some filled.2) }

/-- `PianoRoll::loadTrack`: nothing happens for a track without a pattern. -/
def loadTrack (roll : PianoRoll) (track : MidiTrack) : PianoRoll :=
  match track.pattern with
  | none => roll
  | some clips => loadClips track.sequence clips roll

/-- The loop of `reloadRollContent` and `onAddTrack` that renders a background for
every key signature of a sequence. -/
def updateBackgroundsOf (d : Decls) : List MidiEvent → List HighlightingScheme →
    List HighlightingScheme
  | [], cache => cache
  | .keySignature key :: rest, cache =>
    updateBackgroundsOf d rest (updateBackgroundCacheFor d cache key)
  | _ :: rest, cache => updateBackgroundsOf d rest cache

/-- The loop over the tracks in `PianoRoll::reloadRollContent`. -/
def loadTracks (d : Decls) : List MidiTrack → PianoRoll → PianoRoll
  | [], roll => roll
  | track :: rest, roll =>
    let loaded := loadTrack roll track
    loadTracks d rest
      { loaded with
        backgroundsCache := updateBackgroundsOf d track.sequence loaded.backgroundsCache }

/-- `PianoRoll::reloadRollContent`: selection, cache and index are emptied and the
index and the cache are built again from the tracks of the project. -/
def reloadRollContent (d : Decls) (project : Project) (roll : PianoRoll) : PianoRoll :=
  loadTracks d project.tracks
    { roll with selection := [], backgroundsCache := [], patternMap := [] }

/-! ## Row height -/

/-- Modelled from the spec: `jlimit (lowerLimit, upperLimit, valueToConstrain)` is
toolkit code outside the sources; spec 4.3 says that `setRowHeight` clamps its argument
to the two limits. -/
def jlimit (lowerLimit upperLimit valueToConstrain : Int) : Int :=
  if valueToConstrain < lowerLimit then lowerLimit
  else if upperLimit < valueToConstrain then upperLimit
  else valueToConstrain

/-- Modelled from the spec: `Component::setSize` is toolkit code outside the sources;
spec 4.3 says that it resizes the component. The call is recorded in `setSizeCalls`. -/
def setSize (roll : PianoRoll) (w h : Int) : PianoRoll :=
  { roll with width := w, height := h, setSizeCalls := roll.setSizeCalls ++ [(w, h)] }

/-- `PianoRoll::setRowHeight`. -/
def setRowHeight (d : Decls) (roll : PianoRoll) (newRowHeight : Int) : PianoRoll :=
  if newRowHeight = roll.rowHeight then roll
  else
    let roll1 : PianoRoll :=
      { roll with
        rowHeight := jlimit d.PIANOROLL_MIN_ROW_HEIGHT d.PIANOROLL_MAX_ROW_HEIGHT newRowHeight }
    setSize roll1 roll1.width (d.HYBRID_ROLL_HEADER_HEIGHT + roll1.numRows * roll1.rowHeight)

/-- The constructor `PianoRoll::PianoRoll`: the member initialisers, then
`setRowHeight(PIANOROLL_MIN_ROW_HEIGHT + 5)` and `reloadRollContent()`. The default
highlighting scheme, which is kept outside `backgroundsCache`, and the helper
components are not part of the state modelled here. -/
def PianoRoll.construct (d : Decls) (project : Project) (viewport : Viewport) : PianoRoll :=
  let initial : PianoRoll :=
    { patternMap := [], selection := [], backgroundsCache := [],
      activeTrack := none, activeClip := none,
      numRows := 128, rowHeight := d.PIANOROLL_MIN_ROW_HEIGHT,
      width := 0, height := 0, setSizeCalls := [],
      newNoteDragging := none, addNewNoteMode := false,
      ghostNotes := [], batchRepaintList := [], asyncUpdatePending := false,
      viewport := viewport, nextComponent := 0 }
  reloadRollContent d project (setRowHeight d initial (d.PIANOROLL_MIN_ROW_HEIGHT + 5))

/-! ## Coordinate mapping and zoom -/

/-- A `Point<float>`; floats are modelled as rationals. -/
structure Point where
  x : Rat
  y : Rat

/-- The conversion `int(x)` of a float: the fraction is cut off, towards zero. -/
def truncate (q : Rat) : Int :=
  Int.tdiv q.num q.den

/-- The toolkit's `jmin (a, b)`: the smaller of two values. -/
def jmin {α : Type} [LT α] [DecidableRel (fun a b : α => a < b)] (a b : α) : α :=
  if b < a then b else a

/-- The toolkit's `jmax (a, b)`: the larger of two values. -/
def jmax {α : Type} [LT α] [DecidableRel (fun a b : α => a < b)] (a b : α) : α :=
  if a < b then b else a

/-- Modelled from the spec: `Viewport::setViewPosition` is toolkit code outside the
sources; spec 4.3 says that the roll repositions the scroll with it. -/
def setViewPosition (roll : PianoRoll) (x y : Int) : PianoRoll :=
  { roll with viewport := { roll.viewport with viewPositionX := x, viewPositionY := y } }

/-- Rounding of a rational to the nearest integer, a tie to the even one. -/
def roundHalfEven (x : Rat) : Int :=
  if x - (⌊x⌋ : Int) < 1 / 2 then ⌊x⌋
  else if 1 / 2 < x - (⌊x⌋ : Int) then ⌊x⌋ + 1
  else if ⌊x⌋ % 2 = 0 then ⌊x⌋ else ⌊x⌋ + 1

/-- The value of type `float` nearest to a rational: the significand has 24 binary
digits and is rounded to nearest, a tie to the even significand. This is what `float (n)`
makes of an `int` and what the division of two floats makes of their quotient. The
limits of the exponent are not modelled: the rationals rounded here are values of type
`int` and quotients of them. -/
def roundToFloat (q : Rat) : Rat :=
  if q = 0 then 0
  else (roundHalfEven (q / 2 ^ (Int.log 2 |q| - 23)) : Rat) * 2 ^ (Int.log 2 |q| - 23)

/-- `PianoRoll::zoomToArea`. The number of keys and the height of the viewport are
converted to `float`, their quotient is a `float`, and `int (...)` cuts it off. With no
key to fit the quotient is not a number and its conversion has no defined result; the
model has 0 there. The horizontal fit is done by the base class and is not modelled. -/
def zoomToArea (d : Decls) (roll : PianoRoll) (minKey maxKey : Int) (_minBeat _maxBeat : Rat) :
    PianoRoll :=
  let margin : Int := 2
  let numKeysToFit : Rat := roundToFloat ((maxKey - minKey + margin : Int) : Rat)
  let heightToFit : Rat := roundToFloat (roll.viewport.viewHeight : Rat)
  let roll1 := setRowHeight d roll (truncate (roundToFloat (heightToFit / numKeysToFit)))
  let maxKeyY : Int := roll1.rowHeight * (128 - maxKey - margin)
  setViewPosition roll1 (roll1.viewport.viewPositionY - d.HYBRID_ROLL_HEADER_HEIGHT) maxKeyY

/-- The constant `yZoomThreshold = 0.005f` of `PianoRoll::zoomRelative`. -/
def yZoomThreshold : Rat := 5 / 1000

/-- `PianoRoll::zoomRelative`. The float arithmetic of the new view position is carried
out in rationals. The horizontal zoom is done by the base class and is not modelled. -/
def zoomRelative (d : Decls) (roll : PianoRoll) (origin factor : Point) : PianoRoll :=
  if |factor.y| > yZoomThreshold then
    let oldViewPositionX : Rat := roll.viewport.viewPositionX
    let oldViewPositionY : Rat := roll.viewport.viewPositionY
    let absoluteOriginY : Rat := oldViewPositionY + origin.y
    let oldHeight : Rat := roll.height
    let newRowHeight0 : Int := roll.rowHeight
    let newRowHeight1 : Int :=
      if factor.y < -yZoomThreshold then newRowHeight0 - 1 else newRowHeight0
    let newRowHeight2 : Int :=
      if factor.y > yZoomThreshold then newRowHeight1 + 1 else newRowHeight1
    let estimatedNewHeight : Int := newRowHeight2 * roll.numRows
    let newRowHeight : Int :=
      if estimatedNewHeight < roll.viewport.viewHeight ∨
          newRowHeight2 > d.PIANOROLL_MAX_ROW_HEIGHT ∨
          newRowHeight2 < d.PIANOROLL_MIN_ROW_HEIGHT then
        roll.rowHeight
      else newRowHeight2
    let roll1 := setRowHeight d roll newRowHeight
    let newHeight : Rat := roll1.height
    let mouseOffsetY : Rat := absoluteOriginY - oldViewPositionY
    let newViewPositionY : Rat := (absoluteOriginY * newHeight) / oldHeight - mouseOffsetY
    setViewPosition roll1 (truncate oldViewPositionX) (truncate (newViewPositionY + 1 / 2))
  else roll

/-- `INT_MAX` of the 32-bit `int`. -/
def INT_MAX : Int := 2147483647

/-- `FLT_MAX`, the largest finite `float`. -/
def FLT_MAX : Rat := 340282346638528859811704183484516925440

/-- The locals `focusMinKey`, `focusMaxKey`, `focusMinBeat` and `focusMaxBeat` of
`PianoRoll::setEditableScope`. -/
structure Focus where
  focusMinKey : Int
  focusMaxKey : Int
  focusMinBeat : Rat
  focusMaxBeat : Rat

/-- The inner loop of `forEachEventComponent` in `PianoRoll::setEditableScope`, over the
entries of one sequence map: every component is set active or not, and the key and the
beats of an active one widen the focus. `getKey()`, `getBeat()` and `getLength()` of a
component are those of its note; the beat of the clip is added by the caller of
`getBeat()` where it is wanted. Calling a member of a null component has no defined
result, and neither has `belongsTo` when the reference to the clip is dangling: `none`. -/
def scopeSequence (activeTrack : Option Nat) (activeClip : Clip) (shouldZoomToArea : Bool) :
    SequenceMap → Focus → Option (SequenceMap × Focus)
  | [], focus => some ([], focus)
  | (_, none) :: _, _ => none
  | (note, some nc) :: rest, focus =>
    if nc.clipRef = .destroyed then none
    else
      let isActive := belongsTo nc.note nc.clip activeTrack (some activeClip)
      let focus2 : Focus :=
        if shouldZoomToArea && isActive then
          { focusMinKey := jmin focus.focusMinKey nc.note.key
            focusMaxKey := jmax focus.focusMaxKey nc.note.key
            focusMinBeat := jmin focus.focusMinBeat (nc.note.beat : Rat)
            focusMaxBeat := jmax focus.focusMaxBeat ((nc.note.beat + nc.note.length : Int) : Rat) }
        else focus
      match scopeSequence activeTrack activeClip shouldZoomToArea rest focus2 with
      | none => none
      | some (rest2, focus3) =>
        some ((note, some { nc with active := isActive }) :: rest2, focus3)

/-- The outer loop of `forEachEventComponent` in `PianoRoll::setEditableScope`, over
every sequence map of the index. Dereferencing a null sequence map has no defined
result: `none`. -/
def scopePattern (activeTrack : Option Nat) (activeClip : Clip) (shouldZoomToArea : Bool) :
    PatternMap → Focus → Option (PatternMap × Focus)
  | [], focus => some ([], focus)
  | (_, none) :: _, _ => none
  | (clip, some sequenceMap) :: rest, focus =>
    match scopeSequence activeTrack activeClip shouldZoomToArea sequenceMap focus with
    | none => none
    | some (sequenceMap2, focus2) =>
      match scopePattern activeTrack activeClip shouldZoomToArea rest focus2 with
      | none => none
      | some (rest2, focus3) => some ((clip, some sequenceMap2) :: rest2, focus3)

/-- The focus that `PianoRoll::setEditableScope` starts its loop with. -/
def initialFocus : Focus :=
  { focusMinKey := INT_MAX, focusMaxKey := 0, focusMinBeat := FLT_MAX, focusMaxBeat := -FLT_MAX }

/-- `PianoRoll::setEditableScope`. The active range indicator and the repaint are not
part of the state modelled here. -/
def setEditableScope (d : Decls) (roll : PianoRoll) (activeTrack : Option Nat)
    (activeClip : Clip) (shouldZoomToArea : Bool) : Option PianoRoll :=
  let roll1 : PianoRoll :=
    { roll with selection := [], activeTrack := activeTrack, activeClip := some activeClip }
  match scopePattern activeTrack activeClip shouldZoomToArea roll1.patternMap initialFocus with
  | none => none
  | some (patternMap, focus) =>
    let roll2 : PianoRoll := { roll1 with patternMap := patternMap }
    if shouldZoomToArea then
      some (zoomToArea d roll2 focus.focusMinKey focus.focusMaxKey
        (focus.focusMinBeat + (activeClip.beat : Rat))
        (focus.focusMaxBeat + (activeClip.beat : Rat)))
    else some roll2

/-- The cache is sorted without duplicates: every scheme compares strictly less than
every scheme behind it. -/
def SortedCache (d : Decls) (cache : List HighlightingScheme) : Prop :=
  cache.Pairwise (fun a b => d.compareElements a.id b.id < 0)

/-- The cache after `updateBackgroundCacheFor` was called for each key signature of
`keys` in turn, starting from the empty cache. -/
def updateAll (d : Decls) (keys : List KeySignatureEvent) : List HighlightingScheme :=
  keys.foldl (updateBackgroundCacheFor d) []

/-- The caches that `updateBackgroundCacheFor` and `removeBackgroundCacheFor` can
produce from the empty cache, for any key signatures and any project content. -/
inductive CacheReachable (d : Decls) : List HighlightingScheme → Prop
  | empty : CacheReachable d []
  | update (cache : List HighlightingScheme) (key : KeySignatureEvent) :
      CacheReachable d cache → CacheReachable d (updateBackgroundCacheFor d cache key)
  | remove (sequences : List KeySignatureEvent) (cache : List HighlightingScheme)
      (key : KeySignatureEvent) :
      CacheReachable d cache → CacheReachable d (removeBackgroundCacheFor d sequences cache key)

/-! ## Reachable states -/

/-- The states of the roll that matter for the row height: the constructed roll, and
what `setRowHeight` (called with any argument, directly or by the zoom functions and
`deserialize`) and any other member function make of a reachable state. No other
member function assigns `rowHeight`, so it is free to change everything else. -/
inductive Reachable (d : Decls) : PianoRoll → Prop
  | construct (project : Project) (viewport : Viewport) :
      Reachable d (PianoRoll.construct d project viewport)
  | setRowHeight (roll : PianoRoll) (h : Int) :
      Reachable d roll → Reachable d (setRowHeight d roll h)
  | other (roll roll2 : PianoRoll) :
      Reachable d roll → roll2.rowHeight = roll.rowHeight → Reachable d roll2

/-! ## The document behind the index -/

/-- The note events of a track's sequence. -/
def MidiTrack.notes (t : MidiTrack) : List Note :=
  t.sequence.filterMap (fun e => match e with | .note n => some n | _ => none)

/-- The clips of a track's pattern (none without a pattern). -/
def MidiTrack.clips (t : MidiTrack) : List Clip :=
  t.pattern.getD []

/-- The notes of the track with the given identity. -/
def Project.notesOf (p : Project) (track : Nat) : List Note :=
  (p.tracks.filter (fun t => decide (t.id = track))).flatMap MidiTrack.notes

/-- All clips of the project, track by track. -/
def Project.allClips (p : Project) : List Clip :=
  p.tracks.flatMap MidiTrack.clips

/-- The number of (clip, note) pairs of the document: for each track, the number of
its clips times the number of its note events. -/
def Project.pairCount (p : Project) : Nat :=
  (p.tracks.map (fun t => t.clips.length * t.notes.length)).sum

/-- The total number of entries over all clip submaps of `patternMap`. -/
def PianoRoll.entryCount (roll : PianoRoll) : Nat :=
  (roll.patternMap.map (fun e => match e.2 with
    | some sequenceMap => sequenceMap.length
    | none => 0)).sum

/-- The object graph of a document: tracks are distinct objects, a clip belongs to the
pattern of its track and a note to the sequence of its track, and neither a pattern
nor a sequence holds two events with the same identity. -/
structure Project.WellFormed (p : Project) : Prop where
  ids_nodup : (p.tracks.map (fun t => t.id)).Nodup
  clip_track : ∀ t ∈ p.tracks, ∀ c ∈ t.clips, c.pattern = t.id
  note_track : ∀ t ∈ p.tracks, ∀ n ∈ t.notes, n.sequence = t.id
  clips_nodup : ∀ t ∈ p.tracks, t.clips.Nodup
  notes_nodup : ∀ t ∈ p.tracks, t.notes.Nodup

/-- A mutation of the notes of the document, as the roll is told about it. -/
inductive NoteNotification where
  | add (note : Note)
  | change (note newNote : Note)
  | remove (note : Note)
deriving DecidableEq, Repr

/-- The track whose sequence the mutation changes. -/
def NoteNotification.track : NoteNotification → Nat
  | .add n => n.sequence
  | .change _ n => n.sequence
  | .remove n => n.sequence

/-- The sequence of a track after the mutation. -/
def MidiTrack.applyNote (t : MidiTrack) : NoteNotification → MidiTrack
  | .add n =>
    if t.id = n.sequence then { t with sequence := t.sequence ++ [.note n] } else t
  | .change o n =>
    if t.id = n.sequence then
      { t with sequence := t.sequence.map (fun e => if e = .note o then .note n else e) }
    else t
  | .remove n =>
    if t.id = n.sequence then
      { t with sequence := t.sequence.filter (fun e => decide (e ≠ .note n)) }
    else t

/-- The document after the mutation. -/
def Project.applyNote (p : Project) (m : NoteNotification) : Project :=
  { p with tracks := p.tracks.map (fun t => t.applyNote m) }

/-- The mutation is one the document can make: an added note is not there yet, a
changed or removed note is there, and a changed note stays in its sequence and does
not take the identity of another note. -/
def Project.admits (p : Project) : NoteNotification → Prop
  | .add n => n ∉ p.notesOf n.sequence
  | .change o n =>
    o.sequence = n.sequence ∧ o ∈ p.notesOf o.sequence ∧ (n = o ∨ n ∉ p.notesOf n.sequence)
  | .remove n => n ∈ p.notesOf n.sequence

/-- Every mutation of the list is one the document, as it is by then, can make. -/
def Project.admitsAll : Project → List NoteNotification → Prop
  | _, [] => True
  | p, m :: ms => p.admits m ∧ (p.applyNote m).admitsAll ms

instance Project.decidableAdmits (p : Project) (m : NoteNotification) :
    Decidable (p.admits m) := by
  cases m <;> unfold Project.admits <;> infer_instance

instance Project.decidableAdmitsAll : (p : Project) → (ms : List NoteNotification) →
    Decidable (p.admitsAll ms)
  | _, [] => isTrue trivial
  | p, m :: ms =>
    @instDecidableAnd _ _ (Project.decidableAdmits p m)
      (Project.decidableAdmitsAll (p.applyNote m) ms)

/-- The notification the roll receives for a mutation; `q` is the project as the
handler can query it at that moment. -/
def deliver (d : Decls) (q : Project) (roll : PianoRoll) : NoteNotification → Option PianoRoll
  | .add n => onAddMidiEvent d roll (.note n)
  | .change o n => onChangeMidiEvent d q roll (.note o) (.note n)
  | .remove n => onRemoveMidiEvent d q roll (.note n)

/-- The project at the moment the notification is delivered: an added or changed
event is reported after the mutation, a removed one before it. -/
def Project.atDelivery (p : Project) : NoteNotification → Project
  | .remove _ => p
  | m => p.applyNote m

/-- The document and the roll after a sequence of mutations, each one reported to the
roll. -/
def mirror (d : Decls) : Project → PianoRoll → List NoteNotification →
    Option (Project × PianoRoll)
  | p, roll, [] => some (p, roll)
  | p, roll, m :: ms =>
    match deliver d (p.atDelivery m) roll m with
    | none => none
    | some roll2 => mirror d (p.applyNote m) roll2 ms

/-- A mutation of the key signature sequence of the document, as the roll is told
about it. A change is reported with the old parameters (`oldKey`: the replaced event or
a copy of it) and the event that holds the new ones (`newKey`). -/
inductive KeyNotification where
  | add (key : KeySignatureEvent)
  | change (oldKey newKey : KeySignatureEvent)
  | remove (key : KeySignatureEvent)
deriving DecidableEq, Repr

/-- The key signature sequence after the mutation. An added event joins the sequence,
a removed one (the object at its address) leaves it, and a changed one, found at the
address of the old or of the new event, is now the new event. The sequences of the
tracks are left as they are: the three handlers read the key signatures through
`keySignatures` only. -/
def Project.applyKey (p : Project) : KeyNotification → Project
  | .add key => { p with keySignatures := p.keySignatures ++ [key] }
  | .change oldKey newKey =>
    { p with
      keySignatures := p.keySignatures.map (fun k =>
        if k.addr = oldKey.addr ∨ k.addr = newKey.addr then newKey else k) }
  | .remove key =>
    { p with keySignatures := p.keySignatures.filter (fun k => decide (k.addr ≠ key.addr)) }

/-- The mutation is one the document can make: the old parameters of a change are
those of a key signature of the sequence. -/
def Project.admitsKey (p : Project) : KeyNotification → Prop
  | .change oldKey _ => ∃ k ∈ p.keySignatures, k.id.same oldKey.id = true
  | _ => True

/-- Every mutation of the list is one the document, as it is by then, can make. -/
def Project.admitsKeys : Project → List KeyNotification → Prop
  | _, [] => True
  | p, m :: ms => p.admitsKey m ∧ (p.applyKey m).admitsKeys ms

instance Project.decidableAdmitsKey (p : Project) (m : KeyNotification) :
    Decidable (p.admitsKey m) := by
  cases m <;> unfold Project.admitsKey <;> infer_instance

instance Project.decidableAdmitsKeys : (p : Project) → (ms : List KeyNotification) →
    Decidable (p.admitsKeys ms)
  | _, [] => isTrue trivial
  | p, m :: ms =>
    @instDecidableAnd _ _ (Project.decidableAdmitsKey p m)
      (Project.decidableAdmitsKeys (p.applyKey m) ms)

/-- The notification the roll receives for a mutation of the key signatures; `q` is
the project as the handler can query it at that moment. -/
def deliverKey (d : Decls) (q : Project) (roll : PianoRoll) : KeyNotification → Option PianoRoll
  | .add key => onAddMidiEvent d roll (.keySignature key)
  | .change oldKey newKey =>
    onChangeMidiEvent d q roll (.keySignature oldKey) (.keySignature newKey)
  | .remove key => onRemoveMidiEvent d q roll (.keySignature key)

/-- The project at the moment the notification is delivered: an added or changed key
signature is reported after the mutation, a removed one before it. -/
def Project.atKeyDelivery (p : Project) : KeyNotification → Project
  | .remove _ => p
  | m => p.applyKey m

/-- The document and the roll after a sequence of mutations of the key signatures,
each one reported to the roll. -/
def mirrorKeys (d : Decls) : Project → PianoRoll → List KeyNotification →
    Option (Project × PianoRoll)
  | p, roll, [] => some (p, roll)
  | p, roll, m :: ms =>
    match deliverKey d (p.atKeyDelivery m) roll m with
    | none => none
    | some roll2 => mirrorKeys d (p.applyKey m) roll2 ms

/-- The cache is sorted and holds, for every key signature of the list, a scheme that
compares equal to it. -/
def CacheCovers (d : Decls) (keys : List KeySignatureEvent)
    (cache : List HighlightingScheme) : Prop :=
  SortedCache d cache ∧ ∀ k ∈ keys, ∃ x ∈ cache, d.compareElements k.id x.id = 0

/-- The submap of a clip mirrors the sequence of the clip's track: it is there, it
holds every note of the track once and no other key, and it binds each to a component. -/
def MirrorsEntry (p : Project) (e : Clip × Option SequenceMap) : Prop :=
  ∃ sm : SequenceMap, e.2 = some sm ∧ (HashMap.keys sm).Nodup ∧
    (∀ n, n ∈ HashMap.keys sm ↔ n ∈ p.notesOf e.1.pattern) ∧ (∀ x ∈ sm, x.2 ≠ none)

/-- The index mirrors the document: its clip keys are the clips of the document, and
the submap of each clip mirrors the sequence of the clip's track. -/
structure Mirrors (p : Project) (roll : PianoRoll) : Prop where
  keys_eq : HashMap.keys roll.patternMap = p.allClips
  submaps : ∀ e ∈ roll.patternMap, MirrorsEntry p e

/-- The submap of a clip holds exactly the note events of a sequence: every note event
is a key once, there is no other key, and each key is bound to a component that shows
this note in this clip. -/
def LoadedFrom (clip : Clip) (sequence : List MidiEvent) (sm : SequenceMap) : Prop :=
  (HashMap.keys sm).Nodup ∧ (∀ n, n ∈ HashMap.keys sm ↔ MidiEvent.note n ∈ sequence) ∧
  ∀ x ∈ sm, ∃ c : NoteComponent, x.2 = some c ∧ c.note = x.1 ∧ c.clip = clip

/-- How one pass of `forEachSequenceMapOfGivenTrack` with `body` relates an entry of
`patternMap` to the entry at the same place afterwards: the clip is the same, the
submap of another track is untouched, and the submap of a clip of `track` is what
`body` made of it. -/
def PassRel (track : Nat) (body : PianoRoll → Clip → SequenceMap → PianoRoll × SequenceMap)
    (e e2 : Clip × Option SequenceMap) : Prop :=
  e2.1 = e.1 ∧ (e.1.pattern ≠ track → e2.2 = e.2) ∧
  (e.1.pattern = track → ∃ (sm : SequenceMap) (r0 : PianoRoll),
    e.2 = some sm ∧ e2.2 = some (body r0 e.1 sm).2)

/-! ## Sample data -/

namespace Sample

/-- The natural major scale. -/
def major : Scale := { name := "Major", keys := [0, 2, 4, 5, 7, 9, 11] }

/-- The same interval pattern under another name. -/
def ionian : Scale := { name := "Ionian", keys := [0, 2, 4, 5, 7, 9, 11] }

/-- The natural minor scale. -/
def minor : Scale := { name := "Minor", keys := [0, 2, 3, 5, 7, 8, 10] }

/-- The identity of a scheme as a point of the lexicographic order on
(root key, interval pattern). -/
def lexKey (a : SchemeId) : Int ×ₗ List Nat :=
  toLex (a.rootKey, a.scale.keys)

/-- A comparator and the constants: root keys are compared first, then the interval
patterns; rows are 6 to 30 pixels high under a header of 48 pixels. -/
def decls : Decls :=
  { compareElements := fun a b =>
      if lexKey a < lexKey b then -1 else if lexKey b < lexKey a then 1 else 0
    PIANOROLL_MIN_ROW_HEIGHT := 6
    PIANOROLL_MAX_ROW_HEIGHT := 30
    HYBRID_ROLL_HEADER_HEIGHT := 48 }

/-- C major. -/
def keyC : KeySignatureEvent := { addr := 1, rootKey := 0, scale := major }

/-- E flat minor. -/
def keyEb : KeySignatureEvent := { addr := 2, rootKey := 3, scale := minor }

/-- C ionian: another event with the identity of `keyC`. -/
def keyC2 : KeySignatureEvent := { addr := 3, rootKey := 0, scale := ionian }

/-- C minor. -/
def keyCm : KeySignatureEvent := { addr := 4, rootKey := 0, scale := minor }

/-- The scheme rendered for a key signature. -/
def schemeOf (k : KeySignatureEvent) : HighlightingScheme :=
  { rootKey := k.rootKey, scale := k.scale,
    rows := renderBackgroundCacheFor decls k.rootKey k.scale }

/-- A sorted cache of three schemes. -/
def cache3 : List HighlightingScheme :=
  updateAll decls [keyEb, keyC, keyCm]

/-- A cache reached by three insertions and a removal. -/
def reachedCache : List HighlightingScheme :=
  removeBackgroundCacheFor decls [keyEb]
    (updateBackgroundCacheFor decls
      (updateBackgroundCacheFor decls (updateBackgroundCacheFor decls [] keyC) keyEb) keyCm)
    keyC

/-- G major, which `cache3` has no scheme for. -/
def keyG : KeySignatureEvent := { addr := 5, rootKey := 7, scale := major }

/-- A cache that is not sorted: the scheme of C minor stands behind the others. -/
def unsortedCache : List HighlightingScheme :=
  [schemeOf keyC, schemeOf keyEb, schemeOf keyCm]

/-- A viewport of 800 by 600 pixels. -/
def viewport : Viewport :=
  { viewPositionX := 0, viewPositionY := 0, viewWidth := 800, viewHeight := 600 }

/-- The only clip of track 1. -/
def clipA : Clip := { pattern := 1, beat := 0 }

/-- The note (key 60, beat 0, length 1). -/
def noteA : Note := { sequence := 1, key := 60, beat := 0, length := 1, velocity := 1 }

/-- The note (key 64, beat 1, length 1). -/
def noteB : Note := { sequence := 1, key := 64, beat := 1, length := 1, velocity := 1 }

/-- A third note of track 1. -/
def noteC : Note := { sequence := 1, key := 67, beat := 2, length := 1, velocity := 1 }

/-- A project of one track with one clip and the notes `noteA` and `noteB`. -/
def project : Project :=
  { tracks := [{ id := 1, pattern := some [clipA],
                 sequence := [.note noteA, .keySignature keyC, .note noteB] }],
    keySignatures := [keyC] }

/-- The roll constructed for an empty project. -/
def emptyRoll : PianoRoll :=
  PianoRoll.construct decls { tracks := [], keySignatures := [] } viewport

/-- The component of `noteA`. -/
def compA : NoteComponent := { ptr := 0, note := noteA, clip := clipA, active := false }

/-- The component of `noteB`. -/
def compB : NoteComponent := { ptr := 1, note := noteB, clip := clipA, active := false }

/-- A sequence map with an entry for `noteA` and one for `noteB`. -/
def mapAB : SequenceMap := [(noteA, some compA), (noteB, some compB)]

/-- A roll whose index holds `mapAB` under `clipA`. -/
def rollAB : PianoRoll :=
  { emptyRoll with patternMap := [(clipA, some mapAB)], nextComponent := 2 }

/-- Mutations of `project`: a note is added, one is changed, one is removed. -/
def mutations : List NoteNotification :=
  [.add noteC, .change noteA { noteA with key := 62 }, .remove noteB]

/-- The constructed roll in a viewport 2000 pixels high. -/
def tallViewRoll : PianoRoll :=
  { emptyRoll with viewport := { viewport with viewHeight := 2000 } }

/-- A zoom origin. -/
def origin : Point := { x := 10, y := 20 }

/-- A zoom factor that asks for higher rows. -/
def zoomIn : Point := { x := 0, y := 1 }

/-- The roll `rollAB` while a new note is being drawn in `clipA` of track 1. -/
def drawingRoll : PianoRoll :=
  { rollAB with activeTrack := some 1, activeClip := some clipA, addNewNoteMode := true }

/-- Another clip of track 1. -/
def clipB : Clip := { pattern := 1, beat := 4 }

/-- A roll whose index holds `mapAB` under `clipA` and an empty map under `clipB`. -/
def rollTwoClips : PianoRoll :=
  { emptyRoll with patternMap := [(clipA, some mapAB), (clipB, some [])], nextComponent := 2 }

/-- A clip of track 1 that is not in the index yet. -/
def clipC : Clip := { pattern := 1, beat := 8 }

/-- The track of the sample project. -/
def track : MidiTrack :=
  { id := 1, pattern := some [clipA],
    sequence := [.note noteA, .keySignature keyC, .note noteB] }

/-- A project of one track with one clip and the two notes `noteA` and `noteB`. -/
def twoNotes : Project :=
  { tracks := [{ id := 1, pattern := some [clipA], sequence := [.note noteA, .note noteB] }],
    keySignatures := [] }

/-- The roll `rollAB` with the component of `noteA` selected. -/
def selectedRoll : PianoRoll := { rollAB with selection := [0] }

/-- The only clip of track 2. -/
def clipD : Clip := { pattern := 2, beat := 0 }

/-- The only note of track 2. -/
def noteD : Note := { sequence := 2, key := 48, beat := 0, length := 2, velocity := 1 }

/-- The component of `noteD`. -/
def compD : NoteComponent := { ptr := 2, note := noteD, clip := clipD, active := false }

/-- A roll whose index holds the two notes of track 1 under `clipA` and the note of
track 2 under `clipD`. -/
def rollTwoTracks : PianoRoll :=
  { emptyRoll with
    patternMap := [(clipA, some mapAB), (clipD, some [(noteD, some compD)])]
    nextComponent := 3 }

/-- Mutations of the key signatures of `project`: E flat minor is added and then
changed to F minor, and C major is removed. -/
def keyMutations : List KeyNotification :=
  [.add keyEb, .change keyEb { keyEb with rootKey := 5 }, .remove keyC]

/-- Another clip of track 2, which is not in the index yet. -/
def clipE : Clip := { pattern := 2, beat := 4 }

/-- The constructed roll in a viewport 33554431 pixels high, a height that no `float`
holds. -/
def hugeViewRoll : PianoRoll :=
  { emptyRoll with viewport := { viewport with viewHeight := 33554431 } }

end Sample

/-! ## Theorems -/

/-! ### The comparator -/

theorem SchemeId.same_refl (a : SchemeId) : a.same a = true := by
  simp [SchemeId.same, Scale.isEquivalentTo]

theorem SchemeId.same_symm {a b : SchemeId} (h : a.same b = true) : b.same a = true := by
  simp [SchemeId.same, Scale.isEquivalentTo] at h ⊢
  exact ⟨h.1.symm, h.2.symm⟩

theorem SchemeId.same_trans {a b c : SchemeId} (h : a.same b = true) (h2 : b.same c = true) :
    a.same c = true := by
  simp [SchemeId.same, Scale.isEquivalentTo] at h h2 ⊢
  exact ⟨h.1.trans h2.1, h.2.trans h2.2⟩

theorem Decls.SchemeOrder.eq_symm {d : Decls} (hd : d.SchemeOrder) {a b : SchemeId}
    (h : d.compareElements a b = 0) : d.compareElements b a = 0 :=
  (hd.eq_zero_iff b a).2 (SchemeId.same_symm ((hd.eq_zero_iff a b).1 h))

theorem Decls.SchemeOrder.le_of_not_lt {d : Decls} (hd : d.SchemeOrder) {a b : SchemeId}
    (h : ¬ d.compareElements a b < 0) : d.compareElements b a ≤ 0 := by
  have := (hd.swap a b).not.1 h
  omega

theorem Decls.SchemeOrder.lt_of_lt_of_le {d : Decls} (hd : d.SchemeOrder) {a b c : SchemeId}
    (h : d.compareElements a b < 0) (h2 : d.compareElements b c ≤ 0) :
    d.compareElements a c < 0 := by
  by_contra hn
  have h3 := hd.le_trans b c a h2 (hd.le_of_not_lt hn)
  have h4 := (hd.swap a b).1 h
  omega

theorem Decls.SchemeOrder.lt_of_le_of_lt {d : Decls} (hd : d.SchemeOrder) {a b c : SchemeId}
    (h : d.compareElements a b ≤ 0) (h2 : d.compareElements b c < 0) :
    d.compareElements a c < 0 := by
  by_contra hn
  have h3 := hd.le_trans c a b (hd.le_of_not_lt hn) h
  have h4 := (hd.swap b c).1 h2
  omega

theorem Decls.SchemeOrder.lt_trans {d : Decls} (hd : d.SchemeOrder) {a b c : SchemeId}
    (h : d.compareElements a b < 0) (h2 : d.compareElements b c < 0) :
    d.compareElements a c < 0 :=
  hd.lt_of_lt_of_le h (le_of_lt h2)

/-- Two entries of a sorted cache that both compare equal to `t` are the same entry. -/
theorem SortedCache.index_unique {d : Decls} (hd : d.SchemeOrder)
    {cache : List HighlightingScheme} (hs : SortedCache d cache) (t : SchemeId)
    {i j : Nat} (hi : i < cache.length) (hj : j < cache.length)
    (h1 : d.compareElements t (cache[i]).id = 0) (h2 : d.compareElements t (cache[j]).id = 0) :
    i = j := by
  have key : ∀ a b (ha : a < cache.length) (hb : b < cache.length), a < b →
      d.compareElements t (cache[a]).id = 0 → d.compareElements t (cache[b]).id = 0 → False := by
    intro a b ha hb hab e1 e2
    have hlt := (List.pairwise_iff_getElem.1 hs) a b ha hb hab
    have h3 := hd.lt_of_le_of_lt (le_of_eq e1) hlt
    have h4 := hd.eq_symm e2
    have h5 := hd.lt_of_lt_of_le h3 (le_of_eq h4)
    have h6 := (hd.eq_zero_iff t t).2 (SchemeId.same_refl t)
    omega
  rcases Nat.lt_trichotomy i j with h | h | h
  · exact (key i j hi hj h h1 h2).elim
  · exact h
  · exact (key j i hj hi h h2 h1).elim

/-! ### Binary search -/

/-- Whatever the cache, the loop returns -1 or an index of the window whose scheme
compares equal to the target. -/
theorem searchLoop_sound (d : Decls) (cache : List HighlightingScheme)
    (target : KeySignatureEvent) :
    ∀ (fuel s e : Nat) (he : e ≤ cache.length) (hf : e - s ≤ fuel),
      searchLoop d cache target fuel s e he hf = -1 ∨
      ∃ (i : Nat) (hi : i < cache.length),
        searchLoop d cache target fuel s e he hf = (i : Int) ∧ s ≤ i ∧ i < e ∧
        d.compareElements target.id (cache[i]).id = 0 := by
  intro fuel
  induction fuel with
  | zero => intro s e he hf; left; rfl
  | succ n ih =>
    intro s e he hf
    unfold searchLoop
    by_cases hs : s < e
    · simp only [hs, ↓reduceDIte]
      by_cases h0 : d.compareElements target.id (cache[s]).id = 0
      · right
        exact ⟨s, by omega, by simp [h0], le_refl _, hs, h0⟩
      · simp only [h0, ↓reduceIte]
        by_cases hh : (s + e) / 2 = s
        · left; simp [hh]
        · simp only [hh, ↓reduceDIte]
          by_cases hc : d.compareElements target.id (cache[(s + e) / 2]).id ≥ 0
          · simp only [hc, ↓reduceIte]
            rcases ih ((s + e) / 2) e he (by omega) with h | ⟨i, hi, h1, h2, h3, h4⟩
            · left; exact h
            · right; exact ⟨i, hi, h1, by omega, h3, h4⟩
          · simp only [hc, ↓reduceIte]
            rcases ih s ((s + e) / 2) (by omega) (by omega) with h | ⟨i, hi, h1, h2, h3, h4⟩
            · left; exact h
            · right; exact ⟨i, hi, h1, h2, by omega, h4⟩
    · left; simp [hs]

/-- On a sorted cache the loop finds the entry of the window that compares equal to
the target. -/
theorem searchLoop_complete {d : Decls} (hd : d.SchemeOrder)
    {cache : List HighlightingScheme} (hsorted : SortedCache d cache)
    (target : KeySignatureEvent) :
    ∀ (fuel s e : Nat) (he : e ≤ cache.length) (hf : e - s ≤ fuel)
      (i : Nat) (hi : i < cache.length), s ≤ i → i < e →
      d.compareElements target.id (cache[i]).id = 0 →
      searchLoop d cache target fuel s e he hf = (i : Int) := by
  intro fuel
  induction fuel with
  | zero => intro s e he hf i hi h1 h2 _; omega
  | succ n ih =>
    intro s e he hf i hi h1 h2 h3
    have hpw := List.pairwise_iff_getElem.1 hsorted
    unfold searchLoop
    have hs : s < e := by omega
    simp only [hs, ↓reduceDIte]
    by_cases h0 : d.compareElements target.id (cache[s]).id = 0
    · simp only [h0, ↓reduceIte]
      have := SortedCache.index_unique hd hsorted target.id (by omega) hi h0 h3
      simp [this]
    · simp only [h0, ↓reduceIte]
      have hsi : s < i := by
        rcases Nat.lt_or_ge s i with h | h
        · exact h
        · have : s = i := by omega
          subst this; exact (h0 h3).elim
      have hh : ¬ (s + e) / 2 = s := by omega
      simp only [hh, ↓reduceDIte]
      by_cases hc : d.compareElements target.id (cache[(s + e) / 2]).id ≥ 0
      · simp only [hc, ↓reduceIte]
        apply ih _ _ _ _ i hi _ h2 h3
        by_contra hlt
        have hlt2 : i < (s + e) / 2 := by omega
        have h5 := hpw i ((s + e) / 2) hi (by omega) hlt2
        have h6 := hd.lt_of_le_of_lt (le_of_eq h3) h5
        omega
      · simp only [hc, ↓reduceIte]
        apply ih _ _ _ _ i hi h1 _ h3
        by_contra hge
        have hc2 : d.compareElements target.id (cache[(s + e) / 2]).id < 0 := by omega
        rcases Nat.lt_or_ge ((s + e) / 2) i with h | h
        · have h5 := hpw ((s + e) / 2) i (by omega) hi h
          have h6 := hd.lt_trans hc2 h5
          omega
        · have : (s + e) / 2 = i := by omega
          simp only [this] at hc2
          omega

/-- The top-level search returns -1 or a valid index whose scheme compares equal to
the target. -/
theorem binarySearch_sound (d : Decls) (cache : List HighlightingScheme)
    (target : KeySignatureEvent) :
    binarySearchForHighlightingScheme d cache target = -1 ∨
    ∃ (i : Nat) (hi : i < cache.length),
      binarySearchForHighlightingScheme d cache target = (i : Int) ∧
      d.compareElements target.id (cache[i]).id = 0 := by
  rcases searchLoop_sound d cache target cache.length 0 cache.length (le_refl _) (by omega)
    with h | ⟨i, hi, h1, _, _, h4⟩
  · left; exact h
  · right; exact ⟨i, hi, h1, h4⟩

theorem binarySearch_complete {d : Decls} (hd : d.SchemeOrder)
    {cache : List HighlightingScheme} (hsorted : SortedCache d cache)
    (target : KeySignatureEvent) (i : Nat) (hi : i < cache.length)
    (h : d.compareElements target.id (cache[i]).id = 0) :
    binarySearchForHighlightingScheme d cache target = (i : Int) :=
  searchLoop_complete hd hsorted target cache.length 0 cache.length (le_refl _) (by omega)
    i hi (Nat.zero_le _) hi h

/-- A negative search result on a sorted cache means that no scheme compares equal. -/
theorem binarySearch_neg {d : Decls} (hd : d.SchemeOrder)
    {cache : List HighlightingScheme} (hsorted : SortedCache d cache)
    (target : KeySignatureEvent)
    (h : binarySearchForHighlightingScheme d cache target < 0) :
    ∀ x ∈ cache, d.compareElements target.id x.id ≠ 0 := by
  intro x hx h0
  obtain ⟨i, hi, rfl⟩ := List.mem_iff_getElem.1 hx
  have := binarySearch_complete hd hsorted target i hi h0
  omega

/-! ### Insertion and removal keep the cache sorted -/

theorem mem_addSorted (d : Decls) (n x : HighlightingScheme) :
    ∀ xs : List HighlightingScheme, x ∈ addSorted d xs n ↔ x = n ∨ x ∈ xs := by
  intro xs
  induction xs with
  | nil => simp [addSorted]
  | cons y ys ih =>
    unfold addSorted
    split_ifs with h
    · simp
    · simp only [List.mem_cons, ih]
      tauto

theorem addSorted_sorted {d : Decls} (hd : d.SchemeOrder) (n : HighlightingScheme) :
    ∀ xs : List HighlightingScheme, SortedCache d xs →
      (∀ x ∈ xs, d.compareElements n.id x.id ≠ 0) → SortedCache d (addSorted d xs n) := by
  intro xs
  induction xs with
  | nil => intro _ _; simp [addSorted, SortedCache]
  | cons y ys ih =>
    intro hs hne
    unfold SortedCache at hs
    rw [List.pairwise_cons] at hs
    unfold addSorted
    split_ifs with h
    · unfold SortedCache
      rw [List.pairwise_cons, List.pairwise_cons]
      refine ⟨?_, hs.1, hs.2⟩
      intro a ha
      rcases List.mem_cons.1 ha with rfl | ha
      · exact h
      · exact hd.lt_trans h (hs.1 a ha)
    · unfold SortedCache
      rw [List.pairwise_cons]
      refine ⟨?_, ih hs.2 (fun x hx => hne x (List.mem_cons_of_mem _ hx))⟩
      intro a ha
      rcases (mem_addSorted d n a ys).1 ha with rfl | ha
      · have h1 := hne y (List.mem_cons_self _ _)
        have h2 : 0 < d.compareElements a.id y.id := by omega
        exact (hd.swap y.id a.id).2 h2
      · exact hs.1 a ha

theorem updateBackgroundCacheFor_sorted {d : Decls} (hd : d.SchemeOrder)
    {cache : List HighlightingScheme} (hsorted : SortedCache d cache)
    (key : KeySignatureEvent) : SortedCache d (updateBackgroundCacheFor d cache key) := by
  unfold updateBackgroundCacheFor
  split_ifs with h
  · exact addSorted_sorted hd _ cache hsorted (binarySearch_neg hd hsorted key h)
  · exact hsorted

theorem updateBackgroundCacheFor_mem_of_mem (d : Decls) (cache : List HighlightingScheme)
    (key : KeySignatureEvent) (x : HighlightingScheme) (hx : x ∈ cache) :
    x ∈ updateBackgroundCacheFor d cache key := by
  unfold updateBackgroundCacheFor
  split_ifs with h
  · exact (mem_addSorted d _ x cache).2 (Or.inr hx)
  · exact hx

/-- After `updateBackgroundCacheFor` the cache holds a scheme that compares equal to
the key signature. -/
theorem updateBackgroundCacheFor_has {d : Decls} (hd : d.SchemeOrder)
    (cache : List HighlightingScheme) (key : KeySignatureEvent) :
    ∃ x ∈ updateBackgroundCacheFor d cache key, d.compareElements key.id x.id = 0 := by
  unfold updateBackgroundCacheFor
  split_ifs with h
  · refine ⟨_, (mem_addSorted d _ _ cache).2 (Or.inl rfl), ?_⟩
    exact (hd.eq_zero_iff _ _).2 (SchemeId.same_refl _)
  · rcases binarySearch_sound d cache key with h1 | ⟨i, hi, _, h2⟩
    · omega
    · exact ⟨cache[i], List.getElem_mem _, h2⟩

theorem removeBackgroundCacheFor_sorted {d : Decls}
    {cache : List HighlightingScheme} (hsorted : SortedCache d cache)
    (sequences : List KeySignatureEvent) (key : KeySignatureEvent) :
    SortedCache d (removeBackgroundCacheFor d sequences cache key) := by
  unfold removeBackgroundCacheFor
  dsimp only
  split_ifs
  · exact hsorted
  · exact List.Pairwise.sublist (List.eraseIdx_sublist _ _) hsorted
  · exact hsorted

theorem CacheReachable.sorted {d : Decls} (hd : d.SchemeOrder)
    {cache : List HighlightingScheme} (h : CacheReachable d cache) : SortedCache d cache := by
  induction h with
  | empty => simp [SortedCache]
  | update cache key _ ih => exact updateBackgroundCacheFor_sorted hd ih key
  | remove sequences cache key _ ih => exact removeBackgroundCacheFor_sorted ih sequences key

theorem updateAll_from {d : Decls} (hd : d.SchemeOrder) (keys : List KeySignatureEvent) :
    ∀ cache : List HighlightingScheme, SortedCache d cache →
      SortedCache d (keys.foldl (updateBackgroundCacheFor d) cache) ∧
      (∀ x ∈ cache, x ∈ keys.foldl (updateBackgroundCacheFor d) cache) ∧
      (∀ k ∈ keys, ∃ x ∈ keys.foldl (updateBackgroundCacheFor d) cache,
        d.compareElements k.id x.id = 0) := by
  induction keys with
  | nil => intro cache hs; simpa using hs
  | cons k ks ih =>
    intro cache hs
    obtain ⟨h1, h2, h3⟩ := ih (updateBackgroundCacheFor d cache k)
      (updateBackgroundCacheFor_sorted hd hs k)
    refine ⟨h1, ?_, ?_⟩
    · intro x hx
      exact h2 x (updateBackgroundCacheFor_mem_of_mem d cache k x hx)
    · intro k2 hk2
      rcases List.mem_cons.1 hk2 with rfl | hk2
      · obtain ⟨x, hx, hx0⟩ := updateBackgroundCacheFor_has hd cache k2
        exact ⟨x, h2 x hx, hx0⟩
      · exact h3 k2 hk2

/-- In a sorted cache at most one scheme has a given identity. -/
theorem SortedCache.count_le_one {d : Decls} (hd : d.SchemeOrder) (t : SchemeId) :
    ∀ cache : List HighlightingScheme, SortedCache d cache →
      (cache.filter (fun s => s.id.same t)).length ≤ 1 := by
  intro cache
  induction cache with
  | nil => intro _; simp
  | cons y ys ih =>
    intro hs
    unfold SortedCache at hs
    rw [List.pairwise_cons] at hs
    by_cases hy : y.id.same t = true
    · have hnone : ys.filter (fun s => s.id.same t) = [] := by
        rw [List.filter_eq_nil_iff]
        intro a ha hsame
        have h1 := hs.1 a ha
        have h2 := (hd.eq_zero_iff _ _).2 (SchemeId.same_trans hy (SchemeId.same_symm hsame))
        omega
      simp [List.filter_cons, hy, hnone]
    · have := ih hs.2
      simpa [List.filter_cons, hy] using this

/-! ### The claims on the background cache -/

/-- C3: on a cache that is sorted without duplicates under a comparator that is a
total order on (root key, scale), `binarySearchForHighlightingScheme` returns the index
of the entry that compares equal to the target when there is one, and -1 when there is
none. -/
theorem binarySearch_correct_on_sorted_cache (d : Decls) (hd : d.SchemeOrder)
    (cache : List HighlightingScheme) (hsorted : SortedCache d cache)
    (target : KeySignatureEvent) :
    (∀ (i : Nat) (hi : i < cache.length),
      d.compareElements target.id (cache[i]).id = 0 →
      binarySearchForHighlightingScheme d cache target = (i : Int)) ∧
    ((∀ x ∈ cache, d.compareElements target.id x.id ≠ 0) →
      binarySearchForHighlightingScheme d cache target = -1) := by
  refine ⟨fun i hi h => binarySearch_complete hd hsorted target i hi h, ?_⟩
  intro hnone
  rcases binarySearch_sound d cache target with h | ⟨i, hi, _, h2⟩
  · exact h
  · exact (hnone _ (List.getElem_mem _) h2).elim

/-- C4: after any sequence of `updateBackgroundCacheFor` calls on the empty cache, the
cache is sorted under the comparator and the search returns, for every key signature
that was passed, the index of a scheme with its root key and an equivalent scale. -/
theorem updateAll_sorted_and_found (d : Decls) (hd : d.SchemeOrder)
    (keys : List KeySignatureEvent) :
    SortedCache d (updateAll d keys) ∧
    ∀ k ∈ keys, ∃ (i : Nat) (hi : i < (updateAll d keys).length),
      binarySearchForHighlightingScheme d (updateAll d keys) k = (i : Int) ∧
      ((updateAll d keys)[i]).rootKey = k.rootKey ∧
      ((updateAll d keys)[i]).scale.isEquivalentTo k.scale = true := by
  obtain ⟨h1, _, h3⟩ := updateAll_from hd keys [] (by simp [SortedCache])
  refine ⟨h1, ?_⟩
  intro k hk
  obtain ⟨x, hx, hx0⟩ := h3 k hk
  obtain ⟨i, hi, rfl⟩ := List.mem_iff_getElem.1 hx
  refine ⟨i, hi, binarySearch_complete hd h1 k i hi hx0, ?_⟩
  have := SchemeId.same_symm ((hd.eq_zero_iff _ _).1 hx0)
  simpa [SchemeId.same, HighlightingScheme.id, KeySignatureEvent.id] using this

/-- C5: on a sorted cache `updateBackgroundCacheFor` is idempotent, and the cache it
leaves holds exactly one scheme with the key signature's (root key, scale) identity. -/
theorem updateBackgroundCacheFor_idempotent (d : Decls) (hd : d.SchemeOrder)
    (cache : List HighlightingScheme) (hsorted : SortedCache d cache)
    (k : KeySignatureEvent) :
    updateBackgroundCacheFor d (updateBackgroundCacheFor d cache k) k =
      updateBackgroundCacheFor d cache k ∧
    ((updateBackgroundCacheFor d cache k).filter (fun s => s.id.same k.id)).length = 1 := by
  have hs1 := updateBackgroundCacheFor_sorted hd hsorted k
  obtain ⟨x, hx, hx0⟩ := updateBackgroundCacheFor_has hd cache k
  constructor
  · obtain ⟨i, hi, hxi⟩ := List.mem_iff_getElem.1 hx
    subst hxi
    have := binarySearch_complete hd hs1 k i hi hx0
    generalize updateBackgroundCacheFor d cache k = c1 at this ⊢
    unfold updateBackgroundCacheFor
    rw [if_neg (by omega)]
  · have hle := SortedCache.count_le_one hd k.id _ hs1
    have hpos : 0 < ((updateBackgroundCacheFor d cache k).filter
        (fun s => s.id.same k.id)).length := by
      apply List.length_pos_of_mem (a := x)
      rw [List.mem_filter]
      exact ⟨hx, SchemeId.same_symm ((hd.eq_zero_iff _ _).1 hx0)⟩
    omega

/-- C6: in every cache reachable from the empty cache by `updateBackgroundCacheFor`
and `removeBackgroundCacheFor`, no two schemes have the same root key and equivalent
scales. -/
theorem reachable_cache_no_duplicates (d : Decls) (hd : d.SchemeOrder)
    (cache : List HighlightingScheme) (h : CacheReachable d cache) :
    ∀ (i j : Nat) (hi : i < cache.length) (hj : j < cache.length), i ≠ j →
      ¬ ((cache[i]).rootKey = (cache[j]).rootKey ∧
         (cache[i]).scale.isEquivalentTo (cache[j]).scale = true) := by
  intro i j hi hj hij hsame
  have hs := h.sorted hd
  have h1 : d.compareElements (cache[i]).id (cache[i]).id = 0 :=
    (hd.eq_zero_iff _ _).2 (SchemeId.same_refl _)
  have h2 : d.compareElements (cache[i]).id (cache[j]).id = 0 := by
    apply (hd.eq_zero_iff _ _).2
    simpa [SchemeId.same, HighlightingScheme.id] using hsame
  exact hij (SortedCache.index_unique hd hs _ hi hj h1 h2)

/-- C7: `removeBackgroundCacheFor` leaves the cache as it is whenever the key
signature sequence of the project holds an event other than `k` itself with the same
root key and an equivalent scale. -/
theorem removeBackgroundCacheFor_refused (d : Decls) (hd : d.SchemeOrder)
    (sequences : List KeySignatureEvent) (cache : List HighlightingScheme)
    (k : KeySignatureEvent)
    (hother : ∃ e ∈ sequences, e.addr ≠ k.addr ∧ e.rootKey = k.rootKey ∧
      e.scale.isEquivalentTo k.scale = true) :
    removeBackgroundCacheFor d sequences cache k = cache := by
  obtain ⟨e, he, h1, h2, h3⟩ := hother
  unfold removeBackgroundCacheFor
  rw [if_pos]
  rw [List.any_eq_true]
  refine ⟨e, he, ?_⟩
  have : d.compareElements e.id k.id = 0 := by
    apply (hd.eq_zero_iff _ _).2
    simp [SchemeId.same, KeySignatureEvent.id, h2, h3]
  simp [h1, this]

/-- C8, as amended: on a sorted cache that holds a scheme with `k`'s identity, when no
other live key signature shares that identity, `removeBackgroundCacheFor` removes
exactly that scheme: the cache is one entry shorter and the other entries keep their
order. -/
theorem removeBackgroundCacheFor_removes_one (d : Decls) (hd : d.SchemeOrder)
    (sequences : List KeySignatureEvent) (cache : List HighlightingScheme)
    (k : KeySignatureEvent) (hsorted : SortedCache d cache)
    (hno : ∀ e ∈ sequences, e.addr ≠ k.addr →
      ¬ (e.rootKey = k.rootKey ∧ e.scale.isEquivalentTo k.scale = true))
    (i : Nat) (hi : i < cache.length)
    (hik : (cache[i]).rootKey = k.rootKey ∧ (cache[i]).scale.isEquivalentTo k.scale = true) :
    removeBackgroundCacheFor d sequences cache k = cache.take i ++ cache.drop (i + 1) ∧
    (removeBackgroundCacheFor d sequences cache k).length + 1 = cache.length := by
  have h0 : d.compareElements k.id (cache[i]).id = 0 := by
    apply (hd.eq_zero_iff _ _).2
    apply SchemeId.same_symm
    simpa [SchemeId.same, HighlightingScheme.id, KeySignatureEvent.id] using hik
  have hfound := binarySearch_complete hd hsorted k i hi h0
  have hany : ¬ (sequences.any (fun e => decide (e.addr ≠ k.addr) &&
      decide (d.compareElements e.id k.id = 0)) = true) := by
    rw [List.any_eq_true]
    rintro ⟨e, he, h⟩
    simp only [Bool.and_eq_true, decide_eq_true_eq] at h
    have := (hd.eq_zero_iff _ _).1 h.2
    apply hno e he h.1
    simpa [SchemeId.same, KeySignatureEvent.id] using this
  have heq : removeBackgroundCacheFor d sequences cache k = cache.eraseIdx i := by
    unfold removeBackgroundCacheFor
    rw [if_neg hany]
    simp only [hfound]
    rw [if_pos (by omega)]
    simp
  rw [heq]
  refine ⟨List.eraseIdx_eq_take_drop_succ _ _, ?_⟩
  rw [List.length_eraseIdx_of_lt hi]
  omega

/-! ### Row height -/

theorem loadSequence_rowHeight (clip : Clip) :
    ∀ (events : List MidiEvent) (roll : PianoRoll) (sm : SequenceMap),
      (loadSequence clip events roll sm).1.rowHeight = roll.rowHeight := by
  intro events
  induction events with
  | nil => intro roll sm; rfl
  | cons e rest ih =>
    intro roll sm
    cases e with
    | note n => simp only [loadSequence]; rw [ih]
    | keySignature k => simp only [loadSequence]; rw [ih]
    | other t => simp only [loadSequence]; rw [ih]

theorem loadClips_rowHeight (sequence : List MidiEvent) :
    ∀ (clips : List Clip) (roll : PianoRoll),
      (loadClips sequence clips roll).rowHeight = roll.rowHeight := by
  intro clips
  induction clips with
  | nil => intro roll; rfl
  | cons c rest ih =>
    intro roll
    simp only [loadClips]
    rw [ih]
    exact loadSequence_rowHeight c sequence roll []

theorem loadTrack_rowHeight (roll : PianoRoll) (track : MidiTrack) :
    (loadTrack roll track).rowHeight = roll.rowHeight := by
  unfold loadTrack
  cases track.pattern with
  | none => rfl
  | some clips => exact loadClips_rowHeight _ clips roll

theorem loadTracks_rowHeight (d : Decls) :
    ∀ (tracks : List MidiTrack) (roll : PianoRoll),
      (loadTracks d tracks roll).rowHeight = roll.rowHeight := by
  intro tracks
  induction tracks with
  | nil => intro roll; rfl
  | cons t rest ih =>
    intro roll
    simp only [loadTracks]
    rw [ih]
    exact loadTrack_rowHeight roll t

theorem reloadRollContent_rowHeight (d : Decls) (project : Project) (roll : PianoRoll) :
    (reloadRollContent d project roll).rowHeight = roll.rowHeight := by
  unfold reloadRollContent
  rw [loadTracks_rowHeight]

theorem jlimit_bounds (lo hi v : Int) (h : lo ≤ hi) :
    lo ≤ jlimit lo hi v ∧ jlimit lo hi v ≤ hi := by
  unfold jlimit
  split_ifs <;> omega

/-- After `setRowHeight` the row height is within the bounds if it was before. -/
theorem setRowHeight_keeps_bounds (d : Decls)
    (hd : d.PIANOROLL_MIN_ROW_HEIGHT ≤ d.PIANOROLL_MAX_ROW_HEIGHT) (roll : PianoRoll) (h : Int)
    (hr : d.PIANOROLL_MIN_ROW_HEIGHT ≤ roll.rowHeight ∧
      roll.rowHeight ≤ d.PIANOROLL_MAX_ROW_HEIGHT) :
    d.PIANOROLL_MIN_ROW_HEIGHT ≤ (setRowHeight d roll h).rowHeight ∧
      (setRowHeight d roll h).rowHeight ≤ d.PIANOROLL_MAX_ROW_HEIGHT := by
  unfold setRowHeight
  split_ifs with heq
  · exact hr
  · simpa [setSize] using jlimit_bounds _ _ h hd

/-- In every reachable state the row height is within the bounds. -/
theorem Reachable.rowHeight_bounds {d : Decls}
    (hd : d.PIANOROLL_MIN_ROW_HEIGHT ≤ d.PIANOROLL_MAX_ROW_HEIGHT) {roll : PianoRoll}
    (hr : Reachable d roll) :
    d.PIANOROLL_MIN_ROW_HEIGHT ≤ roll.rowHeight ∧
      roll.rowHeight ≤ d.PIANOROLL_MAX_ROW_HEIGHT := by
  induction hr with
  | construct project viewport =>
    unfold PianoRoll.construct
    simp only [reloadRollContent_rowHeight]
    apply setRowHeight_keeps_bounds d hd
    simp [hd]
  | setRowHeight roll h _ ih => exact setRowHeight_keeps_bounds d hd roll h ih
  | other roll roll2 _ heq ih => rw [heq]; exact ih

/-- C9: in every state reachable from construction, `setRowHeight(h)` with `h` outside
`[PIANOROLL_MIN_ROW_HEIGHT, PIANOROLL_MAX_ROW_HEIGHT]` leaves the row height within the
bounds: at the minimum when `h` is below it, at the maximum when `h` is above it. -/
theorem setRowHeight_clamped (d : Decls)
    (hd : d.PIANOROLL_MIN_ROW_HEIGHT ≤ d.PIANOROLL_MAX_ROW_HEIGHT)
    (roll : PianoRoll) (hr : Reachable d roll) (h : Int)
    (hout : h < d.PIANOROLL_MIN_ROW_HEIGHT ∨ d.PIANOROLL_MAX_ROW_HEIGHT < h) :
    d.PIANOROLL_MIN_ROW_HEIGHT ≤ (setRowHeight d roll h).rowHeight ∧
    (setRowHeight d roll h).rowHeight ≤ d.PIANOROLL_MAX_ROW_HEIGHT ∧
    (h < d.PIANOROLL_MIN_ROW_HEIGHT →
      (setRowHeight d roll h).rowHeight = d.PIANOROLL_MIN_ROW_HEIGHT) ∧
    (d.PIANOROLL_MAX_ROW_HEIGHT < h →
      (setRowHeight d roll h).rowHeight = d.PIANOROLL_MAX_ROW_HEIGHT) := by
  have hb := hr.rowHeight_bounds hd
  have hne : ¬ h = roll.rowHeight := by omega
  have hval : (setRowHeight d roll h).rowHeight =
      jlimit d.PIANOROLL_MIN_ROW_HEIGHT d.PIANOROLL_MAX_ROW_HEIGHT h := by
    unfold setRowHeight
    rw [if_neg hne]
    simp [setSize]
  rw [hval]
  have := jlimit_bounds d.PIANOROLL_MIN_ROW_HEIGHT d.PIANOROLL_MAX_ROW_HEIGHT h hd
  refine ⟨this.1, this.2, ?_, ?_⟩
  · intro hlt; unfold jlimit; rw [if_pos hlt]
  · intro hgt; unfold jlimit; rw [if_neg (by omega), if_pos hgt]

/-- C10: `setRowHeight` with the current row height changes nothing: the state is the
same, so the row height and the component size are as before and no `setSize` call
was made. -/
theorem setRowHeight_current_noop (d : Decls) (roll : PianoRoll) :
    setRowHeight d roll roll.rowHeight = roll ∧
    (setRowHeight d roll roll.rowHeight).rowHeight = roll.rowHeight ∧
    (setRowHeight d roll roll.rowHeight).width = roll.width ∧
    (setRowHeight d roll roll.rowHeight).height = roll.height ∧
    (setRowHeight d roll roll.rowHeight).setSizeCalls = roll.setSizeCalls := by
  have h : setRowHeight d roll roll.rowHeight = roll := by
    unfold setRowHeight
    rw [if_pos rfl]
  rw [h]
  exact ⟨rfl, rfl, rfl, rfl, rfl⟩

/-! ### Hash maps -/

section HashMapLemmas

variable {κ ν : Type}

theorem HashMap.keys_cons (e : κ × Option ν) (m : HashMap κ ν) :
    HashMap.keys (e :: m) = e.1 :: HashMap.keys m := rfl

theorem HashMap.mem_keys_of_mem {m : HashMap κ ν} {e : κ × Option ν} (h : e ∈ m) :
    e.1 ∈ HashMap.keys m :=
  List.mem_map_of_mem Prod.fst h

theorem HashMap.length_keys (m : HashMap κ ν) : (HashMap.keys m).length = m.length := by
  simp [HashMap.keys]

variable [DecidableEq κ]

theorem HashMap.assign_of_not_mem (m : HashMap κ ν) (k : κ) (v : Option ν)
    (h : k ∉ HashMap.keys m) : HashMap.assign m k v = m ++ [(k, v)] := by
  induction m with
  | nil => rfl
  | cons e rest ih =>
    obtain ⟨k1, v1⟩ := e
    simp only [HashMap.keys_cons, List.mem_cons, not_or] at h
    have hne : ¬ k1 = k := fun h2 => h.1 h2.symm
    simp only [HashMap.assign, if_neg hne, ih h.2, List.cons_append]

theorem HashMap.keys_assign_of_mem (m : HashMap κ ν) (k : κ) (v : Option ν)
    (h : k ∈ HashMap.keys m) : HashMap.keys (HashMap.assign m k v) = HashMap.keys m := by
  induction m with
  | nil => simp [HashMap.keys] at h
  | cons e rest ih =>
    obtain ⟨k1, v1⟩ := e
    by_cases h1 : k1 = k
    · simp [HashMap.assign, h1, HashMap.keys]
    · have : k ∈ HashMap.keys rest := by
        simp only [HashMap.keys_cons, List.mem_cons] at h
        rcases h with h | h
        · exact (h1 h.symm).elim
        · exact h
      simp only [HashMap.assign, if_neg h1, HashMap.keys_cons, ih this]

theorem HashMap.keys_assign (m : HashMap κ ν) (k : κ) (v : Option ν) :
    HashMap.keys (HashMap.assign m k v) =
      if k ∈ HashMap.keys m then HashMap.keys m else HashMap.keys m ++ [k] := by
  split_ifs with h
  · exact HashMap.keys_assign_of_mem m k v h
  · rw [HashMap.assign_of_not_mem m k v h]
    simp [HashMap.keys]

theorem HashMap.mem_assign {m : HashMap κ ν} {k : κ} {v : Option ν} {x : κ × Option ν}
    (h : x ∈ HashMap.assign m k v) : x ∈ m ∨ x = (k, v) := by
  induction m with
  | nil => simpa [HashMap.assign] using h
  | cons e rest ih =>
    obtain ⟨k1, v1⟩ := e
    by_cases h1 : k1 = k
    · simp only [HashMap.assign, if_pos h1, List.mem_cons] at h
      rcases h with h | h
      · right; rw [h, h1]
      · left; exact List.mem_cons_of_mem _ h
    · simp only [HashMap.assign, if_neg h1, List.mem_cons] at h
      rcases h with h | h
      · left; rw [h]; exact List.mem_cons_self _ _
      · rcases ih h with h | h
        · left; exact List.mem_cons_of_mem _ h
        · right; exact h

theorem HashMap.keys_erase (m : HashMap κ ν) (k : κ) :
    HashMap.keys (HashMap.erase m k) = (HashMap.keys m).filter (fun a => decide (a ≠ k)) := by
  unfold HashMap.keys HashMap.erase
  rw [List.filter_map]
  rfl

theorem HashMap.mem_erase {m : HashMap κ ν} {k : κ} {x : κ × Option ν}
    (h : x ∈ HashMap.erase m k) : x ∈ m ∧ x.1 ≠ k := by
  simpa [HashMap.erase, List.mem_filter] using h

theorem HashMap.not_mem_keys_erase (m : HashMap κ ν) (k : κ) :
    k ∉ HashMap.keys (HashMap.erase m k) := by
  rw [HashMap.keys_erase]
  simp [List.mem_filter]

theorem HashMap.mem_keys_erase (m : HashMap κ ν) (k a : κ) :
    a ∈ HashMap.keys (HashMap.erase m k) ↔ a ∈ HashMap.keys m ∧ a ≠ k := by
  rw [HashMap.keys_erase]
  simp [List.mem_filter]

theorem HashMap.nodup_keys_erase {m : HashMap κ ν} (k : κ) (h : (HashMap.keys m).Nodup) :
    (HashMap.keys (HashMap.erase m k)).Nodup := by
  rw [HashMap.keys_erase]
  exact h.filter _

theorem HashMap.nodup_keys_assign {m : HashMap κ ν} (k : κ) (v : Option ν)
    (h : (HashMap.keys m).Nodup) : (HashMap.keys (HashMap.assign m k v)).Nodup := by
  rw [HashMap.keys_assign]
  split_ifs with hk
  · exact h
  · rw [List.nodup_append]
    refine ⟨h, List.nodup_singleton k, ?_⟩
    intro a ha hb
    simp only [List.mem_singleton] at hb
    subst hb
    exact hk ha

theorem HashMap.length_erase {m : HashMap κ ν} (k : κ) (h : (HashMap.keys m).Nodup)
    (hk : k ∈ HashMap.keys m) : (HashMap.erase m k).length + 1 = m.length := by
  induction m with
  | nil => simp [HashMap.keys] at hk
  | cons e rest ih =>
    obtain ⟨k1, v1⟩ := e
    simp only [HashMap.keys_cons, List.nodup_cons] at h
    by_cases h1 : k1 = k
    · subst h1
      have hrest : HashMap.erase rest k1 = rest := by
        unfold HashMap.erase
        rw [List.filter_eq_self]
        intro a ha
        have := HashMap.mem_keys_of_mem ha
        simp only [ne_eq, decide_not, Bool.not_eq_true', decide_eq_false_iff_not]
        intro heq
        rw [heq] at this
        exact h.1 this
      have : HashMap.erase ((k1, v1) :: rest) k1 = HashMap.erase rest k1 := by
        simp [HashMap.erase, List.filter_cons]
      rw [this, hrest]
      simp
    · have hk2 : k ∈ HashMap.keys rest := by
        simp only [HashMap.keys_cons, List.mem_cons] at hk
        rcases hk with hk | hk
        · exact (h1 hk.symm).elim
        · exact hk
      have : HashMap.erase ((k1, v1) :: rest) k = (k1, v1) :: HashMap.erase rest k := by
        simp [HashMap.erase, List.filter_cons, h1]
      rw [this]
      simp only [List.length_cons]
      have := ih h.2 hk2
      omega

theorem HashMap.erase_assign_self (m : HashMap κ ν) (k : κ) (v : Option ν) :
    HashMap.erase (HashMap.assign m k v) k = HashMap.erase m k := by
  induction m with
  | nil => simp [HashMap.assign, HashMap.erase, List.filter_cons]
  | cons e rest ih =>
    obtain ⟨k1, v1⟩ := e
    by_cases h1 : k1 = k
    · simp [HashMap.assign, HashMap.erase, List.filter_cons, h1]
    · simp only [HashMap.assign, if_neg h1, HashMap.erase, List.filter_cons]
      simp only [HashMap.erase] at ih
      rw [ih]

theorem HashMap.erase_subscript_self (m : HashMap κ ν) (k : κ) :
    HashMap.erase (HashMap.subscript m k) k = HashMap.erase m k := by
  unfold HashMap.subscript
  split_ifs
  · rfl
  · simp [HashMap.erase, List.filter_append, List.filter_cons]

theorem HashMap.get_assign_self (m : HashMap κ ν) (k : κ) (v : Option ν) :
    HashMap.get (HashMap.assign m k v) k = v := by
  induction m with
  | nil => simp [HashMap.assign, HashMap.get]
  | cons e rest ih =>
    obtain ⟨k1, v1⟩ := e
    by_cases h1 : k1 = k
    · simp [HashMap.assign, HashMap.get, h1]
    · simp [HashMap.assign, HashMap.get, h1, ih]

theorem HashMap.erase_cons_self (k : κ) (v : Option ν) (rest : HashMap κ ν) :
    HashMap.erase ((k, v) :: rest) k = HashMap.erase rest k := by
  simp [HashMap.erase, List.filter_cons]

theorem HashMap.erase_cons_of_ne (k1 k : κ) (v : Option ν) (rest : HashMap κ ν)
    (h : k1 ≠ k) : HashMap.erase ((k1, v) :: rest) k = (k1, v) :: HashMap.erase rest k := by
  simp [HashMap.erase, List.filter_cons, h]

theorem HashMap.get_assign_of_ne (m : HashMap κ ν) (k a : κ) (v : Option ν) (h : a ≠ k) :
    HashMap.get (HashMap.assign m k v) a = HashMap.get m a := by
  induction m with
  | nil =>
    have : ¬ k = a := fun h2 => h h2.symm
    simp [HashMap.assign, HashMap.get, this]
  | cons e rest ih =>
    obtain ⟨k1, v1⟩ := e
    by_cases h1 : k1 = k
    · have h3 : ¬ k1 = a := fun h2 => h (h2.symm.trans h1)
      simp only [HashMap.assign, if_pos h1, HashMap.get, if_neg h3]
    · by_cases h2 : k1 = a
      · simp only [HashMap.assign, if_neg h1, HashMap.get, if_pos h2]
      · simp only [HashMap.assign, if_neg h1, HashMap.get, if_neg h2, ih]

theorem HashMap.get_erase_of_ne (m : HashMap κ ν) (k a : κ) (h : a ≠ k) :
    HashMap.get (HashMap.erase m k) a = HashMap.get m a := by
  induction m with
  | nil => rfl
  | cons e rest ih =>
    obtain ⟨k1, v1⟩ := e
    by_cases h1 : k1 = k
    · have h3 : ¬ k1 = a := fun h2 => h (h2.symm.trans h1)
      subst h1
      rw [HashMap.erase_cons_self, ih]
      simp only [HashMap.get, if_neg h3]
    · rw [HashMap.erase_cons_of_ne _ _ _ _ h1]
      by_cases h2 : k1 = a
      · simp only [HashMap.get, if_pos h2]
      · simp only [HashMap.get, if_neg h2, ih]

theorem HashMap.mem_keys_of_get {m : HashMap κ ν} {k : κ} {c : ν}
    (h : HashMap.get m k = some c) : k ∈ HashMap.keys m := by
  induction m with
  | nil => simp [HashMap.get] at h
  | cons e rest ih =>
    obtain ⟨k1, v1⟩ := e
    by_cases h1 : k1 = k
    · simp [HashMap.keys, h1]
    · simp only [HashMap.get, if_neg h1] at h
      simp only [HashMap.keys_cons, List.mem_cons]
      right; exact ih h

theorem HashMap.mem_of_get {m : HashMap κ ν} {k : κ} {c : ν}
    (h : HashMap.get m k = some c) : (k, some c) ∈ m := by
  induction m with
  | nil => simp [HashMap.get] at h
  | cons e rest ih =>
    obtain ⟨k1, v1⟩ := e
    by_cases h1 : k1 = k
    · simp only [HashMap.get, if_pos h1] at h
      rw [h1, h]; exact List.mem_cons_self _ _
    · simp only [HashMap.get, if_neg h1] at h
      exact List.mem_cons_of_mem _ (ih h)

theorem HashMap.get_of_mem_keys {m : HashMap κ ν} {k : κ}
    (hk : k ∈ HashMap.keys m) (hv : ∀ x ∈ m, x.2 ≠ none) :
    ∃ c, HashMap.get m k = some c := by
  induction m with
  | nil => simp [HashMap.keys] at hk
  | cons e rest ih =>
    obtain ⟨k1, v1⟩ := e
    by_cases h1 : k1 = k
    · have := hv (k1, v1) (List.mem_cons_self _ _)
      simp only [HashMap.get, if_pos h1]
      cases v1 with
      | none => exact (this rfl).elim
      | some c => exact ⟨c, rfl⟩
    · simp only [HashMap.get, if_neg h1]
      apply ih
      · simp only [HashMap.keys_cons, List.mem_cons] at hk
        rcases hk with hk | hk
        · exact (h1 hk.symm).elim
        · exact hk
      · intro x hx; exact hv x (List.mem_cons_of_mem _ hx)

theorem HashMap.get_of_not_mem_keys {m : HashMap κ ν} {k : κ}
    (hk : k ∉ HashMap.keys m) : HashMap.get m k = none := by
  cases h : HashMap.get m k with
  | none => rfl
  | some c => exact (hk (HashMap.mem_keys_of_get h)).elim

end HashMapLemmas

/-! ### One pass over the sequence maps of a track -/

theorem forEachSequenceMapOfGivenTrack_spec (track : Nat)
    (body : PianoRoll → Clip → SequenceMap → PianoRoll × SequenceMap) :
    ∀ (pm : PatternMap) (roll : PianoRoll),
      (∀ e ∈ pm, e.1.pattern = track → e.2 ≠ none) →
      ∃ (pm2 : PatternMap) (roll2 : PianoRoll),
        forEachSequenceMapOfGivenTrack track body pm roll = some (pm2, roll2) ∧
        List.Forall₂ (PassRel track body) pm pm2 := by
  intro pm
  induction pm with
  | nil => intro roll _; exact ⟨[], roll, rfl, List.Forall₂.nil⟩
  | cons e rest ih =>
    intro roll hnn
    obtain ⟨clip, v⟩ := e
    have hrest : ∀ e ∈ rest, e.1.pattern = track → e.2 ≠ none :=
      fun e he => hnn e (List.mem_cons_of_mem _ he)
    by_cases ht : clip.pattern = track
    · cases v with
      | none => exact ((hnn (clip, none) (List.mem_cons_self _ _) ht) rfl).elim
      | some sm =>
        obtain ⟨pm2, roll2, h1, h2⟩ := ih (body roll clip sm).1 hrest
        refine ⟨(clip, some (body roll clip sm).2) :: pm2, roll2, ?_, ?_⟩
        · simp only [forEachSequenceMapOfGivenTrack, if_pos ht, h1]
        · refine List.Forall₂.cons ⟨rfl, fun h => (h ht).elim, fun _ => ⟨sm, roll, rfl, rfl⟩⟩ h2
    · obtain ⟨pm2, roll2, h1, h2⟩ := ih roll hrest
      refine ⟨(clip, v) :: pm2, roll2, ?_, ?_⟩
      · simp only [forEachSequenceMapOfGivenTrack, if_neg ht, h1]
      · refine List.Forall₂.cons ⟨rfl, fun _ => rfl, fun h => (ht h).elim⟩ h2

theorem PianoRoll.forEachOfTrack_spec (roll : PianoRoll) (track : Nat)
    (body : PianoRoll → Clip → SequenceMap → PianoRoll × SequenceMap)
    (hnn : ∀ e ∈ roll.patternMap, e.1.pattern = track → e.2 ≠ none) :
    ∃ roll2 : PianoRoll, roll.forEachOfTrack track body = some roll2 ∧
      List.Forall₂ (PassRel track body) roll.patternMap roll2.patternMap := by
  obtain ⟨pm2, r2, h1, h2⟩ :=
    forEachSequenceMapOfGivenTrack_spec track body roll.patternMap roll hnn
  refine ⟨{ r2 with patternMap := pm2 }, ?_, h2⟩
  simp only [PianoRoll.forEachOfTrack, h1]

theorem PassRel.keys_eq {track : Nat}
    {body : PianoRoll → Clip → SequenceMap → PianoRoll × SequenceMap}
    {pm pm2 : PatternMap} (h : List.Forall₂ (PassRel track body) pm pm2) :
    HashMap.keys pm2 = HashMap.keys pm := by
  induction h with
  | nil => rfl
  | cons hab _ ih => simp only [HashMap.keys_cons, ih, hab.1]

theorem PassRel.of_mem_right {track : Nat}
    {body : PianoRoll → Clip → SequenceMap → PianoRoll × SequenceMap}
    {pm pm2 : PatternMap} (h : List.Forall₂ (PassRel track body) pm pm2)
    {e2 : Clip × Option SequenceMap} (he : e2 ∈ pm2) :
    ∃ e ∈ pm, PassRel track body e e2 := by
  induction h with
  | nil => simp at he
  | cons hab _ ih =>
    rcases List.mem_cons.1 he with rfl | he
    · exact ⟨_, List.mem_cons_self _ _, hab⟩
    · obtain ⟨e, hm, hr⟩ := ih he
      exact ⟨e, List.mem_cons_of_mem _ hm, hr⟩

/-! ### What the loop bodies make of a sequence map -/

theorem addNoteBody_snd (note : Note) (roll : PianoRoll) (clip : Clip) (sm : SequenceMap) :
    ∃ c : NoteComponent, (addNoteBody note roll clip sm).2 = HashMap.assign sm note (some c) :=
  ⟨_, rfl⟩

theorem changeNoteBody_snd_of_get (note newNote : Note) (roll : PianoRoll) (clip : Clip)
    (sm : SequenceMap) (c : NoteComponent) (h : HashMap.get sm note = some c) :
    (changeNoteBody note newNote roll clip sm).2 =
      HashMap.assign (HashMap.erase sm note) newNote (some { c with note := newNote }) := by
  simp only [changeNoteBody, h, HashMap.erase_assign_self]

theorem removeNoteBody_snd_of_get (note : Note) (roll : PianoRoll) (clip : Clip)
    (sm : SequenceMap) (c : NoteComponent) (h : HashMap.get sm note = some c) :
    (removeNoteBody note roll clip sm).2 = HashMap.erase sm note := by
  simp only [removeNoteBody, h]

/-! ### The document and its mutations -/

theorem MidiTrack.mem_notes (t : MidiTrack) (n : Note) :
    n ∈ t.notes ↔ MidiEvent.note n ∈ t.sequence := by
  unfold MidiTrack.notes
  rw [List.mem_filterMap]
  constructor
  · rintro ⟨e, he, h⟩
    cases e with
    | note m => simp only [Option.some.injEq] at h; rw [← h]; exact he
    | keySignature k => simp at h
    | other ty => simp at h
  · intro h
    exact ⟨_, h, rfl⟩

theorem Project.mem_notesOf (p : Project) (track : Nat) (n : Note) :
    n ∈ p.notesOf track ↔ ∃ t ∈ p.tracks, t.id = track ∧ n ∈ t.notes := by
  unfold Project.notesOf
  simp only [List.mem_flatMap, List.mem_filter, decide_eq_true_eq]
  constructor
  · rintro ⟨t, ⟨h1, h2⟩, h3⟩; exact ⟨t, h1, h2, h3⟩
  · rintro ⟨t, h1, h2, h3⟩; exact ⟨t, ⟨h1, h2⟩, h3⟩

theorem Project.WellFormed.track_eq {p : Project} (hwf : p.WellFormed) {t t2 : MidiTrack}
    (ht : t ∈ p.tracks) (ht2 : t2 ∈ p.tracks) (h : t.id = t2.id) : t = t2 :=
  List.inj_on_of_nodup_map hwf.ids_nodup ht ht2 h

theorem Project.WellFormed.mem_notesOf_id {p : Project} (hwf : p.WellFormed) {t : MidiTrack}
    (ht : t ∈ p.tracks) (n : Note) : n ∈ p.notesOf t.id ↔ n ∈ t.notes := by
  rw [Project.mem_notesOf]
  constructor
  · rintro ⟨t2, h1, h2, h3⟩
    rw [← hwf.track_eq h1 ht h2]; exact h3
  · intro h; exact ⟨t, ht, rfl, h⟩

theorem Project.WellFormed.notesOf_nodup {p : Project} (hwf : p.WellFormed) (track : Nat) :
    (p.notesOf track).Nodup := by
  unfold Project.notesOf
  rw [List.nodup_flatMap]
  constructor
  · intro t ht
    exact hwf.notes_nodup t (List.mem_of_mem_filter ht)
  · have hnd : (p.tracks.filter (fun t => decide (t.id = track))).Nodup :=
      (List.Nodup.of_map _ hwf.ids_nodup).filter _
    refine List.Pairwise.imp_of_mem ?_ hnd
    intro a b ha hb hab
    have ha2 := List.mem_filter.1 ha
    have hb2 := List.mem_filter.1 hb
    have h1 : a.id = track := by simpa using ha2.2
    have h2 : b.id = track := by simpa using hb2.2
    exact (hab (hwf.track_eq ha2.1 hb2.1 (h1.trans h2.symm))).elim

theorem MidiTrack.applyNote_id (t : MidiTrack) (m : NoteNotification) :
    (t.applyNote m).id = t.id := by
  cases m <;> simp only [MidiTrack.applyNote] <;> split_ifs <;> rfl

theorem MidiTrack.applyNote_clips (t : MidiTrack) (m : NoteNotification) :
    (t.applyNote m).clips = t.clips := by
  cases m <;> simp only [MidiTrack.applyNote] <;> split_ifs <;> rfl

theorem MidiTrack.notes_add (t : MidiTrack) (n : Note) :
    (t.applyNote (.add n)).notes = if t.id = n.sequence then t.notes ++ [n] else t.notes := by
  simp only [MidiTrack.applyNote]
  split_ifs
  · simp [MidiTrack.notes, List.filterMap_append]
  · rfl

theorem MidiTrack.notes_change (t : MidiTrack) (o n : Note) :
    (t.applyNote (.change o n)).notes =
      if t.id = n.sequence then t.notes.map (fun x => if x = o then n else x) else t.notes := by
  simp only [MidiTrack.applyNote]
  split_ifs
  · simp only [MidiTrack.notes]
    induction t.sequence with
    | nil => rfl
    | cons e rest ih =>
      cases e with
      | note m =>
        by_cases hm : m = o
        · simp [List.filterMap_cons, hm, ih]
        · simp [List.filterMap_cons, hm, ih]
      | keySignature k => simp [List.filterMap_cons, ih]
      | other ty => simp [List.filterMap_cons, ih]
  · rfl

theorem MidiTrack.notes_remove (t : MidiTrack) (n : Note) :
    (t.applyNote (.remove n)).notes =
      if t.id = n.sequence then t.notes.filter (fun x => decide (x ≠ n)) else t.notes := by
  simp only [MidiTrack.applyNote]
  split_ifs
  · simp only [MidiTrack.notes, ne_eq, decide_not]
    induction t.sequence with
    | nil => rfl
    | cons e rest ih =>
      cases e with
      | note m =>
        by_cases hm : m = n
        · simp [List.filterMap_cons, List.filter_cons, hm, ih]
        · simp [List.filterMap_cons, List.filter_cons, hm, ih]
      | keySignature k => simp [List.filterMap_cons, List.filter_cons, ih]
      | other ty => simp [List.filterMap_cons, List.filter_cons, ih]
  · rfl

theorem Project.allClips_applyNote (p : Project) (m : NoteNotification) :
    (p.applyNote m).allClips = p.allClips := by
  unfold Project.allClips Project.applyNote
  simp only [List.flatMap_map]
  congr 1
  funext t
  exact MidiTrack.applyNote_clips t m

theorem Project.mem_notesOf_applyNote (p : Project) (m : NoteNotification) (track : Nat)
    (n : Note) :
    n ∈ (p.applyNote m).notesOf track ↔
      ∃ t ∈ p.tracks, t.id = track ∧ n ∈ (t.applyNote m).notes := by
  rw [Project.mem_notesOf]
  simp only [Project.applyNote, List.mem_map]
  constructor
  · rintro ⟨t2, ⟨t, ht, rfl⟩, h2, h3⟩
    exact ⟨t, ht, by rw [← h2, MidiTrack.applyNote_id], h3⟩
  · rintro ⟨t, ht, h2, h3⟩
    exact ⟨_, ⟨t, ht, rfl⟩, by rw [MidiTrack.applyNote_id]; exact h2, h3⟩

/-- The document stays well formed under every mutation it admits. -/
theorem Project.WellFormed.applyNote_wellFormed {p : Project} (hwf : p.WellFormed)
    (m : NoteNotification) (hadm : p.admits m) : (p.applyNote m).WellFormed := by
  constructor
  · have : (p.applyNote m).tracks.map (fun t => t.id) = p.tracks.map (fun t => t.id) := by
      simp only [Project.applyNote, List.map_map]
      congr 1
      funext t
      exact MidiTrack.applyNote_id t m
    rw [this]; exact hwf.ids_nodup
  · intro t2 ht2 c hc
    simp only [Project.applyNote, List.mem_map] at ht2
    obtain ⟨t, ht, rfl⟩ := ht2
    rw [MidiTrack.applyNote_clips] at hc
    rw [MidiTrack.applyNote_id]
    exact hwf.clip_track t ht c hc
  · intro t2 ht2 n hn
    simp only [Project.applyNote, List.mem_map] at ht2
    obtain ⟨t, ht, rfl⟩ := ht2
    rw [MidiTrack.applyNote_id]
    cases m with
    | add a =>
      rw [MidiTrack.notes_add] at hn
      split_ifs at hn with h
      · rcases List.mem_append.1 hn with hn | hn
        · exact hwf.note_track t ht n hn
        · simp only [List.mem_singleton] at hn; rw [hn, h]
      · exact hwf.note_track t ht n hn
    | change o a =>
      rw [MidiTrack.notes_change] at hn
      split_ifs at hn with h
      · obtain ⟨x, hx, hxn⟩ := List.mem_map.1 hn
        split_ifs at hxn with h2
        · rw [← hxn, h]
        · rw [← hxn]; exact hwf.note_track t ht x hx
      · exact hwf.note_track t ht n hn
    | remove a =>
      rw [MidiTrack.notes_remove] at hn
      split_ifs at hn with h
      · exact hwf.note_track t ht n (List.mem_of_mem_filter hn)
      · exact hwf.note_track t ht n hn
  · intro t2 ht2
    simp only [Project.applyNote, List.mem_map] at ht2
    obtain ⟨t, ht, rfl⟩ := ht2
    rw [MidiTrack.applyNote_clips]
    exact hwf.clips_nodup t ht
  · intro t2 ht2
    simp only [Project.applyNote, List.mem_map] at ht2
    obtain ⟨t, ht, rfl⟩ := ht2
    have hnd := hwf.notes_nodup t ht
    cases m with
    | add a =>
      rw [MidiTrack.notes_add]
      split_ifs with h
      · rw [List.nodup_append]
        refine ⟨hnd, List.nodup_singleton a, ?_⟩
        intro x hx hx2
        simp only [List.mem_singleton] at hx2
        subst hx2
        apply hadm
        rw [← h]
        exact (hwf.mem_notesOf_id ht x).2 hx
      · exact hnd
    | change o a =>
      rw [MidiTrack.notes_change]
      split_ifs with h
      · obtain ⟨_, _, h3⟩ := hadm
        have hnot : a = o ∨ a ∉ t.notes := by
          rcases h3 with h3 | h3
          · left; exact h3
          · right
            intro hmem
            apply h3
            rw [← h]
            exact (hwf.mem_notesOf_id ht a).2 hmem
        apply List.Nodup.map_on _ hnd
        intro x hx y hy hxy
        by_cases hxo : x = o
        · by_cases hyo : y = o
          · rw [hxo, hyo]
          · simp only [if_pos hxo, if_neg hyo] at hxy
            rcases hnot with h4 | h4
            · rw [hxo, ← h4, hxy]
            · rw [hxy] at h4; exact (h4 hy).elim
        · by_cases hyo : y = o
          · simp only [if_neg hxo, if_pos hyo] at hxy
            rcases hnot with h4 | h4
            · rw [hyo, ← h4, ← hxy]
            · rw [← hxy] at h4; exact (h4 hx).elim
          · simpa only [if_neg hxo, if_neg hyo] using hxy
      · exact hnd
    | remove a =>
      rw [MidiTrack.notes_remove]
      split_ifs with h
      · exact hnd.filter _
      · exact hnd

/-! ### The index follows the document -/

theorem MidiTrack.notes_applyNote_other (t : MidiTrack) (m : NoteNotification)
    (h : t.id ≠ m.track) : (t.applyNote m).notes = t.notes := by
  cases m with
  | add n => rw [MidiTrack.notes_add]; exact if_neg h
  | change o n => rw [MidiTrack.notes_change]; exact if_neg h
  | remove n => rw [MidiTrack.notes_remove]; exact if_neg h

theorem Project.mem_notesOf_applyNote_other (p : Project) (m : NoteNotification)
    (track : Nat) (h : track ≠ m.track) (n : Note) :
    n ∈ (p.applyNote m).notesOf track ↔ n ∈ p.notesOf track := by
  rw [Project.mem_notesOf_applyNote, Project.mem_notesOf]
  constructor
  · rintro ⟨t, ht, h2, h3⟩
    rw [MidiTrack.notes_applyNote_other t m (by rw [h2]; exact h)] at h3
    exact ⟨t, ht, h2, h3⟩
  · rintro ⟨t, ht, h2, h3⟩
    refine ⟨t, ht, h2, ?_⟩
    rw [MidiTrack.notes_applyNote_other t m (by rw [h2]; exact h)]
    exact h3

theorem MirrorsEntry.other_track {p : Project} {e e2 : Clip × Option SequenceMap}
    (m : NoteNotification) (he : MirrorsEntry p e) (h1 : e2.1 = e.1) (h2 : e2.2 = e.2)
    (h : e.1.pattern ≠ m.track) : MirrorsEntry (p.applyNote m) e2 := by
  obtain ⟨sm, hs, hnd, hmem, hv⟩ := he
  refine ⟨sm, by rw [h2, hs], hnd, ?_, hv⟩
  intro n
  rw [h1, Project.mem_notesOf_applyNote_other p m _ h, hmem]

theorem MirrorsEntry.after_add {p : Project}
    {e e2 : Clip × Option SequenceMap} (n : Note)
    (he : MirrorsEntry p e) (ht : ∃ t ∈ p.tracks, t.id = e.1.pattern)
    (hadm : p.admits (.add n)) (hrel : PassRel n.sequence (addNoteBody n) e e2) :
    MirrorsEntry (p.applyNote (.add n)) e2 := by
  obtain ⟨h1, h2, h3⟩ := hrel
  by_cases hp : e.1.pattern = n.sequence
  · obtain ⟨sm, hs, hnd, hmem, hv⟩ := he
    obtain ⟨sm0, r0, hs0, hs2⟩ := h3 hp
    rw [hs] at hs0
    cases hs0
    obtain ⟨c, hc⟩ := addNoteBody_snd n r0 e.1 sm
    rw [hc] at hs2
    have hnot : n ∉ HashMap.keys sm := by
      intro hin
      apply hadm
      rw [← hp]
      exact (hmem n).1 hin
    refine ⟨_, hs2, HashMap.nodup_keys_assign _ _ hnd, ?_, ?_⟩
    · intro a
      rw [h1, HashMap.keys_assign, if_neg hnot, Project.mem_notesOf_applyNote]
      simp only [List.mem_append, List.mem_singleton]
      constructor
      · rintro (ha | ha)
        · obtain ⟨t, ht1, ht2, ht3⟩ := (Project.mem_notesOf p _ a).1 ((hmem a).1 ha)
          refine ⟨t, ht1, ht2, ?_⟩
          rw [MidiTrack.notes_add, if_pos (ht2.trans hp)]
          exact List.mem_append_left _ ht3
        · obtain ⟨t, ht1, ht2⟩ := ht
          refine ⟨t, ht1, ht2, ?_⟩
          rw [MidiTrack.notes_add, if_pos (ht2.trans hp), ha]
          exact List.mem_append_right _ (List.mem_singleton_self _)
      · rintro ⟨t, ht1, ht2, ht3⟩
        rw [MidiTrack.notes_add, if_pos (ht2.trans hp)] at ht3
        rcases List.mem_append.1 ht3 with ht3 | ht3
        · left
          exact (hmem a).2 ((Project.mem_notesOf p _ a).2 ⟨t, ht1, ht2, ht3⟩)
        · right; simpa using ht3
    · intro x hx
      rcases HashMap.mem_assign hx with hx | hx
      · exact hv x hx
      · rw [hx]; simp
  · exact MirrorsEntry.other_track (.add n) he h1 (h2 hp) hp

theorem MirrorsEntry.after_change {p : Project}
    {e e2 : Clip × Option SequenceMap} (o n : Note)
    (he : MirrorsEntry p e)
    (hadm : p.admits (.change o n)) (hrel : PassRel n.sequence (changeNoteBody o n) e e2) :
    MirrorsEntry (p.applyNote (.change o n)) e2 := by
  obtain ⟨h1, h2, h3⟩ := hrel
  obtain ⟨hseq, hold, hnew⟩ := hadm
  by_cases hp : e.1.pattern = n.sequence
  · obtain ⟨sm, hs, hnd, hmem, hv⟩ := he
    obtain ⟨sm0, r0, hs0, hs2⟩ := h3 hp
    rw [hs] at hs0
    cases hs0
    have hokey : o ∈ HashMap.keys sm := by
      rw [hmem o, hp, ← hseq]; exact hold
    obtain ⟨c, hc⟩ := HashMap.get_of_mem_keys hokey hv
    rw [changeNoteBody_snd_of_get o n r0 e.1 sm c hc] at hs2
    have hnot : n ∉ HashMap.keys (HashMap.erase sm o) := by
      rw [HashMap.mem_keys_erase]
      rintro ⟨hin, hne⟩
      rcases hnew with hnew | hnew
      · exact hne hnew
      · apply hnew; rw [← hp]; exact (hmem n).1 hin
    refine ⟨_, hs2, HashMap.nodup_keys_assign _ _ (HashMap.nodup_keys_erase _ hnd), ?_, ?_⟩
    · intro a
      rw [h1, HashMap.keys_assign, if_neg hnot, Project.mem_notesOf_applyNote]
      simp only [List.mem_append, List.mem_singleton, HashMap.mem_keys_erase]
      constructor
      · rintro (⟨ha, hao⟩ | ha)
        · obtain ⟨t, ht1, ht2, ht3⟩ := (Project.mem_notesOf p _ a).1 ((hmem a).1 ha)
          refine ⟨t, ht1, ht2, ?_⟩
          rw [MidiTrack.notes_change, if_pos (ht2.trans hp)]
          exact List.mem_map.2 ⟨a, ht3, by rw [if_neg hao]⟩
        · obtain ⟨t, ht1, ht2, ht3⟩ := (Project.mem_notesOf p _ o).1 ((hmem o).1 hokey)
          refine ⟨t, ht1, ht2, ?_⟩
          rw [MidiTrack.notes_change, if_pos (ht2.trans hp)]
          exact List.mem_map.2 ⟨o, ht3, by rw [if_pos rfl, ha]⟩
      · rintro ⟨t, ht1, ht2, ht3⟩
        rw [MidiTrack.notes_change, if_pos (ht2.trans hp)] at ht3
        obtain ⟨x, hx, hxa⟩ := List.mem_map.1 ht3
        by_cases hxo : x = o
        · right; rw [if_pos hxo] at hxa; exact hxa.symm
        · left
          rw [if_neg hxo] at hxa
          rw [← hxa]
          exact ⟨(hmem x).2 ((Project.mem_notesOf p _ x).2 ⟨t, ht1, ht2, hx⟩), hxo⟩
    · intro x hx
      rcases HashMap.mem_assign hx with hx | hx
      · exact hv x (HashMap.mem_erase hx).1
      · rw [hx]; simp
  · exact MirrorsEntry.other_track (.change o n) he h1 (h2 hp) hp

theorem MirrorsEntry.after_remove {p : Project}
    {e e2 : Clip × Option SequenceMap} (n : Note)
    (he : MirrorsEntry p e)
    (hadm : p.admits (.remove n)) (hrel : PassRel n.sequence (removeNoteBody n) e e2) :
    MirrorsEntry (p.applyNote (.remove n)) e2 := by
  obtain ⟨h1, h2, h3⟩ := hrel
  by_cases hp : e.1.pattern = n.sequence
  · obtain ⟨sm, hs, hnd, hmem, hv⟩ := he
    obtain ⟨sm0, r0, hs0, hs2⟩ := h3 hp
    rw [hs] at hs0
    cases hs0
    have hkey : n ∈ HashMap.keys sm := by
      rw [hmem n, hp]; exact hadm
    obtain ⟨c, hc⟩ := HashMap.get_of_mem_keys hkey hv
    rw [removeNoteBody_snd_of_get n r0 e.1 sm c hc] at hs2
    refine ⟨_, hs2, HashMap.nodup_keys_erase _ hnd, ?_, ?_⟩
    · intro a
      rw [h1, HashMap.mem_keys_erase, Project.mem_notesOf_applyNote]
      constructor
      · rintro ⟨ha, han⟩
        obtain ⟨t, ht1, ht2, ht3⟩ := (Project.mem_notesOf p _ a).1 ((hmem a).1 ha)
        refine ⟨t, ht1, ht2, ?_⟩
        rw [MidiTrack.notes_remove, if_pos (ht2.trans hp)]
        exact List.mem_filter.2 ⟨ht3, by simpa using han⟩
      · rintro ⟨t, ht1, ht2, ht3⟩
        rw [MidiTrack.notes_remove, if_pos (ht2.trans hp)] at ht3
        obtain ⟨hx, hxn⟩ := List.mem_filter.1 ht3
        exact ⟨(hmem a).2 ((Project.mem_notesOf p _ a).2 ⟨t, ht1, ht2, hx⟩), by simpa using hxn⟩
    · intro x hx
      exact hv x (HashMap.mem_erase hx).1
  · exact MirrorsEntry.other_track (.remove n) he h1 (h2 hp) hp

theorem Mirrors.no_null {p : Project} {roll : PianoRoll} (hm : Mirrors p roll) (track : Nat) :
    ∀ e ∈ roll.patternMap, e.1.pattern = track → e.2 ≠ none := by
  intro e he _ hnone
  obtain ⟨sm, hs, _⟩ := hm.submaps e he
  rw [hs] at hnone
  cases hnone

theorem Mirrors.track_of_entry {p : Project} {roll : PianoRoll} (hwf : p.WellFormed)
    (hm : Mirrors p roll) {e : Clip × Option SequenceMap} (he : e ∈ roll.patternMap) :
    ∃ t ∈ p.tracks, t.id = e.1.pattern := by
  have h1 : e.1 ∈ p.allClips := by
    rw [← hm.keys_eq]; exact HashMap.mem_keys_of_mem he
  obtain ⟨t, ht, hc⟩ := List.mem_flatMap.1 h1
  exact ⟨t, ht, (hwf.clip_track t ht e.1 hc).symm⟩

/-- Every admitted mutation, reported to a roll that mirrors the document, is handled
and leaves a roll that mirrors the mutated document. -/
theorem Mirrors.deliver_preserves {p : Project} {roll : PianoRoll} (d : Decls) (q : Project)
    (hwf : p.WellFormed) (hm : Mirrors p roll) (m : NoteNotification) (hadm : p.admits m) :
    ∃ roll2, deliver d q roll m = some roll2 ∧ Mirrors (p.applyNote m) roll2 := by
  cases m with
  | add n =>
    obtain ⟨roll2, h1, h2⟩ :=
      PianoRoll.forEachOfTrack_spec roll n.sequence (addNoteBody n) (hm.no_null _)
    refine ⟨roll2, h1, ?_, ?_⟩
    · rw [PassRel.keys_eq h2, hm.keys_eq, Project.allClips_applyNote]
    · intro e2 he2
      obtain ⟨e, he, hrel⟩ := PassRel.of_mem_right h2 he2
      exact MirrorsEntry.after_add n (hm.submaps e he) (hm.track_of_entry hwf he) hadm hrel
  | change o n =>
    obtain ⟨roll2, h1, h2⟩ :=
      PianoRoll.forEachOfTrack_spec roll n.sequence (changeNoteBody o n) (hm.no_null _)
    refine ⟨roll2, h1, ?_, ?_⟩
    · rw [PassRel.keys_eq h2, hm.keys_eq, Project.allClips_applyNote]
    · intro e2 he2
      obtain ⟨e, he, hrel⟩ := PassRel.of_mem_right h2 he2
      exact MirrorsEntry.after_change o n (hm.submaps e he) hadm hrel
  | remove n =>
    obtain ⟨roll2, h1, h2⟩ :=
      PianoRoll.forEachOfTrack_spec (hideAllGhostNotes roll) n.sequence (removeNoteBody n)
        (hm.no_null _)
    refine ⟨roll2, h1, ?_, ?_⟩
    · rw [PassRel.keys_eq h2]
      exact hm.keys_eq.trans (Project.allClips_applyNote p _).symm
    · intro e2 he2
      obtain ⟨e, he, hrel⟩ := PassRel.of_mem_right h2 he2
      exact MirrorsEntry.after_remove n (hm.submaps e he) hadm hrel

/-- A sequence of admitted mutations is handled to the end and the roll mirrors the
document after it. -/
theorem Mirrors.mirror_preserves (d : Decls) :
    ∀ (ms : List NoteNotification) (p : Project) (roll : PianoRoll),
      p.WellFormed → Mirrors p roll → p.admitsAll ms →
      ∃ (p2 : Project) (roll2 : PianoRoll),
        mirror d p roll ms = some (p2, roll2) ∧ p2.WellFormed ∧ Mirrors p2 roll2 := by
  intro ms
  induction ms with
  | nil => intro p roll hwf hm _; exact ⟨p, roll, rfl, hwf, hm⟩
  | cons m rest ih =>
    intro p roll hwf hm hadm
    obtain ⟨roll2, h1, h2⟩ := hm.deliver_preserves d (p.atDelivery m) hwf m hadm.1
    obtain ⟨p3, roll3, h3, h4, h5⟩ := ih (p.applyNote m) roll2 (hwf.applyNote_wellFormed m hadm.1) h2 hadm.2
    refine ⟨p3, roll3, ?_, h4, h5⟩
    simp only [Helio.mirror, h1, h3]

/-! ### Counting the entries -/

theorem List.sum_map_of_const {α : Type} (f : α → Nat) (k : Nat) :
    ∀ l : List α, (∀ a ∈ l, f a = k) → (l.map f).sum = l.length * k := by
  intro l
  induction l with
  | nil => intro _; simp
  | cons a rest ih =>
    intro h
    simp only [List.map_cons, List.sum_cons, List.length_cons]
    rw [ih (fun b hb => h b (List.mem_cons_of_mem _ hb)), h a (List.mem_cons_self _ _)]
    ring

theorem Project.WellFormed.length_notesOf {p : Project} (hwf : p.WellFormed) {t : MidiTrack}
    (ht : t ∈ p.tracks) : (p.notesOf t.id).length = t.notes.length := by
  apply List.Perm.length_eq
  rw [List.perm_ext_iff_of_nodup (hwf.notesOf_nodup _) (hwf.notes_nodup t ht)]
  intro n
  exact hwf.mem_notesOf_id ht n

theorem Project.WellFormed.sum_clips {p : Project} (hwf : p.WellFormed) :
    ∀ ts : List MidiTrack, (∀ t ∈ ts, t ∈ p.tracks) →
      ((ts.flatMap MidiTrack.clips).map (fun c => (p.notesOf c.pattern).length)).sum =
        (ts.map (fun t => t.clips.length * t.notes.length)).sum := by
  intro ts
  induction ts with
  | nil => intro _; rfl
  | cons t rest ih =>
    intro h
    have ht := h t (List.mem_cons_self _ _)
    simp only [List.flatMap_cons, List.map_append, List.sum_append, List.map_cons,
      List.sum_cons]
    rw [ih (fun t2 ht2 => h t2 (List.mem_cons_of_mem _ ht2))]
    congr 1
    apply List.sum_map_of_const
    intro c hc
    rw [hwf.clip_track t ht c hc]
    exact hwf.length_notesOf ht

/-- A roll that mirrors a well-formed document holds as many entries as the document
has (clip, note) pairs. -/
theorem Mirrors.entryCount_eq {p : Project} {roll : PianoRoll} (hwf : p.WellFormed)
    (hm : Mirrors p roll) : roll.entryCount = p.pairCount := by
  have h1 : roll.entryCount =
      ((HashMap.keys roll.patternMap).map (fun c => (p.notesOf c.pattern).length)).sum := by
    unfold PianoRoll.entryCount HashMap.keys
    rw [List.map_map]
    congr 1
    apply List.map_congr_left
    intro e he
    obtain ⟨sm, hs, hnd, hmem, _⟩ := hm.submaps e he
    simp only [hs, Function.comp]
    rw [← HashMap.length_keys sm]
    apply List.Perm.length_eq
    rw [List.perm_ext_iff_of_nodup hnd (hwf.notesOf_nodup _)]
    exact hmem
  rw [h1, hm.keys_eq]
  exact hwf.sum_clips p.tracks (fun t ht => ht)

/-! ### Loading the document -/

theorem loadSequence_spec (clip : Clip) :
    ∀ (events : List MidiEvent) (roll : PianoRoll) (sm : SequenceMap),
      (HashMap.keys sm).Nodup → (∀ x ∈ sm, x.2 ≠ none) →
      (loadSequence clip events roll sm).1.patternMap = roll.patternMap ∧
      (HashMap.keys (loadSequence clip events roll sm).2).Nodup ∧
      (∀ x ∈ (loadSequence clip events roll sm).2, x.2 ≠ none) ∧
      ∀ n, n ∈ HashMap.keys (loadSequence clip events roll sm).2 ↔
        n ∈ HashMap.keys sm ∨ MidiEvent.note n ∈ events := by
  intro events
  induction events with
  | nil => intro roll sm hnd hv; exact ⟨rfl, hnd, hv, fun n => by simp [loadSequence]⟩
  | cons e rest ih =>
    intro roll sm hnd hv
    cases e with
    | note a =>
      simp only [loadSequence]
      obtain ⟨h1, h2, h3, h4⟩ := ih { roll with nextComponent := roll.nextComponent + 1 }
        (HashMap.assign sm a (some
          { ptr := roll.nextComponent, note := a, clip := clip,
            active := belongsTo a clip roll.activeTrack roll.activeClip }))
        (HashMap.nodup_keys_assign _ _ hnd)
        (by
          intro x hx
          rcases HashMap.mem_assign hx with hx | hx
          · exact hv x hx
          · rw [hx]; simp)
      refine ⟨h1, h2, h3, ?_⟩
      intro n
      rw [h4 n, HashMap.keys_assign]
      simp only [List.mem_cons, MidiEvent.note.injEq]
      split_ifs with hin
      · constructor
        · rintro (h | h)
          · left; exact h
          · right; right; exact h
        · rintro (h | h | h)
          · left; exact h
          · left; rw [h]; exact hin
          · right; exact h
      · simp only [List.mem_append, List.mem_singleton]
        tauto
    | keySignature k =>
      simp only [loadSequence]
      obtain ⟨h1, h2, h3, h4⟩ := ih roll sm hnd hv
      refine ⟨h1, h2, h3, ?_⟩
      intro n; rw [h4 n]; simp
    | other ty =>
      simp only [loadSequence]
      obtain ⟨h1, h2, h3, h4⟩ := ih roll sm hnd hv
      refine ⟨h1, h2, h3, ?_⟩
      intro n; rw [h4 n]; simp

theorem loadClips_spec {p : Project} (hwf : p.WellFormed) {t : MidiTrack} (ht : t ∈ p.tracks) :
    ∀ (clips : List Clip) (roll : PianoRoll),
      (∀ c ∈ clips, c.pattern = t.id) → clips.Nodup →
      (∀ c ∈ clips, c ∉ HashMap.keys roll.patternMap) →
      (∀ e ∈ roll.patternMap, MirrorsEntry p e) →
      HashMap.keys (loadClips t.sequence clips roll).patternMap =
        HashMap.keys roll.patternMap ++ clips ∧
      ∀ e ∈ (loadClips t.sequence clips roll).patternMap, MirrorsEntry p e := by
  intro clips
  induction clips with
  | nil => intro roll _ _ _ hm; exact ⟨by simp [loadClips], hm⟩
  | cons c rest ih =>
    intro roll hpat hnd hnew hm
    simp only [loadClips]
    obtain ⟨h1, h2, h3, h4⟩ := loadSequence_spec c t.sequence roll [] (by simp [HashMap.keys])
      (by simp)
    have hc : c ∉ HashMap.keys roll.patternMap := hnew c (List.mem_cons_self _ _)
    have hassign : HashMap.assign (loadSequence c t.sequence roll []).1.patternMap c
        (some (loadSequence c t.sequence roll []).2) =
        roll.patternMap ++ [(c, some (loadSequence c t.sequence roll []).2)] := by
      rw [h1]; exact HashMap.assign_of_not_mem _ _ _ hc
    rw [List.nodup_cons] at hnd
    obtain ⟨k1, k2⟩ := ih
      { (loadSequence c t.sequence roll []).1 with
        patternMap := HashMap.assign (loadSequence c t.sequence roll []).1.patternMap c
          (some (loadSequence c t.sequence roll []).2) }
      (fun c2 hc2 => hpat c2 (List.mem_cons_of_mem _ hc2)) hnd.2
      (by
        intro c2 hc2
        simp only [hassign, HashMap.keys, List.map_append, List.map_cons, List.map_nil,
          List.mem_append, List.mem_singleton, not_or]
        refine ⟨hnew c2 (List.mem_cons_of_mem _ hc2), ?_⟩
        intro heq
        rw [heq] at hc2
        exact hnd.1 hc2)
      (by
        intro e he
        simp only [hassign, List.mem_append, List.mem_singleton] at he
        rcases he with he | he
        · exact hm e he
        · rw [he]
          refine ⟨_, rfl, h2, ?_, h3⟩
          intro n
          rw [h4 n]
          simp only [HashMap.keys, List.map_nil, List.not_mem_nil, false_or]
          rw [hpat c (List.mem_cons_self _ _), hwf.mem_notesOf_id ht, MidiTrack.mem_notes])
    refine ⟨?_, k2⟩
    rw [k1]
    simp only [hassign, HashMap.keys, List.map_append, List.map_cons, List.map_nil,
      List.append_assoc, List.singleton_append]

theorem loadTrack_spec {p : Project} (hwf : p.WellFormed) {t : MidiTrack} (ht : t ∈ p.tracks)
    (roll : PianoRoll)
    (hnew : ∀ c ∈ HashMap.keys roll.patternMap, c.pattern ≠ t.id)
    (hm : ∀ e ∈ roll.patternMap, MirrorsEntry p e) :
    HashMap.keys (loadTrack roll t).patternMap = HashMap.keys roll.patternMap ++ t.clips ∧
    ∀ e ∈ (loadTrack roll t).patternMap, MirrorsEntry p e := by
  unfold loadTrack
  cases hpat : t.pattern with
  | none =>
    have hclips : t.clips = [] := by simp [MidiTrack.clips, hpat]
    rw [hclips, List.append_nil]
    exact ⟨rfl, hm⟩
  | some clips =>
    have hclips : t.clips = clips := by simp [MidiTrack.clips, hpat]
    simp only
    rw [hclips]
    apply loadClips_spec hwf ht clips roll
    · intro c hc; exact hwf.clip_track t ht c (by rw [hclips]; exact hc)
    · rw [← hclips]; exact hwf.clips_nodup t ht
    · intro c hc hin
      exact hnew c hin (hwf.clip_track t ht c (by rw [hclips]; exact hc))
    · exact hm

theorem loadTracks_spec (d : Decls) {p : Project} (hwf : p.WellFormed) :
    ∀ (ts : List MidiTrack) (roll : PianoRoll),
      (∀ t ∈ ts, t ∈ p.tracks) → (ts.map (fun t => t.id)).Nodup →
      (∀ c ∈ HashMap.keys roll.patternMap, ∀ t ∈ ts, c.pattern ≠ t.id) →
      (∀ e ∈ roll.patternMap, MirrorsEntry p e) →
      HashMap.keys (loadTracks d ts roll).patternMap =
        HashMap.keys roll.patternMap ++ ts.flatMap MidiTrack.clips ∧
      ∀ e ∈ (loadTracks d ts roll).patternMap, MirrorsEntry p e := by
  intro ts
  induction ts with
  | nil => intro roll _ _ _ hm; exact ⟨by simp [loadTracks], hm⟩
  | cons t rest ih =>
    intro roll hin hnd hnew hm
    have ht := hin t (List.mem_cons_self _ _)
    simp only [List.map_cons, List.nodup_cons] at hnd
    obtain ⟨h1, h2⟩ := loadTrack_spec hwf ht roll
      (fun c hc => hnew c hc t (List.mem_cons_self _ _)) hm
    simp only [loadTracks]
    obtain ⟨k1, k2⟩ := ih
      { loadTrack roll t with
        backgroundsCache :=
          updateBackgroundsOf d t.sequence (loadTrack roll t).backgroundsCache }
      (fun t2 ht2 => hin t2 (List.mem_cons_of_mem _ ht2)) hnd.2
      (by
        intro c hc t2 ht2
        simp only [h1, List.mem_append] at hc
        rcases hc with hc | hc
        · exact hnew c hc t2 (List.mem_cons_of_mem _ ht2)
        · rw [hwf.clip_track t ht c hc]
          intro heq
          apply hnd.1
          rw [heq]
          exact List.mem_map_of_mem (fun t => t.id) ht2)
      h2
    refine ⟨?_, k2⟩
    rw [k1]
    simp only [h1, List.flatMap_cons, List.append_assoc]

/-- After `reloadRollContent` the roll mirrors a well-formed document, whatever it held
before. -/
theorem reloadRollContent_mirrors (d : Decls) {p : Project} (hwf : p.WellFormed)
    (roll : PianoRoll) : Mirrors p (reloadRollContent d p roll) := by
  obtain ⟨h1, h2⟩ := loadTracks_spec d hwf p.tracks
    { roll with selection := [], backgroundsCache := [], patternMap := [] }
    (fun t ht => ht) hwf.ids_nodup (by simp [HashMap.keys]) (by simp)
  constructor
  · unfold reloadRollContent
    rw [h1]
    simp [HashMap.keys, Project.allClips]
  · exact h2

/-- C1: starting from the index that `reloadRollContent` builds for a document (a
well-formed object graph whose notes and clips have distinct identities), after every
sequence of note notifications that mirror the document's mutations, every
notification is handled and the total number of entries over all clip submaps of
`patternMap` is the number of (clip, note) pairs of the document. -/
theorem entry_count_follows_document (d : Decls) (p : Project) (hwf : p.WellFormed)
    (roll : PianoRoll) (ms : List NoteNotification) (hadm : p.admitsAll ms) :
    ∃ (p2 : Project) (roll2 : PianoRoll),
      mirror d p (reloadRollContent d p roll) ms = some (p2, roll2) ∧
      roll2.entryCount = p2.pairCount := by
  obtain ⟨p2, roll2, h1, h2, h3⟩ :=
    Mirrors.mirror_preserves d ms p (reloadRollContent d p roll) hwf (reloadRollContent_mirrors d hwf roll)
      hadm
  exact ⟨p2, roll2, h1, h3.entryCount_eq h2⟩

/-! ### Re-keying a note -/

theorem forall₂_imp_of_mem {α β : Type} {R S : α → β → Prop} {l1 : List α} {l2 : List β}
    (h : List.Forall₂ R l1 l2) (himp : ∀ a ∈ l1, ∀ b, R a b → S a b) :
    List.Forall₂ S l1 l2 := by
  induction h with
  | nil => exact List.Forall₂.nil
  | cons hab _ ih =>
    exact List.Forall₂.cons (himp _ (List.mem_cons_self _ _) _ hab)
      (ih (fun a ha b hr => himp a (List.mem_cons_of_mem _ ha) b hr))

/-- What `changeNoteBody` makes of a sequence map that binds the old note to a
component and has no entry under the new note, unless the new note is the old one. -/
theorem changeNoteBody_rekeys (note newNote : Note) (r0 : PianoRoll) (clip : Clip)
    (sm : SequenceMap) (c : NoteComponent) (hnd : (HashMap.keys sm).Nodup)
    (hget : HashMap.get sm note = some c)
    (hnew : newNote = note ∨ newNote ∉ HashMap.keys sm) :
    (changeNoteBody note newNote r0 clip sm).2.length = sm.length ∧
    (HashMap.keys (changeNoteBody note newNote r0 clip sm).2).Nodup ∧
    HashMap.get (changeNoteBody note newNote r0 clip sm).2 newNote =
      some { c with note := newNote } ∧
    (HashMap.keys (changeNoteBody note newNote r0 clip sm).2).count newNote = 1 ∧
    ∀ k, k ≠ note → k ∈ HashMap.keys sm →
      k ∈ HashMap.keys (changeNoteBody note newNote r0 clip sm).2 ∧
      HashMap.get (changeNoteBody note newNote r0 clip sm).2 k = HashMap.get sm k := by
  rw [changeNoteBody_snd_of_get note newNote r0 clip sm c hget]
  have hkey := HashMap.mem_keys_of_get hget
  have hnot : newNote ∉ HashMap.keys (HashMap.erase sm note) := by
    rw [HashMap.mem_keys_erase]
    rintro ⟨hin, hne⟩
    rcases hnew with hnew | hnew
    · exact hne hnew
    · exact hnew hin
  have hnd2 : (HashMap.keys (HashMap.assign (HashMap.erase sm note) newNote
      (some { c with note := newNote }))).Nodup :=
    HashMap.nodup_keys_assign _ _ (HashMap.nodup_keys_erase _ hnd)
  refine ⟨?_, hnd2, HashMap.get_assign_self _ _ _, ?_, ?_⟩
  · rw [HashMap.assign_of_not_mem _ _ _ hnot, List.length_append, List.length_singleton]
    exact HashMap.length_erase note hnd hkey
  · apply List.count_eq_one_of_mem hnd2
    rw [HashMap.keys_assign, if_neg hnot]
    exact List.mem_append_right _ (List.mem_singleton_self _)
  · intro k hk hin
    have hkn : k ≠ newNote := by
      intro heq
      rcases hnew with hnew | hnew
      · exact hk (heq.trans hnew)
      · rw [heq] at hin; exact hnew hin
    constructor
    · rw [HashMap.keys_assign, if_neg hnot]
      exact List.mem_append_left _ ((HashMap.mem_keys_erase sm note k).2 ⟨hin, hk⟩)
    · rw [HashMap.get_assign_of_ne _ _ _ _ hkn, HashMap.get_erase_of_ne _ _ _ hk]

/-- C2, as amended: when every clip submap of the note's track binds the old note to a
component and has no entry under the new note (unless the new note is the same key),
`onChangeMidiEvent(oldNote, newNote)` neither loses nor duplicates an entry. The clips
of `patternMap` and the submaps of other tracks are as before; every submap of the
track has as many entries as before, holds exactly one entry under the new note, the
component that was under the old note, and every entry under another key is still
there with its component. -/
theorem onChangeMidiEvent_rekeys (d : Decls) (project : Project) (roll : PianoRoll)
    (note newNote : Note)
    (hentry : ∀ e ∈ roll.patternMap, e.1.pattern = newNote.sequence →
      ∃ (sm : SequenceMap) (c : NoteComponent), e.2 = some sm ∧ (HashMap.keys sm).Nodup ∧
        HashMap.get sm note = some c ∧ (newNote = note ∨ newNote ∉ HashMap.keys sm)) :
    ∃ roll2 : PianoRoll,
      onChangeMidiEvent d project roll (.note note) (.note newNote) = some roll2 ∧
      List.Forall₂
        (fun e e2 => e2.1 = e.1 ∧
          (e.1.pattern ≠ newNote.sequence → e2.2 = e.2) ∧
          (e.1.pattern = newNote.sequence →
            ∃ (sm sm2 : SequenceMap) (c : NoteComponent),
              e.2 = some sm ∧ e2.2 = some sm2 ∧
              sm2.length = sm.length ∧
              HashMap.get sm note = some c ∧
              HashMap.get sm2 newNote = some { c with note := newNote } ∧
              (HashMap.keys sm2).count newNote = 1 ∧
              ∀ k, k ≠ note → k ∈ HashMap.keys sm →
                k ∈ HashMap.keys sm2 ∧ HashMap.get sm2 k = HashMap.get sm k))
        roll.patternMap roll2.patternMap := by
  have hnn : ∀ e ∈ roll.patternMap, e.1.pattern = newNote.sequence → e.2 ≠ none := by
    intro e he hp hnone
    obtain ⟨sm, _, hs, _⟩ := hentry e he hp
    rw [hs] at hnone
    cases hnone
  obtain ⟨roll2, h1, h2⟩ :=
    PianoRoll.forEachOfTrack_spec roll newNote.sequence (changeNoteBody note newNote) hnn
  refine ⟨roll2, h1, forall₂_imp_of_mem h2 ?_⟩
  rintro e he e2 ⟨k1, k2, k3⟩
  refine ⟨k1, k2, ?_⟩
  intro hp
  obtain ⟨sm, c, hs, hnd, hget, hnew⟩ := hentry e he hp
  obtain ⟨sm0, r0, hs0, hs2⟩ := k3 hp
  rw [hs] at hs0
  cases hs0
  obtain ⟨g1, _, g3, g4, g5⟩ := changeNoteBody_rekeys note newNote r0 e.1 sm c hnd hget hnew
  exact ⟨sm, _, c, hs, hs2, g1, hget, g3, g4, g5⟩

/-- C2, counterexample: the submap of `clipA` binds `noteA` and `noteB`; after
`onChangeMidiEvent(noteA, noteB)` it holds one entry instead of two, and the component
that was bound to `noteB` is gone, overwritten by the one of `noteA`. -/
theorem onChangeMidiEvent_overwrites_entry :
    HashMap.get Sample.mapAB Sample.noteA = some Sample.compA ∧
    HashMap.get Sample.mapAB Sample.noteB = some Sample.compB ∧
    Sample.rollAB.patternMap = [(Sample.clipA, some Sample.mapAB)] ∧
    (onChangeMidiEvent Sample.decls Sample.project Sample.rollAB
        (.note Sample.noteA) (.note Sample.noteB)).map (fun r => r.patternMap) =
      some [(Sample.clipA,
        some [(Sample.noteB, some { Sample.compA with note := Sample.noteB })])] ∧
    Sample.mapAB.length = 2 := by
  refine ⟨by decide, by decide, by decide, ?_, by decide⟩
  decide

/-! ### The sample data satisfies the hypotheses -/

theorem Sample.lexKey_eq_iff (a b : SchemeId) :
    Sample.lexKey a = Sample.lexKey b ↔ a.same b = true := by
  unfold Sample.lexKey SchemeId.same Scale.isEquivalentTo
  simp only [Bool.and_eq_true, decide_eq_true_eq]
  constructor
  · intro h
    have := congrArg ofLex h
    simpa [Prod.ext_iff] using this
  · rintro ⟨h1, h2⟩
    rw [h1, h2]

/-- The sample comparator is a three-way comparison for a total order in which the
schemes with the same root key and equivalent scales compare equal. -/
theorem Sample.decls_schemeOrder : Sample.decls.SchemeOrder := by
  constructor
  · intro a b
    rw [← Sample.lexKey_eq_iff]
    show (if Sample.lexKey a < Sample.lexKey b then (-1 : Int)
      else if Sample.lexKey b < Sample.lexKey a then 1 else 0) = 0 ↔ _
    rcases lt_trichotomy (Sample.lexKey a) (Sample.lexKey b) with h | h | h
    · simp [h, ne_of_lt h]
    · simp [h]
    · simp [h, not_lt_of_lt h, ne_of_gt h]
  · intro a b
    show (if Sample.lexKey a < Sample.lexKey b then (-1 : Int)
      else if Sample.lexKey b < Sample.lexKey a then 1 else 0) < 0 ↔
      0 < (if Sample.lexKey b < Sample.lexKey a then (-1 : Int)
      else if Sample.lexKey a < Sample.lexKey b then 1 else 0)
    rcases lt_trichotomy (Sample.lexKey a) (Sample.lexKey b) with h | h | h
    · simp [h, not_lt_of_lt h]
    · simp [h]
    · simp [h, not_lt_of_lt h]
  · intro a b c
    show (if Sample.lexKey a < Sample.lexKey b then (-1 : Int)
      else if Sample.lexKey b < Sample.lexKey a then 1 else 0) ≤ 0 →
      (if Sample.lexKey b < Sample.lexKey c then (-1 : Int)
      else if Sample.lexKey c < Sample.lexKey b then 1 else 0) ≤ 0 →
      (if Sample.lexKey a < Sample.lexKey c then (-1 : Int)
      else if Sample.lexKey c < Sample.lexKey a then 1 else 0) ≤ 0
    intro h1 h2
    have hab : Sample.lexKey a ≤ Sample.lexKey b := by
      by_contra hn
      have hn2 := not_le.1 hn
      simp [hn2, not_lt_of_lt hn2] at h1
    have hbc : Sample.lexKey b ≤ Sample.lexKey c := by
      by_contra hn
      have hn2 := not_le.1 hn
      simp [hn2, not_lt_of_lt hn2] at h2
    have hac := le_trans hab hbc
    split_ifs with k1 k2
    · omega
    · exact (not_lt_of_le hac k2).elim
    · omega

theorem Sample.cache3_sorted : SortedCache Sample.decls Sample.cache3 := by
  unfold SortedCache
  decide

theorem Sample.reachedCache_reachable : CacheReachable Sample.decls Sample.reachedCache :=
  CacheReachable.remove _ _ _ (CacheReachable.update _ _ (CacheReachable.update _ _
    (CacheReachable.update _ _ CacheReachable.empty)))

theorem Sample.project_wellFormed : Sample.project.WellFormed :=
  ⟨by decide, by decide, by decide, by decide, by decide⟩

/-! ### Witnesses -/

/-- C1, witness: the sample project, loaded and then told of an added, a changed and a
removed note. -/
theorem entry_count_follows_document_witness :
    Sample.project.WellFormed ∧ Sample.project.admitsAll Sample.mutations ∧
    ∃ (p2 : Project) (roll2 : PianoRoll),
      mirror Sample.decls Sample.project
        (reloadRollContent Sample.decls Sample.project Sample.emptyRoll) Sample.mutations =
        some (p2, roll2) ∧
      roll2.entryCount = p2.pairCount :=
  ⟨Sample.project_wellFormed, by decide,
    entry_count_follows_document Sample.decls Sample.project Sample.project_wellFormed
      Sample.emptyRoll Sample.mutations (by decide)⟩

/-- C2, witness: in `rollAB` the note `noteA` is changed to a note that has no entry. -/
theorem onChangeMidiEvent_rekeys_witness :
    ∃ roll2 : PianoRoll,
      onChangeMidiEvent Sample.decls Sample.project Sample.rollAB (.note Sample.noteA)
        (.note Sample.noteC) = some roll2 ∧
      List.Forall₂
        (fun e e2 => e2.1 = e.1 ∧
          (e.1.pattern ≠ Sample.noteC.sequence → e2.2 = e.2) ∧
          (e.1.pattern = Sample.noteC.sequence →
            ∃ (sm sm2 : SequenceMap) (c : NoteComponent),
              e.2 = some sm ∧ e2.2 = some sm2 ∧
              sm2.length = sm.length ∧
              HashMap.get sm Sample.noteA = some c ∧
              HashMap.get sm2 Sample.noteC = some { c with note := Sample.noteC } ∧
              (HashMap.keys sm2).count Sample.noteC = 1 ∧
              ∀ k, k ≠ Sample.noteA → k ∈ HashMap.keys sm →
                k ∈ HashMap.keys sm2 ∧ HashMap.get sm2 k = HashMap.get sm k))
        Sample.rollAB.patternMap roll2.patternMap :=
  onChangeMidiEvent_rekeys Sample.decls Sample.project Sample.rollAB Sample.noteA Sample.noteC
    (by
      intro e he _
      have he2 : e = (Sample.clipA, some Sample.mapAB) := by
        simpa [Sample.rollAB] using he
      subst he2
      exact ⟨Sample.mapAB, Sample.compA, rfl, by decide, by decide, Or.inr (by decide)⟩)

/-- C3, witness: in `cache3` the search for C ionian finds the scheme of C major at
index 1, and the search for G major finds nothing. -/
theorem binarySearch_correct_on_sorted_cache_witness :
    Sample.decls.SchemeOrder ∧ SortedCache Sample.decls Sample.cache3 ∧
    binarySearchForHighlightingScheme Sample.decls Sample.cache3 Sample.keyC2 = 1 ∧
    binarySearchForHighlightingScheme Sample.decls Sample.cache3 Sample.keyG = -1 :=
  ⟨Sample.decls_schemeOrder, Sample.cache3_sorted,
    (binarySearch_correct_on_sorted_cache Sample.decls Sample.decls_schemeOrder Sample.cache3
      Sample.cache3_sorted Sample.keyC2).1 1 (by decide) (by decide),
    (binarySearch_correct_on_sorted_cache Sample.decls Sample.decls_schemeOrder Sample.cache3
      Sample.cache3_sorted Sample.keyG).2 (by decide)⟩

/-- C4, witness: four key signatures, two of them with the same identity. -/
theorem updateAll_sorted_and_found_witness :
    Sample.decls.SchemeOrder ∧
    SortedCache Sample.decls
      (updateAll Sample.decls [Sample.keyEb, Sample.keyC, Sample.keyCm, Sample.keyC2]) ∧
    ∃ (i : Nat)
      (hi : i < (updateAll Sample.decls
        [Sample.keyEb, Sample.keyC, Sample.keyCm, Sample.keyC2]).length),
      binarySearchForHighlightingScheme Sample.decls
        (updateAll Sample.decls [Sample.keyEb, Sample.keyC, Sample.keyCm, Sample.keyC2])
        Sample.keyC2 = (i : Int) ∧
      ((updateAll Sample.decls
        [Sample.keyEb, Sample.keyC, Sample.keyCm, Sample.keyC2])[i]).rootKey =
        Sample.keyC2.rootKey ∧
      ((updateAll Sample.decls
        [Sample.keyEb, Sample.keyC, Sample.keyCm, Sample.keyC2])[i]).scale.isEquivalentTo
        Sample.keyC2.scale = true :=
  ⟨Sample.decls_schemeOrder,
    (updateAll_sorted_and_found Sample.decls Sample.decls_schemeOrder
      [Sample.keyEb, Sample.keyC, Sample.keyCm, Sample.keyC2]).1,
    (updateAll_sorted_and_found Sample.decls Sample.decls_schemeOrder
      [Sample.keyEb, Sample.keyC, Sample.keyCm, Sample.keyC2]).2 Sample.keyC2 (by decide)⟩

/-- C5, witness: G major is added to `cache3` once, however often it is asked for. -/
theorem updateBackgroundCacheFor_idempotent_witness :
    Sample.decls.SchemeOrder ∧ SortedCache Sample.decls Sample.cache3 ∧
    updateBackgroundCacheFor Sample.decls
      (updateBackgroundCacheFor Sample.decls Sample.cache3 Sample.keyG) Sample.keyG =
      updateBackgroundCacheFor Sample.decls Sample.cache3 Sample.keyG ∧
    ((updateBackgroundCacheFor Sample.decls Sample.cache3 Sample.keyG).filter
      (fun s => s.id.same Sample.keyG.id)).length = 1 :=
  ⟨Sample.decls_schemeOrder, Sample.cache3_sorted,
    updateBackgroundCacheFor_idempotent Sample.decls Sample.decls_schemeOrder Sample.cache3
      Sample.cache3_sorted Sample.keyG⟩

/-- C6, witness: a cache reached by three insertions and a removal; its two schemes
differ in identity. -/
theorem reachable_cache_no_duplicates_witness :
    Sample.decls.SchemeOrder ∧ CacheReachable Sample.decls Sample.reachedCache ∧
    ∃ (hi : 0 < Sample.reachedCache.length) (hj : 1 < Sample.reachedCache.length),
      ¬ ((Sample.reachedCache[0]).rootKey = (Sample.reachedCache[1]).rootKey ∧
        (Sample.reachedCache[0]).scale.isEquivalentTo (Sample.reachedCache[1]).scale = true) :=
  ⟨Sample.decls_schemeOrder, Sample.reachedCache_reachable, by decide, by decide,
    reachable_cache_no_duplicates Sample.decls Sample.decls_schemeOrder Sample.reachedCache
      Sample.reachedCache_reachable 0 1 (by decide) (by decide) (by decide)⟩

/-- C7, witness: C ionian is still live, so the scheme of C major stays in `cache3`. -/
theorem removeBackgroundCacheFor_refused_witness :
    Sample.decls.SchemeOrder ∧
    (∃ e ∈ [Sample.keyC, Sample.keyC2], e.addr ≠ Sample.keyC.addr ∧
      e.rootKey = Sample.keyC.rootKey ∧ e.scale.isEquivalentTo Sample.keyC.scale = true) ∧
    removeBackgroundCacheFor Sample.decls [Sample.keyC, Sample.keyC2] Sample.cache3
      Sample.keyC = Sample.cache3 :=
  ⟨Sample.decls_schemeOrder, ⟨Sample.keyC2, by decide, by decide, by decide, by decide⟩,
    removeBackgroundCacheFor_refused Sample.decls Sample.decls_schemeOrder
      [Sample.keyC, Sample.keyC2] Sample.cache3 Sample.keyC
      ⟨Sample.keyC2, by decide, by decide, by decide, by decide⟩⟩

/-- C8, counterexample: no other live key signature shares the identity of G major or
of C minor, yet `removeBackgroundCacheFor` removes nothing: `cache3` holds no scheme
for G major, and in the unsorted cache the search misses the scheme of C minor. -/
theorem removeBackgroundCacheFor_removes_nothing :
    (∀ e ∈ [Sample.keyC, Sample.keyG], e.addr ≠ Sample.keyG.addr →
      ¬ (e.rootKey = Sample.keyG.rootKey ∧
        e.scale.isEquivalentTo Sample.keyG.scale = true)) ∧
    removeBackgroundCacheFor Sample.decls [Sample.keyC, Sample.keyG] Sample.cache3
      Sample.keyG = Sample.cache3 ∧
    Sample.cache3.length = 3 ∧
    (∀ e ∈ [Sample.keyC, Sample.keyCm], e.addr ≠ Sample.keyCm.addr →
      ¬ (e.rootKey = Sample.keyCm.rootKey ∧
        e.scale.isEquivalentTo Sample.keyCm.scale = true)) ∧
    Sample.schemeOf Sample.keyCm ∈ Sample.unsortedCache ∧
    removeBackgroundCacheFor Sample.decls [Sample.keyC, Sample.keyCm] Sample.unsortedCache
      Sample.keyCm = Sample.unsortedCache := by
  refine ⟨by decide, by decide, by decide, by decide, by decide, by decide⟩

/-- C8, witness: E flat minor is removed from `cache3`, where it is the entry at
index 2. -/
theorem removeBackgroundCacheFor_removes_one_witness :
    Sample.decls.SchemeOrder ∧ SortedCache Sample.decls Sample.cache3 ∧
    removeBackgroundCacheFor Sample.decls [Sample.keyC, Sample.keyEb] Sample.cache3
      Sample.keyEb = Sample.cache3.take 2 ++ Sample.cache3.drop (2 + 1) ∧
    (removeBackgroundCacheFor Sample.decls [Sample.keyC, Sample.keyEb] Sample.cache3
      Sample.keyEb).length + 1 = Sample.cache3.length :=
  ⟨Sample.decls_schemeOrder, Sample.cache3_sorted,
    removeBackgroundCacheFor_removes_one Sample.decls Sample.decls_schemeOrder
      [Sample.keyC, Sample.keyEb] Sample.cache3 Sample.keyEb Sample.cache3_sorted
      (by decide) 2 (by decide) (by decide)⟩

/-- C9, witness: the constructed roll is asked for rows of 100 pixels and of 2 pixels. -/
theorem setRowHeight_clamped_witness :
    Reachable Sample.decls Sample.emptyRoll ∧
    (setRowHeight Sample.decls Sample.emptyRoll 100).rowHeight = 30 ∧
    (setRowHeight Sample.decls Sample.emptyRoll 2).rowHeight = 6 :=
  ⟨Reachable.construct _ _,
    (setRowHeight_clamped Sample.decls (by decide) Sample.emptyRoll (Reachable.construct _ _)
      100 (Or.inr (by decide))).2.2.2 (by decide),
    (setRowHeight_clamped Sample.decls (by decide) Sample.emptyRoll
      (Reachable.construct _ _) 2 (Or.inl (by decide))).2.2.1 (by decide)⟩

/-! ### Zoom and coordinate mapping -/

/-! ### Rounding to `float` -/

theorem roundHalfEven_ge (x : Rat) (a : Int) (h : (a : Rat) ≤ x) : a ≤ roundHalfEven x := by
  have hf : a ≤ ⌊x⌋ := Int.le_floor.2 h
  unfold roundHalfEven
  split_ifs <;> omega

theorem roundHalfEven_le (x : Rat) (m : Int) (h : x < (m : Rat) + 1 / 2) :
    roundHalfEven x ≤ m := by
  have hfx : ((⌊x⌋ : Int) : Rat) ≤ x := Int.floor_le x
  have hf : ⌊x⌋ ≤ m := by
    by_contra hlt
    have h1 : m + 1 ≤ ⌊x⌋ := by omega
    have h2 : ((m + 1 : Int) : Rat) ≤ ((⌊x⌋ : Int) : Rat) := by exact_mod_cast h1
    push_cast at h2
    linarith
  have hne : ¬ (x - ((⌊x⌋ : Int) : Rat) < 1 / 2) → ⌊x⌋ + 1 ≤ m := by
    intro hn
    by_contra hlt
    have heq : ⌊x⌋ = m := by omega
    rw [heq] at hn
    apply hn
    linarith
  unfold roundHalfEven
  split_ifs with h1 h2 h3
  · exact hf
  · exact hne h1
  · exact hf
  · exact hne h1

theorem roundHalfEven_intCast (a : Int) : roundHalfEven (a : Rat) = a := by
  apply le_antisymm
  · exact roundHalfEven_le _ a (by linarith)
  · exact roundHalfEven_ge _ a (le_refl _)

theorem two_zpow_pos (e : Int) : (0 : Rat) < 2 ^ e := zpow_pos (by norm_num) e

/-- A power of two with an exponent that is not positive, as the inverse of a power
with a natural exponent. -/
theorem two_zpow_of_nonpos (e : Int) (he : e ≤ 0) :
    (2 : Rat) ^ e = ((2 : Rat) ^ (-e).toNat)⁻¹ := by
  have h1 : e = -(((-e).toNat : Nat) : Int) := by omega
  conv_lhs => rw [h1]
  rw [zpow_neg, zpow_natCast]

theorem log_le_of_lt_two_pow {q : Rat} (hq : 0 < q) (n : Nat) (h : q < 2 ^ n) :
    Int.log 2 q < n := by
  apply (Int.lt_zpow_iff_log_lt (by norm_num) hq).1
  rw [zpow_natCast]
  exact_mod_cast h

/-- A rational that is a whole number of units in the last place is a `float`. -/
theorem roundToFloat_of_whole (q : Rat) (a : Int)
    (h : q / 2 ^ (Int.log 2 |q| - 23) = (a : Rat)) : roundToFloat q = q := by
  unfold roundToFloat
  split_ifs with h0
  · exact h0.symm
  · rw [h, roundHalfEven_intCast, ← h]
    exact div_mul_cancel₀ q (ne_of_gt (two_zpow_pos _))

/-- Every natural number below `2 ^ 24` is a `float`. -/
theorem roundToFloat_natCast (i : Nat) (hi : i < 2 ^ 24) : roundToFloat (i : Rat) = i := by
  by_cases h0 : i = 0
  · subst h0; simp [roundToFloat]
  · have hpos : (0 : Rat) < i := by exact_mod_cast Nat.pos_of_ne_zero h0
    have hlog : Int.log 2 |(i : Rat)| < 24 := by
      rw [abs_of_pos hpos]
      exact log_le_of_lt_two_pow hpos 24 (by exact_mod_cast hi)
    apply roundToFloat_of_whole _ ((i : Int) * 2 ^ (-(Int.log 2 |(i : Rat)| - 23)).toNat)
    rw [two_zpow_of_nonpos _ (by omega), div_inv_eq_mul]
    push_cast
    rfl

/-- The conversion to `int` of a rational from `k` up to, but not including, `k + 1`. -/
theorem truncate_of_mem_Ico (r : Rat) (k : Nat) (h1 : (k : Rat) ≤ r) (h2 : r < (k : Rat) + 1) :
    truncate r = k := by
  have h0 : (0 : Rat) ≤ r := le_trans (by positivity) h1
  unfold truncate
  rw [Int.tdiv_eq_ediv (Rat.num_nonneg.2 h0) (by positivity), ← Rat.floor_def]
  rw [Int.floor_eq_iff]
  exact ⟨by exact_mod_cast h1, by exact_mod_cast h2⟩

/-- The conversion to `int` of the `float` nearest to a positive rational `q` below
`2 ^ 24` is the whole part `k` of `q`, when `q` is farther from `k + 1` than half a unit
in the last place. -/
theorem truncate_roundToFloat (q : Rat) (k : Nat) (hq : 0 < q) (hk : (k : Rat) ≤ q)
    (hlt : q < 2 ^ 24) (hdist : (2 : Rat) ^ (Int.log 2 q - 24) < (k : Rat) + 1 - q) :
    truncate (roundToFloat q) = k := by
  have hlog : Int.log 2 q < 24 := log_le_of_lt_two_pow hq 24 hlt
  have hq0 : q ≠ 0 := ne_of_gt hq
  obtain ⟨m, hm⟩ : ∃ m : Nat, (m : Int) = 23 - Int.log 2 q := ⟨(23 - Int.log 2 q).toNat, by omega⟩
  have hulp : (2 : Rat) ^ (Int.log 2 q - 23) = ((2 : Rat) ^ m)⁻¹ := by
    rw [two_zpow_of_nonpos _ (by omega)]
    congr 2
    omega
  have hhalf : (2 : Rat) ^ (Int.log 2 q - 24) = ((2 : Rat) ^ m)⁻¹ / 2 := by
    rw [← hulp, show Int.log 2 q - 24 = (Int.log 2 q - 23) - 1 by ring,
      zpow_sub₀ (by norm_num : (2 : Rat) ≠ 0), zpow_one]
  have hP : (0 : Rat) < 2 ^ m := by positivity
  have hfl : roundToFloat q = (roundHalfEven (q * 2 ^ m) : Rat) / 2 ^ m := by
    unfold roundToFloat
    rw [if_neg hq0, abs_of_pos hq, hulp, div_inv_eq_mul, div_eq_mul_inv]
  have hge : ((k : Int) * 2 ^ m : Int) ≤ roundHalfEven (q * 2 ^ m) := by
    apply roundHalfEven_ge
    push_cast
    exact mul_le_mul_of_nonneg_right hk (le_of_lt hP)
  have hle : roundHalfEven (q * 2 ^ m) ≤ (((k : Int) + 1) * 2 ^ m - 1 : Int) := by
    apply roundHalfEven_le
    push_cast
    rw [hhalf] at hdist
    have h3 : ((2 : Rat) ^ m)⁻¹ * 2 ^ m = 1 := inv_mul_cancel₀ (ne_of_gt hP)
    have h4 := mul_lt_mul_of_pos_right hdist hP
    have h5 : ((2 : Rat) ^ m)⁻¹ / 2 * 2 ^ m = 1 / 2 := by
      rw [div_mul_eq_mul_div, h3]
    rw [h5] at h4
    linarith
  have hge2 : ((k : Int) * 2 ^ m : Rat) ≤ (roundHalfEven (q * 2 ^ m) : Rat) := by
    exact_mod_cast hge
  have hle2 : (roundHalfEven (q * 2 ^ m) : Rat) ≤ ((k : Rat) + 1) * 2 ^ m - 1 := by
    exact_mod_cast hle
  rw [hfl]
  apply truncate_of_mem_Ico
  · rw [le_div_iff₀ hP]
    exact_mod_cast hge2
  · rw [div_lt_iff₀ hP]
    linarith

/-- The `float` nearest to an `int` from `2 ^ 24` on is at least `2 ^ 24`. -/
theorem roundToFloat_ge_of_ge (q : Rat) (h : (2 : Rat) ^ 24 ≤ q) :
    (2 : Rat) ^ 24 ≤ roundToFloat q := by
  have hq : 0 < q := lt_of_lt_of_le (by positivity) h
  have hlog : 24 ≤ Int.log 2 q := by
    apply (Int.zpow_le_iff_le_log (by norm_num) hq).1
    rw [show ((24 : Int)) = ((24 : Nat) : Int) from rfl, zpow_natCast]
    exact_mod_cast h
  have hself : (2 : Rat) ^ Int.log 2 q ≤ q := by
    have := Int.zpow_log_le_self (b := 2) (r := q) (by norm_num) hq
    exact_mod_cast this
  have hulp := two_zpow_pos (Int.log 2 q - 23)
  unfold roundToFloat
  rw [if_neg (ne_of_gt hq), abs_of_pos hq]
  have hx : (((2 : Int) ^ 23 : Int) : Rat) ≤ q / 2 ^ (Int.log 2 q - 23) := by
    rw [le_div_iff₀ hulp]
    push_cast
    calc (2 : Rat) ^ 23 * 2 ^ (Int.log 2 q - 23)
        = 2 ^ Int.log 2 q := by
          rw [show ((2 : Rat) ^ 23) = (2 : Rat) ^ ((23 : Int)) by norm_cast,
            ← zpow_add₀ (by norm_num : (2 : Rat) ≠ 0)]
          congr 1
          ring
      _ ≤ q := hself
  have hr := roundHalfEven_ge _ _ hx
  have hr2 : (((2 : Int) ^ 23 : Int) : Rat) ≤ (roundHalfEven (q / 2 ^ (Int.log 2 q - 23)) : Rat) := by
    exact_mod_cast hr
  calc (2 : Rat) ^ 24 ≤ 2 ^ Int.log 2 q := by
        rw [show ((2 : Rat) ^ 24) = (2 : Rat) ^ ((24 : Int)) by norm_cast]
        exact zpow_le_zpow_right₀ (by norm_num) hlog
    _ = (2 : Rat) ^ 23 * 2 ^ (Int.log 2 q - 23) := by
        rw [show ((2 : Rat) ^ 23) = (2 : Rat) ^ ((23 : Int)) by norm_cast,
          ← zpow_add₀ (by norm_num : (2 : Rat) ≠ 0)]
        congr 1
        ring
    _ ≤ (roundHalfEven (q / 2 ^ (Int.log 2 q - 23)) : Rat) * 2 ^ (Int.log 2 q - 23) := by
        apply mul_le_mul_of_nonneg_right _ (le_of_lt hulp)
        push_cast at hr2
        exact hr2

/-- The conversion to `int` of the `float` quotient of a positive `h` below `2 ^ 24` by
a positive `n`, when `k * n ≤ h` and `n` is not below `(h + 1) / (k + 1)`. -/
theorem truncate_roundToFloat_div (h n : Rat) (k : Nat) (hh : 0 < h) (hh24 : h < 2 ^ 24)
    (hn : 0 < n) (hq24 : h / n < 2 ^ 24) (hk : (k : Rat) * n ≤ h)
    (hk1 : h + 1 ≤ ((k : Rat) + 1) * n) :
    truncate (roundToFloat (h / n)) = k := by
  have hq : 0 < h / n := div_pos hh hn
  apply truncate_roundToFloat (h / n) k hq ((le_div_iff₀ hn).2 hk) hq24
  have hself : (2 : Rat) ^ Int.log 2 (h / n) ≤ h / n := by
    have := Int.zpow_log_le_self (b := 2) (r := h / n) (by norm_num) hq
    exact_mod_cast this
  have h1 : (2 : Rat) ^ (Int.log 2 (h / n) - 24) = 2 ^ Int.log 2 (h / n) / 2 ^ 24 := by
    rw [zpow_sub₀ (by norm_num : (2 : Rat) ≠ 0)]
    norm_cast
  rw [h1]
  have h2 : (2 : Rat) ^ Int.log 2 (h / n) / 2 ^ 24 ≤ h / n / 2 ^ 24 :=
    div_le_div_of_nonneg_right hself (by positivity)
  have h3 : h / n / 2 ^ 24 < (k : Rat) + 1 - h / n := by
    rw [lt_sub_iff_add_lt, div_div, div_add_div _ _ (by positivity) (ne_of_gt hn),
      div_lt_iff₀ (by positivity)]
    have h4 : h < 2 ^ 24 := hh24
    nlinarith
  linarith

/-- The quotient `int (float (h) / float (n))` of `zoomToArea` is the quotient of the two
integers, for a height `h` from 0 to below `2 ^ 24` and a positive number `n`. -/
theorem truncate_float_quotient (h n : Int) (hh0 : 0 ≤ h) (hh : h < 2 ^ 24) (hn : 0 < n) :
    truncate (roundToFloat (roundToFloat (h : Rat) / roundToFloat (n : Rat))) =
      Int.tdiv h n := by
  rw [Int.tdiv_eq_ediv hh0 (le_of_lt hn)]
  obtain ⟨hN, rfl⟩ : ∃ hN : Nat, (hN : Int) = h := ⟨h.toNat, Int.toNat_of_nonneg hh0⟩
  have hN24 : hN < 2 ^ 24 := by exact_mod_cast hh
  have hfh : roundToFloat ((hN : Int) : Rat) = (hN : Rat) := by
    rw [Int.cast_natCast]
    exact roundToFloat_natCast hN hN24
  rw [hfh]
  by_cases h0 : hN = 0
  · subst h0
    simp [roundToFloat, truncate]
  have hhpos : (0 : Rat) < (hN : Rat) := by exact_mod_cast Nat.pos_of_ne_zero h0
  have hh24 : (hN : Rat) < 2 ^ 24 := by exact_mod_cast hh
  by_cases hn24 : n < 2 ^ 24
  · obtain ⟨nN, rfl⟩ : ∃ nN : Nat, (nN : Int) = n :=
      ⟨n.toNat, Int.toNat_of_nonneg (le_of_lt hn)⟩
    have hnN : 0 < nN := by exact_mod_cast hn
    have hfn : roundToFloat ((nN : Int) : Rat) = (nN : Rat) := by
      rw [Int.cast_natCast]
      exact roundToFloat_natCast nN (by exact_mod_cast hn24)
    rw [hfn]
    have hnpos : (0 : Rat) < (nN : Rat) := by exact_mod_cast hn
    have hn1 : (1 : Rat) ≤ (nN : Rat) := by exact_mod_cast hn
    have hdiv : ((hN : Int) / (nN : Int)) = ((hN / nN : Nat) : Int) :=
      (Int.natCast_div hN nN).symm
    rw [hdiv]
    have hk : (hN / nN) * nN ≤ hN := Nat.div_mul_le_self hN nN
    have hk1 : hN + 1 ≤ (hN / nN + 1) * nN := by
      have hmod := Nat.div_add_mod hN nN
      have hlt := Nat.mod_lt hN hnN
      have h5 : (hN / nN + 1) * nN = nN * (hN / nN) + nN := by ring
      rw [h5]
      omega
    have := truncate_roundToFloat_div (hN : Rat) (nN : Rat) (hN / nN) hhpos hh24 hnpos
      (lt_of_le_of_lt (div_le_self (le_of_lt hhpos) hn1) hh24)
      (by exact_mod_cast hk) (by exact_mod_cast hk1)
    exact this
  · have hbig : (2 : Rat) ^ 24 ≤ (n : Rat) := by
      have : (2 : Int) ^ 24 ≤ n := not_lt.1 hn24
      exact_mod_cast this
    have hfn := roundToFloat_ge_of_ge (n : Rat) hbig
    have hnpos : (0 : Rat) < roundToFloat (n : Rat) := lt_of_lt_of_le (by positivity) hfn
    have hzero : ((hN : Int) / n) = ((0 : Nat) : Int) := by
      rw [Nat.cast_zero]
      exact Int.ediv_eq_zero_of_lt hh0 (lt_of_lt_of_le hh (not_lt.1 hn24))
    rw [hzero]
    apply truncate_roundToFloat_div (hN : Rat) (roundToFloat (n : Rat)) 0 hhpos hh24 hnpos
    · rw [div_lt_iff₀ hnpos]
      have : (1 : Rat) ≤ 2 ^ 24 := by norm_num
      nlinarith
    · simp only [Nat.cast_zero, zero_mul]
      exact le_of_lt hhpos
    · simp only [Nat.cast_zero, zero_add, one_mul]
      have h6 : (hN : Rat) + 1 ≤ 2 ^ 24 := by
        have : hN + 1 ≤ 2 ^ 24 := hN24
        exact_mod_cast this
      linarith

theorem setRowHeight_le_of_min_le (d : Decls) (roll : PianoRoll) (q : Int)
    (hq : d.PIANOROLL_MIN_ROW_HEIGHT ≤ q) : (setRowHeight d roll q).rowHeight ≤ q := by
  unfold setRowHeight
  split_ifs with h
  · rw [h]
  · simp only [setSize, jlimit]
    split_ifs <;> omega

theorem zoomToArea_rowHeight (d : Decls) (roll : PianoRoll) (minKey maxKey : Int)
    (minBeat maxBeat : Rat) :
    (zoomToArea d roll minKey maxKey minBeat maxBeat).rowHeight =
      (setRowHeight d roll
        (truncate (roundToFloat (roundToFloat (roll.viewport.viewHeight : Rat) /
          roundToFloat ((maxKey - minKey + 2 : Int) : Rat))))).rowHeight := rfl

/-- For a viewport height from 0 to below `2 ^ 24` the row height that `zoomToArea`
asks for is the quotient of the two integers. -/
theorem zoomToArea_rowHeight_of_small (d : Decls) (roll : PianoRoll) (minKey maxKey : Int)
    (minBeat maxBeat : Rat) (hview : 0 ≤ roll.viewport.viewHeight)
    (hfloat : roll.viewport.viewHeight < 16777216) (hmax : minKey < maxKey) :
    (zoomToArea d roll minKey maxKey minBeat maxBeat).rowHeight =
      (setRowHeight d roll
        (Int.tdiv roll.viewport.viewHeight (maxKey - minKey + 2))).rowHeight := by
  rw [zoomToArea_rowHeight,
    truncate_float_quotient _ _ hview (by norm_num; exact hfloat) (by omega)]

theorem tdiv_mul_le_of_nonneg (a b : Int) (ha : 0 ≤ a) (hb : 0 < b) : Int.tdiv a b * b ≤ a := by
  rw [Int.tdiv_eq_ediv ha (le_of_lt hb)]
  exact Int.ediv_mul_le a (ne_of_gt hb)

/-- The `float` nearest to 33554431, which lies midway between the floats 33554430 and
33554432, is 33554432, the one with the even significand. -/
theorem roundToFloat_33554431 : roundToFloat 33554431 = 33554432 := by
  have hpos : (0 : Rat) < 33554431 := by norm_num
  have hlog : Int.log 2 |(33554431 : Rat)| = 24 := by
    rw [abs_of_pos hpos]
    apply le_antisymm
    · have : Int.log 2 (33554431 : Rat) < 25 := by
        apply (Int.lt_zpow_iff_log_lt (by norm_num) hpos).1
        norm_num
      omega
    · apply (Int.zpow_le_iff_le_log (by norm_num) hpos).1
      norm_num
  have hfloor : ⌊(33554431 / 2 : Rat)⌋ = 16777215 := by
    rw [Int.floor_eq_iff]
    norm_num
  have hround : roundHalfEven (33554431 / 2 : Rat) = 16777216 := by
    unfold roundHalfEven
    rw [hfloor]
    norm_num
  unfold roundToFloat
  rw [if_neg (ne_of_gt hpos), hlog]
  norm_num
  rw [hround]
  norm_num

/-- C11, as amended: for every viewport height from 0 to below `2 ^ 24` = 16777216 (the
heights that a `float` holds exactly) and all keys with `maxKey > minKey ≥ 0` for which
the height divided by `maxKey - minKey + 2`, rounded down, is at least
`PIANOROLL_MIN_ROW_HEIGHT`, the row height `r` after `zoomToArea` satisfies
`r ≤ viewportHeight / (maxKey - minKey + 2)`, that is
`r * (maxKey - minKey + 2) ≤ viewportHeight`. -/
theorem zoomToArea_row_height_fits (d : Decls) (roll : PianoRoll) (minKey maxKey : Int)
    (minBeat maxBeat : Rat) (hview : 0 ≤ roll.viewport.viewHeight)
    (hfloat : roll.viewport.viewHeight < 16777216)
    (_hmin : 0 ≤ minKey) (hmax : minKey < maxKey)
    (hfit : d.PIANOROLL_MIN_ROW_HEIGHT ≤
      Int.tdiv roll.viewport.viewHeight (maxKey - minKey + 2)) :
    (zoomToArea d roll minKey maxKey minBeat maxBeat).rowHeight * (maxKey - minKey + 2) ≤
      roll.viewport.viewHeight := by
  have hkeys : 0 < maxKey - minKey + 2 := by omega
  rw [zoomToArea_rowHeight_of_small d roll minKey maxKey minBeat maxBeat hview hfloat hmax]
  have h1 := setRowHeight_le_of_min_le d roll _ hfit
  have h2 := tdiv_mul_le_of_nonneg roll.viewport.viewHeight (maxKey - minKey + 2) hview hkeys
  have h3 : (setRowHeight d roll
      (Int.tdiv roll.viewport.viewHeight (maxKey - minKey + 2))).rowHeight *
      (maxKey - minKey + 2) ≤
      Int.tdiv roll.viewport.viewHeight (maxKey - minKey + 2) * (maxKey - minKey + 2) :=
    Int.mul_le_mul_of_nonneg_right h1 (le_of_lt hkeys)
  omega

/-- C11, counterexample: a viewport 600 pixels high and the keys 0 to 127: the rows
that would fit are 4 pixels high, the row height after `zoomToArea` is the minimum 6,
and 129 rows of 6 pixels are higher than the viewport. And a viewport 33554431 pixels
high with the keys 0 to 2097150: 15 pixels a row would fit, but `float (33554431)` is
33554432, the quotient of the floats is 16, and 2097152 rows of 16 pixels are higher
than the viewport. -/
theorem zoomToArea_row_height_exceeds :
    Sample.emptyRoll.viewport.viewHeight = 600 ∧
    (zoomToArea Sample.decls Sample.emptyRoll 0 127 0 8).rowHeight = 6 ∧
    ¬ ((zoomToArea Sample.decls Sample.emptyRoll 0 127 0 8).rowHeight * (127 - 0 + 2) ≤
      Sample.emptyRoll.viewport.viewHeight) ∧
    Sample.hugeViewRoll.viewport.viewHeight = 33554431 ∧
    Int.tdiv Sample.hugeViewRoll.viewport.viewHeight (2097150 - 0 + 2) = 15 ∧
    Sample.decls.PIANOROLL_MIN_ROW_HEIGHT ≤ 15 ∧
    (zoomToArea Sample.decls Sample.hugeViewRoll 0 2097150 0 8).rowHeight = 16 ∧
    ¬ ((zoomToArea Sample.decls Sample.hugeViewRoll 0 2097150 0 8).rowHeight *
        (2097150 - 0 + 2) ≤ Sample.hugeViewRoll.viewport.viewHeight) := by
  have h600 : (zoomToArea Sample.decls Sample.emptyRoll 0 127 0 8).rowHeight = 6 := by
    rw [zoomToArea_rowHeight_of_small _ _ _ _ _ _ (by decide) (by decide) (by decide)]
    decide
  have hview : Sample.hugeViewRoll.viewport.viewHeight = 33554431 := by decide
  have hhuge : (zoomToArea Sample.decls Sample.hugeViewRoll 0 2097150 0 8).rowHeight = 16 := by
    rw [zoomToArea_rowHeight, hview]
    have h1 : roundToFloat (((33554431 : Int)) : Rat) = 33554432 := by
      rw [show (((33554431 : Int)) : Rat) = 33554431 by norm_num]
      exact roundToFloat_33554431
    have h2 : roundToFloat (((2097150 - 0 + 2 : Int)) : Rat) = 2097152 := by
      rw [show (((2097150 - 0 + 2 : Int)) : Rat) = ((2097152 : Nat) : Rat) by norm_num]
      rw [roundToFloat_natCast 2097152 (by norm_num)]
      norm_num
    have h3 : roundToFloat ((33554432 : Rat) / 2097152) = 16 := by
      rw [show ((33554432 : Rat) / 2097152) = ((16 : Nat) : Rat) by norm_num]
      rw [roundToFloat_natCast 16 (by norm_num)]
      norm_num
    have h4 : truncate (16 : Rat) = 16 := by
      have := truncate_of_mem_Ico (16 : Rat) 16 (by norm_num) (by norm_num)
      exact_mod_cast this
    rw [h1, h2, h3, h4]
    decide
  refine ⟨by decide, h600, ?_, hview, by decide, by decide, hhuge, ?_⟩
  · rw [h600]; decide
  · rw [hhuge, hview]; decide

/-- C11, witness: a viewport 600 pixels high and the keys 60 to 72: 14 rows of at most
42 pixels fit, and the row height is 30. -/
theorem zoomToArea_row_height_fits_witness :
    (zoomToArea Sample.decls Sample.emptyRoll 60 72 0 8).rowHeight = 30 ∧
    (zoomToArea Sample.decls Sample.emptyRoll 60 72 0 8).rowHeight * (72 - 60 + 2) ≤
      Sample.emptyRoll.viewport.viewHeight :=
  ⟨by
      rw [zoomToArea_rowHeight_of_small _ _ _ _ _ _ (by decide) (by decide) (by decide)]
      decide,
    zoomToArea_row_height_fits Sample.decls Sample.emptyRoll 60 72 0 8 (by decide) (by decide)
      (by decide) (by decide) (by decide)⟩

theorem setRowHeight_same (d : Decls) (roll : PianoRoll) :
    setRowHeight d roll roll.rowHeight = roll := by
  unfold setRowHeight
  rw [if_pos rfl]

theorem setRowHeight_within (d : Decls) (roll : PianoRoll) (c : Int)
    (h1 : d.PIANOROLL_MIN_ROW_HEIGHT ≤ c) (h2 : c ≤ d.PIANOROLL_MAX_ROW_HEIGHT) :
    (setRowHeight d roll c).rowHeight = c := by
  unfold setRowHeight
  split_ifs with h
  · rw [h]
  · simp only [setSize, jlimit]
    split_ifs <;> omega

/-- The row height after `zoomRelative`, for a factor beyond the threshold: the row
height that `setRowHeight` makes of the candidate, or of the current height when the
candidate is rejected. -/
theorem zoomRelative_rowHeight (d : Decls) (roll : PianoRoll) (origin factor : Point)
    (hf : yZoomThreshold < |factor.y|) :
    (zoomRelative d roll origin factor).rowHeight =
      (setRowHeight d roll
        (if (if factor.y < 0 then roll.rowHeight - 1 else roll.rowHeight + 1) * roll.numRows <
              roll.viewport.viewHeight ∨
            (if factor.y < 0 then roll.rowHeight - 1 else roll.rowHeight + 1) >
              d.PIANOROLL_MAX_ROW_HEIGHT ∨
            (if factor.y < 0 then roll.rowHeight - 1 else roll.rowHeight + 1) <
              d.PIANOROLL_MIN_ROW_HEIGHT then
          roll.rowHeight
        else (if factor.y < 0 then roll.rowHeight - 1 else roll.rowHeight + 1))).rowHeight := by
  have hthr : (0 : Rat) < yZoomThreshold := by unfold yZoomThreshold; norm_num
  have hcand : (if factor.y > yZoomThreshold then
        (if factor.y < -yZoomThreshold then roll.rowHeight - 1 else roll.rowHeight) + 1
      else (if factor.y < -yZoomThreshold then roll.rowHeight - 1 else roll.rowHeight)) =
      (if factor.y < 0 then roll.rowHeight - 1 else roll.rowHeight + 1) := by
    by_cases hneg : factor.y < 0
    · have h1 : factor.y < -yZoomThreshold := by
        rw [abs_of_neg hneg] at hf
        linarith
      have h2 : ¬ factor.y > yZoomThreshold := by
        intro h; linarith
      rw [if_neg h2, if_pos h1, if_pos hneg]
    · have hpos : 0 ≤ factor.y := le_of_not_lt hneg
      have h1 : ¬ factor.y < -yZoomThreshold := by
        intro h; linarith
      have h2 : factor.y > yZoomThreshold := by
        rw [abs_of_nonneg hpos] at hf
        exact hf
      rw [if_pos h2, if_neg h1, if_neg hneg]
  unfold zoomRelative
  rw [if_pos hf]
  simp only [setViewPosition, hcand]

/-- C13: for every state and every zoom factor whose vertical component exceeds the
threshold in absolute value, with `c` the current row height minus 1 (negative factor)
or plus 1 (positive factor): when `HYBRID_ROLL_HEADER_HEIGHT + numRows * c` is smaller
than the viewport height, the row height after `zoomRelative` is the row height before
it; and in every case the row height changes by at most 1. -/
theorem zoomRelative_row_height (d : Decls) (hheader : 0 ≤ d.HYBRID_ROLL_HEADER_HEIGHT)
    (roll : PianoRoll) (origin factor : Point) (hf : yZoomThreshold < |factor.y|) :
    (d.HYBRID_ROLL_HEADER_HEIGHT +
        roll.numRows * (if factor.y < 0 then roll.rowHeight - 1 else roll.rowHeight + 1) <
        roll.viewport.viewHeight →
      (zoomRelative d roll origin factor).rowHeight = roll.rowHeight) ∧
    |(zoomRelative d roll origin factor).rowHeight - roll.rowHeight| ≤ 1 := by
  rw [zoomRelative_rowHeight d roll origin factor hf]
  generalize hc : (if factor.y < 0 then roll.rowHeight - 1 else roll.rowHeight + 1) = c
  have hc1 : |c - roll.rowHeight| ≤ 1 := by
    rw [← hc]
    split_ifs
    · rw [abs_le]; constructor <;> omega
    · rw [abs_le]; constructor <;> omega
  constructor
  · intro hsmall
    have : c * roll.numRows < roll.viewport.viewHeight := by
      rw [Int.mul_comm]; omega
    rw [if_pos (Or.inl this), setRowHeight_same]
  · split_ifs with hrej
    · rw [setRowHeight_same]; simp
    · have h1 : d.PIANOROLL_MIN_ROW_HEIGHT ≤ c := by
        by_contra h; exact hrej (Or.inr (Or.inr (by omega)))
      have h2 : c ≤ d.PIANOROLL_MAX_ROW_HEIGHT := by
        by_contra h; exact hrej (Or.inr (Or.inl (by omega)))
      rw [setRowHeight_within d roll c h1 h2]
      exact hc1

/-- C13, witness: the constructed roll (rows of 11 pixels, 128 rows, viewport 600) is
zoomed in once, and a roll in a viewport of 2000 pixels is not. -/
theorem zoomRelative_row_height_witness :
    (zoomRelative Sample.decls Sample.emptyRoll Sample.origin Sample.zoomIn).rowHeight = 12 ∧
    ((Sample.decls.HYBRID_ROLL_HEADER_HEIGHT +
        Sample.tallViewRoll.numRows *
          (if Sample.zoomIn.y < 0 then Sample.tallViewRoll.rowHeight - 1
            else Sample.tallViewRoll.rowHeight + 1) <
        Sample.tallViewRoll.viewport.viewHeight) ∧
      (zoomRelative Sample.decls Sample.tallViewRoll Sample.origin Sample.zoomIn).rowHeight =
        Sample.tallViewRoll.rowHeight) ∧
    |(zoomRelative Sample.decls Sample.emptyRoll Sample.origin Sample.zoomIn).rowHeight -
      Sample.emptyRoll.rowHeight| ≤ 1 := by
  have hf : yZoomThreshold < |Sample.zoomIn.y| := by
    unfold yZoomThreshold Sample.zoomIn
    norm_num
  have hsmall : Sample.decls.HYBRID_ROLL_HEADER_HEIGHT +
        Sample.tallViewRoll.numRows *
          (if Sample.zoomIn.y < 0 then Sample.tallViewRoll.rowHeight - 1
            else Sample.tallViewRoll.rowHeight + 1) <
        Sample.tallViewRoll.viewport.viewHeight := by
    have h0 : ¬ Sample.zoomIn.y < 0 := by unfold Sample.zoomIn; norm_num
    rw [if_neg h0]
    decide
  have h12 : (zoomRelative Sample.decls Sample.emptyRoll Sample.origin
      Sample.zoomIn).rowHeight = 12 := by
    rw [zoomRelative_rowHeight _ _ _ _ hf]
    have h0 : ¬ Sample.zoomIn.y < 0 := by unfold Sample.zoomIn; norm_num
    simp only [if_neg h0]
    decide
  exact ⟨h12, ⟨hsmall,
    (zoomRelative_row_height Sample.decls (by decide) Sample.tallViewRoll Sample.origin
      Sample.zoomIn hf).1 hsmall⟩,
    (zoomRelative_row_height Sample.decls (by decide) Sample.emptyRoll Sample.origin
      Sample.zoomIn hf).2⟩

/-! ### Adding and removing a note -/

/-- C14: when no submap of the note's track is a null pointer, `onAddMidiEvent(note)`
is handled, every clip submap of the note's track contains afterwards a component under
the note (bound to the note and to the submap's clip), and the clips of `patternMap`
and the submaps of clips of other tracks are as before. -/
theorem onAddMidiEvent_adds_entries (d : Decls) (roll : PianoRoll) (note : Note)
    (hnn : ∀ e ∈ roll.patternMap, e.1.pattern = note.sequence → e.2 ≠ none) :
    ∃ roll2 : PianoRoll,
      onAddMidiEvent d roll (.note note) = some roll2 ∧
      List.Forall₂
        (fun e e2 => e2.1 = e.1 ∧
          (e.1.pattern ≠ note.sequence → e2.2 = e.2) ∧
          (e.1.pattern = note.sequence →
            ∃ (sm2 : SequenceMap) (c : NoteComponent),
              e2.2 = some sm2 ∧ HashMap.get sm2 note = some c ∧
              c.note = note ∧ c.clip = e.1))
        roll.patternMap roll2.patternMap := by
  obtain ⟨roll2, h1, h2⟩ :=
    PianoRoll.forEachOfTrack_spec roll note.sequence (addNoteBody note) hnn
  refine ⟨roll2, h1, forall₂_imp_of_mem h2 ?_⟩
  rintro e _ e2 ⟨k1, k2, k3⟩
  refine ⟨k1, k2, ?_⟩
  intro hp
  obtain ⟨sm, r0, _, hs2⟩ := k3 hp
  refine ⟨_, (⟨r0.nextComponent, note, e.1,
      belongsTo note e.1 r0.activeTrack r0.activeClip, .mapKey⟩ : NoteComponent),
    hs2, ?_, rfl, rfl⟩
  simp only [addNoteBody]
  exact HashMap.get_assign_self _ _ _

/-- C14, witness: `noteC` is added to `rollAB`. -/
theorem onAddMidiEvent_adds_entries_witness :
    ∃ roll2 : PianoRoll,
      onAddMidiEvent Sample.decls Sample.rollAB (.note Sample.noteC) = some roll2 ∧
      List.Forall₂
        (fun e e2 => e2.1 = e.1 ∧
          (e.1.pattern ≠ Sample.noteC.sequence → e2.2 = e.2) ∧
          (e.1.pattern = Sample.noteC.sequence →
            ∃ (sm2 : SequenceMap) (c : NoteComponent),
              e2.2 = some sm2 ∧ HashMap.get sm2 Sample.noteC = some c ∧
              c.note = Sample.noteC ∧ c.clip = e.1))
        Sample.rollAB.patternMap roll2.patternMap :=
  onAddMidiEvent_adds_entries Sample.decls Sample.rollAB Sample.noteC (by decide)

theorem HashMap.get_erase_self {κ ν : Type} [DecidableEq κ] (m : HashMap κ ν) (k : κ) :
    HashMap.get (HashMap.erase m k) k = none :=
  HashMap.get_of_not_mem_keys (HashMap.not_mem_keys_erase m k)

/-- The selection after one pass of the loop of `onRemoveMidiEvent`: nothing is added
to it, and no component that the pass removed is left in it. -/
theorem removeNote_pass_selection (track : Nat) (note : Note) :
    ∀ (pm : PatternMap) (roll : PianoRoll) (pm2 : PatternMap) (roll2 : PianoRoll),
      forEachSequenceMapOfGivenTrack track (removeNoteBody note) pm roll = some (pm2, roll2) →
      (∀ p ∈ roll2.selection, p ∈ roll.selection) ∧
      ∀ e ∈ pm, e.1.pattern = track → ∀ (sm : SequenceMap) (c : NoteComponent),
        e.2 = some sm → HashMap.get sm note = some c → c.ptr ∉ roll2.selection := by
  intro pm
  induction pm with
  | nil =>
    intro roll pm2 roll2 h
    simp only [forEachSequenceMapOfGivenTrack, Option.some.injEq, Prod.mk.injEq] at h
    rw [← h.2]
    exact ⟨fun p hp => hp, fun e he => by simp at he⟩
  | cons e rest ih =>
    intro roll pm2 roll2 h
    obtain ⟨clip, v⟩ := e
    by_cases ht : clip.pattern = track
    · cases v with
      | none => simp [forEachSequenceMapOfGivenTrack, ht] at h
      | some sm0 =>
        simp only [forEachSequenceMapOfGivenTrack, if_pos ht] at h
        cases hrec : forEachSequenceMapOfGivenTrack track (removeNoteBody note) rest
            (removeNoteBody note roll clip sm0).1 with
        | none => rw [hrec] at h; cases h
        | some r =>
          obtain ⟨rest2, roll3⟩ := r
          rw [hrec] at h
          simp only [Option.some.injEq, Prod.mk.injEq] at h
          obtain ⟨g1, g2⟩ := ih _ _ _ hrec
          rw [← h.2]
          have hsub : ∀ p ∈ (removeNoteBody note roll clip sm0).1.selection,
              p ∈ roll.selection := by
            intro p hp
            unfold removeNoteBody at hp
            cases hget : HashMap.get sm0 note with
            | none => rw [hget] at hp; exact hp
            | some c0 => rw [hget] at hp; exact List.mem_of_mem_filter hp
          refine ⟨fun p hp => hsub p (g1 p hp), ?_⟩
          intro e he hpat sm c hs hget
          rcases List.mem_cons.1 he with rfl | he
          · simp only [Option.some.injEq] at hs
            subst hs
            intro hin
            have := g1 _ hin
            unfold removeNoteBody at this
            rw [hget] at this
            simp [List.mem_filter] at this
          · exact g2 e he hpat sm c hs hget
    · simp only [forEachSequenceMapOfGivenTrack, if_neg ht] at h
      cases hrec : forEachSequenceMapOfGivenTrack track (removeNoteBody note) rest roll with
      | none => rw [hrec] at h; cases h
      | some r =>
        obtain ⟨rest2, roll3⟩ := r
        rw [hrec] at h
        simp only [Option.some.injEq, Prod.mk.injEq] at h
        obtain ⟨g1, g2⟩ := ih _ _ _ hrec
        rw [← h.2]
        refine ⟨g1, ?_⟩
        intro e he hpat sm c hs hget
        rcases List.mem_cons.1 he with rfl | he
        · exact (ht hpat).elim
        · exact g2 e he hpat sm c hs hget

/-- C15: when every clip submap of the note's track binds the note to a component,
`onRemoveMidiEvent(note)` is handled; afterwards no clip submap of the track has an
entry under the note, every entry under another key is still there with its component,
the removed components are not in the selection, and the clips of `patternMap` and the
submaps of other tracks are as before. -/
theorem onRemoveMidiEvent_removes_entries (d : Decls) (project : Project) (roll : PianoRoll)
    (note : Note)
    (hentry : ∀ e ∈ roll.patternMap, e.1.pattern = note.sequence →
      ∃ (sm : SequenceMap) (c : NoteComponent), e.2 = some sm ∧
        HashMap.get sm note = some c) :
    ∃ roll2 : PianoRoll,
      onRemoveMidiEvent d project roll (.note note) = some roll2 ∧
      List.Forall₂
        (fun e e2 => e2.1 = e.1 ∧
          (e.1.pattern ≠ note.sequence → e2.2 = e.2) ∧
          (e.1.pattern = note.sequence →
            ∃ (sm sm2 : SequenceMap) (c : NoteComponent),
              e.2 = some sm ∧ e2.2 = some sm2 ∧ HashMap.get sm note = some c ∧
              note ∉ HashMap.keys sm2 ∧ HashMap.get sm2 note = none ∧
              (∀ k, k ≠ note →
                HashMap.get sm2 k = HashMap.get sm k ∧
                (k ∈ HashMap.keys sm2 ↔ k ∈ HashMap.keys sm)) ∧
              c.ptr ∉ roll2.selection))
        roll.patternMap roll2.patternMap := by
  have hnn : ∀ e ∈ (hideAllGhostNotes roll).patternMap,
      e.1.pattern = note.sequence → e.2 ≠ none := by
    intro e he hp hnone
    obtain ⟨sm, _, hs, _⟩ := hentry e he hp
    rw [hs] at hnone
    cases hnone
  obtain ⟨pm2, r2, h1, h2⟩ := forEachSequenceMapOfGivenTrack_spec note.sequence
    (removeNoteBody note) (hideAllGhostNotes roll).patternMap (hideAllGhostNotes roll) hnn
  obtain ⟨_, hsel⟩ := removeNote_pass_selection note.sequence note _ _ _ _ h1
  refine ⟨{ r2 with patternMap := pm2 }, ?_, ?_⟩
  · simp only [onRemoveMidiEvent, PianoRoll.forEachOfTrack, h1]
  · refine forall₂_imp_of_mem h2 ?_
    rintro e he e2 ⟨k1, k2, k3⟩
    refine ⟨k1, k2, ?_⟩
    intro hp
    obtain ⟨sm, c, hs, hget⟩ := hentry e he hp
    obtain ⟨sm0, r0, hs0, hs2⟩ := k3 hp
    rw [hs] at hs0
    cases hs0
    rw [removeNoteBody_snd_of_get note r0 e.1 sm c hget] at hs2
    refine ⟨sm, _, c, hs, hs2, hget, HashMap.not_mem_keys_erase sm note,
      HashMap.get_erase_self sm note, ?_, hsel e he hp sm c hs hget⟩
    intro k hk
    refine ⟨HashMap.get_erase_of_ne sm note k hk, ?_⟩
    rw [HashMap.mem_keys_erase]
    exact ⟨fun h => h.1, fun h => ⟨h, hk⟩⟩

/-- C15, witness: `noteB` is removed from `rollAB`. -/
theorem onRemoveMidiEvent_removes_entries_witness :
    ∃ roll2 : PianoRoll,
      onRemoveMidiEvent Sample.decls Sample.project Sample.rollAB (.note Sample.noteB) =
        some roll2 ∧
      List.Forall₂
        (fun e e2 => e2.1 = e.1 ∧
          (e.1.pattern ≠ Sample.noteB.sequence → e2.2 = e.2) ∧
          (e.1.pattern = Sample.noteB.sequence →
            ∃ (sm sm2 : SequenceMap) (c : NoteComponent),
              e.2 = some sm ∧ e2.2 = some sm2 ∧ HashMap.get sm Sample.noteB = some c ∧
              Sample.noteB ∉ HashMap.keys sm2 ∧ HashMap.get sm2 Sample.noteB = none ∧
              (∀ k, k ≠ Sample.noteB →
                HashMap.get sm2 k = HashMap.get sm k ∧
                (k ∈ HashMap.keys sm2 ↔ k ∈ HashMap.keys sm)) ∧
              c.ptr ∉ roll2.selection))
        Sample.rollAB.patternMap roll2.patternMap :=
  onRemoveMidiEvent_removes_entries Sample.decls Sample.project Sample.rollAB Sample.noteB
    (by
      intro e he _
      have he2 : e = (Sample.clipA, some Sample.mapAB) := by
        simpa [Sample.rollAB] using he
      subst he2
      exact ⟨Sample.mapAB, Sample.compB, rfl, by decide⟩)

/-- C16, the code at the failing input: while a note is being drawn, `noteC` is added
and becomes the note being dragged (component 2, the entry of `noteC`); after
`onRemoveMidiEvent(noteC)` the entry is gone from the index and the ghost notes are
cleared, but `newNoteDragging` still holds the address of the removed component. -/
theorem onRemoveMidiEvent_keeps_newNoteDragging :
    (onAddMidiEvent Sample.decls Sample.drawingRoll (.note Sample.noteC)).map
        (fun r => (r.newNoteDragging,
          (HashMap.get r.patternMap Sample.clipA).bind
            (fun sm => (HashMap.get sm Sample.noteC).map (fun c => c.ptr)))) =
      some (some 2, some 2) ∧
    ((onAddMidiEvent Sample.decls Sample.drawingRoll (.note Sample.noteC)).bind
        (fun r => onRemoveMidiEvent Sample.decls Sample.project r (.note Sample.noteC))).map
        (fun r => (r.newNoteDragging, r.ghostNotes, r.patternMap)) =
      some (some 2, [], [(Sample.clipA, some Sample.mapAB)]) := by
  refine ⟨by decide, by decide⟩

/-! ### Adding a clip -/

/-- The loop over a reference map whose entries bind every key to a component of that
note: it ends, and the new sequence map gets the keys of the reference map, each bound
to a component of that note and of the new clip. -/
theorem cloneSequence_spec (clip : Clip) :
    ∀ (ref : SequenceMap) (roll : PianoRoll) (acc : SequenceMap),
      (∀ x ∈ ref, ∃ c : NoteComponent, x.2 = some c ∧ c.note = x.1) →
      (HashMap.keys acc ++ HashMap.keys ref).Nodup →
      ∃ (roll2 : PianoRoll) (sm2 : SequenceMap),
        cloneSequence clip ref roll acc = some (roll2, sm2) ∧
        HashMap.keys sm2 = HashMap.keys acc ++ HashMap.keys ref ∧
        (∀ x ∈ sm2, x ∈ acc ∨
          ∃ c : NoteComponent, x.2 = some c ∧ c.clip = clip ∧ c.note = x.1) ∧
        roll2.selection = roll.selection ∧ roll2.backgroundsCache = roll.backgroundsCache := by
  intro ref
  induction ref with
  | nil =>
    intro roll acc _ _
    exact ⟨roll, acc, rfl, by simp [HashMap.keys], fun x hx => Or.inl hx, rfl, rfl⟩
  | cons e rest ih =>
    intro roll acc hwf hnd
    obtain ⟨k, v⟩ := e
    obtain ⟨c, hc, hck⟩ := hwf (k, v) (List.mem_cons_self _ _)
    simp only at hc hck
    subst hc
    have hk : k ∉ HashMap.keys acc := by
      intro hin
      rw [HashMap.keys_cons, List.nodup_append] at hnd
      exact hnd.2.2 hin (List.mem_cons_self _ _)
    have hkeys : HashMap.keys (HashMap.assign acc c.note
        (some { ptr := roll.nextComponent, note := c.note, clip := clip,
                active := belongsTo c.note clip roll.activeTrack roll.activeClip })) =
        HashMap.keys acc ++ [k] := by
      rw [hck, HashMap.keys_assign, if_neg hk]
    obtain ⟨roll2, sm2, h1, h2, h3, h4, h5⟩ := ih
      { roll with
        nextComponent := roll.nextComponent + 1
        batchRepaintList := roll.batchRepaintList ++ [roll.nextComponent] }
      (HashMap.assign acc c.note
        (some { ptr := roll.nextComponent, note := c.note, clip := clip,
                active := belongsTo c.note clip roll.activeTrack roll.activeClip }))
      (fun x hx => hwf x (List.mem_cons_of_mem _ hx))
      (by
        rw [hkeys, List.append_assoc]
        simpa [HashMap.keys] using hnd)
    refine ⟨roll2, sm2, ?_, ?_, ?_, h4, h5⟩
    · simp only [cloneSequence]
      exact h1
    · rw [h2, hkeys, List.append_assoc]
      rfl
    · intro x hx
      rcases h3 x hx with hx | hx
      · rcases HashMap.mem_assign hx with hx | hx
        · left; exact hx
        · right; rw [hx]; exact ⟨_, rfl, rfl, rfl⟩
      · right; exact hx

theorem findReferenceMap_mem (track : Nat) :
    ∀ (pm : PatternMap) (first : Clip) (v : Option SequenceMap),
      findReferenceMap track pm = some (first, v) → (first, v) ∈ pm := by
  intro pm
  induction pm with
  | nil => intro first v h; simp [findReferenceMap] at h
  | cons e rest ih =>
    intro first v h
    obtain ⟨c, w⟩ := e
    unfold findReferenceMap at h
    split_ifs at h with hp
    · simp only [Option.some.injEq, Prod.mk.injEq] at h
      rw [h.1, h.2]; exact List.mem_cons_self _ _
    · exact List.mem_cons_of_mem _ (ih first v h)

/-- In an index whose first submap for the new clip's track (the template) binds every
key to a component of that note, `onAddClip(clip)` for a clip that is new to the index is
handled; afterwards the index holds, behind the entries it had, a submap under the clip
whose note keys are those of the template, each key once and bound to a component of
that note and of the new clip; every other submap is as before. -/
theorem onAddClip_clones_template (roll : PianoRoll) (clip first : Clip)
    (template : SequenceMap)
    (href : findReferenceMap clip.pattern roll.patternMap = some (first, some template))
    (hnew : clip ∉ HashMap.keys roll.patternMap)
    (hnd : (HashMap.keys template).Nodup)
    (hwf : ∀ x ∈ template, ∃ c : NoteComponent, x.2 = some c ∧ c.note = x.1) :
    ∃ (roll2 : PianoRoll) (sm2 : SequenceMap),
      onAddClip roll clip = some roll2 ∧
      roll2.patternMap = roll.patternMap ++ [(clip, some sm2)] ∧
      HashMap.get roll2.patternMap clip = some sm2 ∧
      HashMap.keys sm2 = HashMap.keys template ∧
      (∀ x ∈ sm2, ∃ c : NoteComponent, x.2 = some c ∧ c.clip = clip ∧ c.note = x.1) ∧
      (∀ k, k ≠ clip → HashMap.get roll2.patternMap k = HashMap.get roll.patternMap k) := by
  have hfirst : first ≠ clip := by
    intro heq
    apply hnew
    rw [← heq]
    exact HashMap.mem_keys_of_mem (findReferenceMap_mem _ _ _ _ href)
  obtain ⟨r2, sm2, h1, h2, h3, _, _⟩ := cloneSequence_spec clip template roll [] hwf
    (by simpa [HashMap.keys] using hnd)
  have hpm : HashMap.assign roll.patternMap clip (some sm2) =
      roll.patternMap ++ [(clip, some sm2)] := HashMap.assign_of_not_mem _ _ _ hnew
  refine ⟨{ r2 with
      patternMap := HashMap.assign roll.patternMap clip (some sm2)
      asyncUpdatePending := true }, sm2, ?_, hpm, ?_, ?_, ?_, ?_⟩
  · simp only [onAddClip, href, if_neg hfirst, h1]
  · exact HashMap.get_assign_self _ _ _
  · simpa [HashMap.keys] using h2
  · intro x hx
    rcases h3 x hx with hx | hx
    · simp at hx
    · exact hx
  · intro k hk
    exact HashMap.get_assign_of_ne _ _ _ _ hk

/-- C17, the code at the failing input: the index holds the notes of track 1 under
`clipA` and the note of track 2 under `clipD`, and `onAddClip` for another clip of track
2 clones the submap of `clipD`. After `onRemoveTrack` for track 1 the submap of `clipD`
holds the keys `noteA` and `noteB` bound to null pointers, and `onAddClip` for the clip of
track 2 reads the note of a null component: it has no defined result. -/
theorem onAddClip_reads_null_component :
    (onAddClip Sample.rollTwoTracks Sample.clipE).map
        (fun r => (HashMap.get r.patternMap Sample.clipE).map HashMap.keys) =
      some (some [Sample.noteD]) ∧
    (onRemoveTrack Sample.decls Sample.project Sample.rollTwoTracks Sample.track).map
        (fun r => findReferenceMap Sample.clipE.pattern r.patternMap) =
      some (some (Sample.clipD,
        some [(Sample.noteD, some Sample.compD), (Sample.noteA, none),
          (Sample.noteB, none)])) ∧
    (onRemoveTrack Sample.decls Sample.project Sample.rollTwoTracks Sample.track).bind
        (fun r => onAddClip r Sample.clipE) = none := by
  refine ⟨by decide, by decide, by decide⟩

/-! ### Re-keying a clip -/

theorem rebindClip_keys (newClip : Clip) (sm : SequenceMap) :
    HashMap.keys (rebindClip newClip sm) = HashMap.keys sm := by
  simp [rebindClip, HashMap.keys, List.map_map, Function.comp]

theorem rebindClip_components (newClip : Clip) (sm : SequenceMap) :
    componentsOf (rebindClip newClip sm) = componentsOf sm := by
  unfold componentsOf rebindClip
  rw [List.filterMap_map]
  congr 1
  funext e
  cases h : e.2 with
  | none => simp [Function.comp, h]
  | some c => cases hc : c.clipRef <;> simp [Function.comp, h, hc]

theorem rebindClip_length (newClip : Clip) (sm : SequenceMap) :
    (rebindClip newClip sm).length = sm.length := by
  simp [rebindClip]

theorem entryCount_cons (roll : PianoRoll) (k : Clip) (v : Option SequenceMap)
    (rest : PatternMap) :
    ({ roll with patternMap := (k, v) :: rest } : PianoRoll).entryCount =
      (match v with | some sequenceMap => sequenceMap.length | none => 0) +
      ({ roll with patternMap := rest } : PianoRoll).entryCount := by
  cases v <;> simp [PianoRoll.entryCount]

theorem entryCount_append_one (roll : PianoRoll) (pm : PatternMap) (k : Clip)
    (sm : SequenceMap) :
    ({ roll with patternMap := pm ++ [(k, some sm)] } : PianoRoll).entryCount =
      ({ roll with patternMap := pm } : PianoRoll).entryCount + sm.length := by
  simp [PianoRoll.entryCount]

/-- The number of entries of the submaps, with one submap taken out. -/
theorem entryCount_erase (roll : PianoRoll) (clip : Clip) (sm : SequenceMap) :
    ∀ pm : PatternMap, (HashMap.keys pm).Nodup → HashMap.get pm clip = some sm →
      ({ roll with patternMap := HashMap.erase pm clip } : PianoRoll).entryCount + sm.length =
      ({ roll with patternMap := pm } : PianoRoll).entryCount := by
  intro pm
  induction pm with
  | nil => intro _ h; simp [HashMap.get] at h
  | cons e rest ih =>
    intro hnd hget
    obtain ⟨k, v⟩ := e
    simp only [HashMap.keys_cons, List.nodup_cons] at hnd
    by_cases hk : k = clip
    · subst hk
      simp only [HashMap.get, if_pos rfl] at hget
      subst hget
      have hrest : HashMap.erase rest k = rest := by
        unfold HashMap.erase
        rw [List.filter_eq_self]
        intro a ha
        have := HashMap.mem_keys_of_mem ha
        simp only [ne_eq, decide_not, Bool.not_eq_true', decide_eq_false_iff_not]
        intro heq
        rw [heq] at this
        exact hnd.1 this
      rw [HashMap.erase_cons_self, hrest, entryCount_cons]
      simp only
      omega
    · simp only [HashMap.get, if_neg hk] at hget
      rw [HashMap.erase_cons_of_ne _ _ _ _ hk, entryCount_cons, entryCount_cons]
      have := ih hnd.2 hget
      omega

/-- C18, as amended: when the index holds a submap under the old clip and none under
the new clip (unless the new clip is the same key), after `onChangeClip(oldClip,
newClip)` the index maps the new clip to the entries that the old clip mapped to (the
same note keys and the same components), does not hold
the old clip any more unless it is the same key, keeps every other submap as it was,
and the number of submaps and of entries is the same as before. -/
theorem onChangeClip_rekeys (roll : PianoRoll) (clip newClip : Clip) (sm : SequenceMap)
    (hnd : (HashMap.keys roll.patternMap).Nodup)
    (hget : HashMap.get roll.patternMap clip = some sm)
    (hnew : newClip = clip ∨ newClip ∉ HashMap.keys roll.patternMap) :
    HashMap.get (onChangeClip roll clip newClip).patternMap newClip =
      some (rebindClip newClip sm) ∧
    HashMap.keys (rebindClip newClip sm) = HashMap.keys sm ∧
    componentsOf (rebindClip newClip sm) = componentsOf sm ∧
    (newClip ≠ clip →
      clip ∉ HashMap.keys (onChangeClip roll clip newClip).patternMap ∧
      HashMap.get (onChangeClip roll clip newClip).patternMap clip = none) ∧
    (∀ k, k ≠ clip → k ≠ newClip →
      HashMap.get (onChangeClip roll clip newClip).patternMap k =
        HashMap.get roll.patternMap k ∧
      (k ∈ HashMap.keys (onChangeClip roll clip newClip).patternMap ↔
        k ∈ HashMap.keys roll.patternMap)) ∧
    (onChangeClip roll clip newClip).patternMap.length = roll.patternMap.length ∧
    (onChangeClip roll clip newClip).entryCount = roll.entryCount := by
  have hpm : (onChangeClip roll clip newClip).patternMap =
      HashMap.assign (HashMap.erase roll.patternMap clip) newClip
        (some (rebindClip newClip sm)) := by
    simp only [onChangeClip, hget, HashMap.erase_assign_self]
  have hkey := HashMap.mem_keys_of_get hget
  have hnot : newClip ∉ HashMap.keys (HashMap.erase roll.patternMap clip) := by
    rw [HashMap.mem_keys_erase]
    rintro ⟨hin, hne⟩
    rcases hnew with hnew | hnew
    · exact hne hnew
    · exact hnew hin
  have happ : (onChangeClip roll clip newClip).patternMap =
      HashMap.erase roll.patternMap clip ++ [(newClip, some (rebindClip newClip sm))] := by
    rw [hpm, HashMap.assign_of_not_mem _ _ _ hnot]
  refine ⟨?_, rebindClip_keys _ _, rebindClip_components _ _, ?_, ?_, ?_, ?_⟩
  · rw [hpm]; exact HashMap.get_assign_self _ _ _
  · intro hne
    have hck : clip ∉ HashMap.keys (onChangeClip roll clip newClip).patternMap := by
      rw [hpm, HashMap.keys_assign, if_neg hnot]
      simp only [List.mem_append, List.mem_singleton, not_or]
      exact ⟨HashMap.not_mem_keys_erase _ _, fun h => hne h.symm⟩
    exact ⟨hck, HashMap.get_of_not_mem_keys hck⟩
  · intro k hk hkn
    constructor
    · rw [hpm, HashMap.get_assign_of_ne _ _ _ _ hkn, HashMap.get_erase_of_ne _ _ _ hk]
    · rw [hpm, HashMap.keys_assign, if_neg hnot]
      simp only [List.mem_append, List.mem_singleton, HashMap.mem_keys_erase]
      constructor
      · rintro (h | h)
        · exact h.1
        · exact (hkn h).elim
      · intro h; exact Or.inl ⟨h, hk⟩
  · rw [happ, List.length_append, List.length_singleton]
    exact HashMap.length_erase clip hnd hkey
  · have h1 : (onChangeClip roll clip newClip).entryCount =
        ({ roll with patternMap := (onChangeClip roll clip newClip).patternMap } :
          PianoRoll).entryCount := rfl
    have h2 : roll.entryCount =
        ({ roll with patternMap := roll.patternMap } : PianoRoll).entryCount := rfl
    rw [h1, h2, happ, entryCount_append_one, rebindClip_length]
    exact entryCount_erase roll clip sm roll.patternMap hnd hget

/-- C18, counterexample: the index holds `mapAB` under `clipA` and an empty submap
under `clipB`; after `onChangeClip(clipA, clipB)` it holds one submap instead of two,
and the submap that was under `clipB` is gone, overwritten by the one of `clipA`. -/
theorem onChangeClip_overwrites_submap :
    HashMap.get Sample.rollTwoClips.patternMap Sample.clipA = some Sample.mapAB ∧
    HashMap.get Sample.rollTwoClips.patternMap Sample.clipB = some [] ∧
    (onChangeClip Sample.rollTwoClips Sample.clipA Sample.clipB).patternMap =
      [(Sample.clipB, some (rebindClip Sample.clipB Sample.mapAB))] ∧
    Sample.rollTwoClips.patternMap.length = 2 ∧
    (onChangeClip Sample.rollTwoClips Sample.clipA Sample.clipB).patternMap.length = 1 := by
  refine ⟨by decide, by decide, by decide, by decide, by decide⟩

/-- C18, witness: in `rollTwoClips` the clip `clipA` moves to `clipC`, which is new. -/
theorem onChangeClip_rekeys_witness :
    HashMap.get (onChangeClip Sample.rollTwoClips Sample.clipA Sample.clipC).patternMap
      Sample.clipC = some (rebindClip Sample.clipC Sample.mapAB) ∧
    (onChangeClip Sample.rollTwoClips Sample.clipA Sample.clipC).patternMap.length =
      Sample.rollTwoClips.patternMap.length ∧
    (onChangeClip Sample.rollTwoClips Sample.clipA Sample.clipC).entryCount =
      Sample.rollTwoClips.entryCount :=
  ⟨(onChangeClip_rekeys Sample.rollTwoClips Sample.clipA Sample.clipC Sample.mapAB
      (by decide) (by decide) (Or.inr (by decide))).1,
    (onChangeClip_rekeys Sample.rollTwoClips Sample.clipA Sample.clipC Sample.mapAB
      (by decide) (by decide) (Or.inr (by decide))).2.2.2.2.2.1,
    (onChangeClip_rekeys Sample.rollTwoClips Sample.clipA Sample.clipC Sample.mapAB
      (by decide) (by decide) (Or.inr (by decide))).2.2.2.2.2.2⟩

/-! ### Removing a track -/

theorem HashMap.get_append_null {κ ν : Type} [DecidableEq κ] (m : HashMap κ ν) (k a : κ) :
    HashMap.get (m ++ [(k, none)]) a = HashMap.get m a := by
  induction m with
  | nil =>
    simp only [List.nil_append, HashMap.get]
    split_ifs <;> rfl
  | cons e rest ih =>
    obtain ⟨k1, v1⟩ := e
    have h : HashMap.get (rest.append [(k, none)]) a = HashMap.get rest a := ih
    simp only [List.cons_append, HashMap.get, h]

theorem HashMap.get_subscript {κ ν : Type} [DecidableEq κ] (m : HashMap κ ν) (k a : κ) :
    HashMap.get (HashMap.subscript m k) a = HashMap.get m a := by
  unfold HashMap.subscript
  split_ifs
  · rfl
  · exact HashMap.get_append_null m k a

theorem removeNoteBody_get_self (note : Note) (roll : PianoRoll) (clip : Clip)
    (sm : SequenceMap) : HashMap.get (removeNoteBody note roll clip sm).2 note = none := by
  unfold removeNoteBody
  cases h : HashMap.get sm note with
  | none => simp only [HashMap.get_subscript, h]
  | some c => exact HashMap.get_erase_self sm note

theorem removeNoteBody_get_none (note : Note) (roll : PianoRoll) (clip : Clip)
    (sm : SequenceMap) (a : Note) (ha : HashMap.get sm a = none) :
    HashMap.get (removeNoteBody note roll clip sm).2 a = none := by
  by_cases hna : a = note
  · rw [hna]; exact removeNoteBody_get_self note roll clip sm
  · unfold removeNoteBody
    cases h : HashMap.get sm note with
    | none => simp only [HashMap.get_subscript, ha]
    | some c => simp only [HashMap.get_erase_of_ne sm note a hna, ha]

theorem forEachSequenceMap_spec
    (body : PianoRoll → Clip → SequenceMap → PianoRoll × SequenceMap) :
    ∀ (pm : PatternMap) (roll : PianoRoll),
      (∀ e ∈ pm, e.2 ≠ none) →
      ∃ (pm2 : PatternMap) (roll2 : PianoRoll),
        forEachSequenceMap body pm roll = some (pm2, roll2) ∧
        List.Forall₂
          (fun e e2 => e2.1 = e.1 ∧ ∃ (sm : SequenceMap) (r0 : PianoRoll),
            e.2 = some sm ∧ e2.2 = some (body r0 e.1 sm).2) pm pm2 := by
  intro pm
  induction pm with
  | nil => intro roll _; exact ⟨[], roll, rfl, List.Forall₂.nil⟩
  | cons e rest ih =>
    intro roll hnn
    obtain ⟨clip, v⟩ := e
    cases v with
    | none => exact ((hnn (clip, none) (List.mem_cons_self _ _)) rfl).elim
    | some sm =>
      obtain ⟨pm2, roll2, h1, h2⟩ := ih (body roll clip sm).1
        (fun e he => hnn e (List.mem_cons_of_mem _ he))
      refine ⟨(clip, some (body roll clip sm).2) :: pm2, roll2, ?_, ?_⟩
      · simp only [forEachSequenceMap, h1]
      · exact List.Forall₂.cons ⟨rfl, sm, roll, rfl, rfl⟩ h2

theorem forall₂_keys_eq {R : Clip × Option SequenceMap → Clip × Option SequenceMap → Prop}
    {pm pm2 : PatternMap} (h : List.Forall₂ R pm pm2) (hk : ∀ a b, R a b → b.1 = a.1) :
    HashMap.keys pm2 = HashMap.keys pm := by
  induction h with
  | nil => rfl
  | cons hab _ ih => simp only [HashMap.keys_cons, ih, hk _ _ hab]

theorem forall₂_of_mem_right {R : Clip × Option SequenceMap → Clip × Option SequenceMap → Prop}
    {pm pm2 : PatternMap} (h : List.Forall₂ R pm pm2)
    {e2 : Clip × Option SequenceMap} (he : e2 ∈ pm2) : ∃ e ∈ pm, R e e2 := by
  induction h with
  | nil => simp at he
  | cons hab _ ih =>
    rcases List.mem_cons.1 he with rfl | he
    · exact ⟨_, List.mem_cons_self _ _, hab⟩
    · obtain ⟨e, hm, hr⟩ := ih he
      exact ⟨e, List.mem_cons_of_mem _ hm, hr⟩

/-- The loop over the events of the removed track: it ends when no submap is a null
pointer, the clips of the index stay, and afterwards no submap binds a component to a
note of the events, nor to a note that had none in any submap before. -/
theorem removeTrackEvents_spec (d : Decls) (project : Project) (cleared : Note → Prop) :
    ∀ (events : List MidiEvent) (roll : PianoRoll),
      (∀ e ∈ roll.patternMap, ∃ sm : SequenceMap, e.2 = some sm ∧
        ∀ n, cleared n → HashMap.get sm n = none) →
      ∃ roll2 : PianoRoll,
        removeTrackEvents d project events roll = some roll2 ∧
        HashMap.keys roll2.patternMap = HashMap.keys roll.patternMap ∧
        ∀ e2 ∈ roll2.patternMap, ∃ sm2 : SequenceMap, e2.2 = some sm2 ∧
          ∀ n, (cleared n ∨ MidiEvent.note n ∈ events) → HashMap.get sm2 n = none := by
  intro events
  induction events generalizing cleared with
  | nil =>
    intro roll h
    refine ⟨roll, rfl, rfl, ?_⟩
    intro e2 he2
    obtain ⟨sm, hs, hc⟩ := h e2 he2
    refine ⟨sm, hs, ?_⟩
    intro n hn
    rcases hn with hn | hn
    · exact hc n hn
    · simp at hn
  | cons ev rest ih =>
    intro roll h
    cases ev with
    | note a =>
      have hnn : ∀ e ∈ roll.patternMap, e.2 ≠ none := by
        intro e he hnone
        obtain ⟨sm, hs, _⟩ := h e he
        rw [hs] at hnone
        cases hnone
      obtain ⟨pm2, r2, h1, h2⟩ :=
        forEachSequenceMap_spec (removeNoteBody a) roll.patternMap roll hnn
      obtain ⟨roll3, g1, g2, g3⟩ := ih (fun n => cleared n ∨ n = a)
        { r2 with patternMap := pm2 }
        (by
          intro e2 he2
          obtain ⟨e, he, hk, sm, r0, hs, hs2⟩ := forall₂_of_mem_right h2 he2
          obtain ⟨sm0, hs0, hc⟩ := h e he
          rw [hs] at hs0
          cases hs0
          refine ⟨_, hs2, ?_⟩
          intro n hn
          rcases hn with hn | hn
          · exact removeNoteBody_get_none a r0 e.1 sm n (hc n hn)
          · rw [hn]; exact removeNoteBody_get_self a r0 e.1 sm)
      refine ⟨roll3, ?_, ?_, ?_⟩
      · simp only [removeTrackEvents, h1]
        exact g1
      · rw [g2]
        exact forall₂_keys_eq h2 (fun a b hr => hr.1)
      · intro e2 he2
        obtain ⟨sm2, hs2, hc2⟩ := g3 e2 he2
        refine ⟨sm2, hs2, ?_⟩
        intro n hn
        apply hc2
        rcases hn with hn | hn
        · exact Or.inl (Or.inl hn)
        · simp only [List.mem_cons, MidiEvent.note.injEq] at hn
          rcases hn with hn | hn
          · exact Or.inl (Or.inr hn)
          · exact Or.inr hn
    | keySignature k =>
      obtain ⟨roll3, g1, g2, g3⟩ := ih cleared
        { roll with
          backgroundsCache :=
            removeBackgroundCacheFor d project.keySignatures roll.backgroundsCache k } h
      refine ⟨roll3, ?_, g2, ?_⟩
      · simp only [removeTrackEvents]
        exact g1
      · intro e2 he2
        obtain ⟨sm2, hs2, hc2⟩ := g3 e2 he2
        refine ⟨sm2, hs2, ?_⟩
        intro n hn
        apply hc2
        rcases hn with hn | hn
        · exact Or.inl hn
        · simp only [List.mem_cons] at hn
          rcases hn with hn | hn
          · cases hn
          · exact Or.inr hn
    | other ty =>
      obtain ⟨roll3, g1, g2, g3⟩ := ih cleared roll h
      refine ⟨roll3, ?_, g2, ?_⟩
      · simp only [removeTrackEvents]
        exact g1
      · intro e2 he2
        obtain ⟨sm2, hs2, hc2⟩ := g3 e2 he2
        refine ⟨sm2, hs2, ?_⟩
        intro n hn
        apply hc2
        rcases hn with hn | hn
        · exact Or.inl hn
        · simp only [List.mem_cons] at hn
          rcases hn with hn | hn
          · cases hn
          · exact Or.inr hn

/-- C19: when no submap of the index is a null pointer, `onRemoveTrack(track)` is
handled; afterwards the index has the clips it had, and no clip submap binds a
component to any note-type event of the track's sequence. -/
theorem onRemoveTrack_clears_notes (d : Decls) (project : Project) (roll : PianoRoll)
    (track : MidiTrack) (hnn : ∀ e ∈ roll.patternMap, e.2 ≠ none) :
    ∃ roll2 : PianoRoll,
      onRemoveTrack d project roll track = some roll2 ∧
      HashMap.keys roll2.patternMap = HashMap.keys roll.patternMap ∧
      ∀ e2 ∈ roll2.patternMap, ∃ sm2 : SequenceMap, e2.2 = some sm2 ∧
        ∀ n, MidiEvent.note n ∈ track.sequence → HashMap.get sm2 n = none := by
  obtain ⟨roll2, h1, h2, h3⟩ := removeTrackEvents_spec d project (fun _ => False)
    track.sequence (hideAllGhostNotes { roll with selection := [] })
    (by
      intro e he
      cases hv : e.2 with
      | none => exact ((hnn e he) hv).elim
      | some sm => exact ⟨sm, rfl, fun n hn => hn.elim⟩)
  refine ⟨roll2, h1, h2, ?_⟩
  intro e2 he2
  obtain ⟨sm2, hs2, hc2⟩ := h3 e2 he2
  exact ⟨sm2, hs2, fun n hn => hc2 n (Or.inr hn)⟩

/-- C19, witness: the track of the sample project is removed from `rollAB`. -/
theorem onRemoveTrack_clears_notes_witness :
    ∃ roll2 : PianoRoll,
      onRemoveTrack Sample.decls Sample.project Sample.rollAB Sample.track = some roll2 ∧
      HashMap.keys roll2.patternMap = HashMap.keys Sample.rollAB.patternMap ∧
      ∀ e2 ∈ roll2.patternMap, ∃ sm2 : SequenceMap, e2.2 = some sm2 ∧
        ∀ n, MidiEvent.note n ∈ Sample.track.sequence → HashMap.get sm2 n = none :=
  onRemoveTrack_clears_notes Sample.decls Sample.project Sample.rollAB Sample.track
    (by decide)

/-! ### Reloading the roll -/

theorem loadSequence_selection (clip : Clip) :
    ∀ (events : List MidiEvent) (roll : PianoRoll) (sm : SequenceMap),
      (loadSequence clip events roll sm).1.selection = roll.selection := by
  intro events
  induction events with
  | nil => intro roll sm; rfl
  | cons e rest ih =>
    intro roll sm
    cases e with
    | note n => simp only [loadSequence]; rw [ih]
    | keySignature k => simp only [loadSequence]; rw [ih]
    | other t => simp only [loadSequence]; rw [ih]

theorem loadClips_selection (sequence : List MidiEvent) :
    ∀ (clips : List Clip) (roll : PianoRoll),
      (loadClips sequence clips roll).selection = roll.selection := by
  intro clips
  induction clips with
  | nil => intro roll; rfl
  | cons c rest ih =>
    intro roll
    simp only [loadClips]
    rw [ih]
    exact loadSequence_selection c sequence roll []

theorem loadTrack_selection (roll : PianoRoll) (track : MidiTrack) :
    (loadTrack roll track).selection = roll.selection := by
  unfold loadTrack
  cases track.pattern with
  | none => rfl
  | some clips => exact loadClips_selection _ clips roll

theorem loadTracks_selection (d : Decls) :
    ∀ (tracks : List MidiTrack) (roll : PianoRoll),
      (loadTracks d tracks roll).selection = roll.selection := by
  intro tracks
  induction tracks with
  | nil => intro roll; rfl
  | cons t rest ih =>
    intro roll
    simp only [loadTracks]
    rw [ih]
    exact loadTrack_selection roll t

/-- Every component that the inner loop of `loadTrack` makes shows the note of its key
in the clip of the submap. -/
theorem loadSequence_components (clip : Clip) :
    ∀ (events : List MidiEvent) (roll : PianoRoll) (sm : SequenceMap),
      (∀ x ∈ sm, ∃ c : NoteComponent, x.2 = some c ∧ c.note = x.1 ∧ c.clip = clip) →
      ∀ x ∈ (loadSequence clip events roll sm).2,
        ∃ c : NoteComponent, x.2 = some c ∧ c.note = x.1 ∧ c.clip = clip := by
  intro events
  induction events with
  | nil => intro roll sm h; exact h
  | cons e rest ih =>
    intro roll sm h
    cases e with
    | note a =>
      simp only [loadSequence]
      apply ih
      intro x hx
      rcases HashMap.mem_assign hx with hx | hx
      · exact h x hx
      · rw [hx]; exact ⟨_, rfl, rfl, rfl⟩
    | keySignature k => simp only [loadSequence]; exact ih roll sm h
    | other ty => simp only [loadSequence]; exact ih roll sm h

/-- The submap that the inner loop of `loadTrack` fills from an empty one holds exactly
the note events of the sequence. -/
theorem loadSequence_loadedFrom (clip : Clip) (events : List MidiEvent) (roll : PianoRoll) :
    LoadedFrom clip events (loadSequence clip events roll []).2 := by
  obtain ⟨_, h2, _, h4⟩ := loadSequence_spec clip events roll []
    (by simp [HashMap.keys]) (by simp)
  refine ⟨h2, ?_, loadSequence_components clip events roll [] (by simp)⟩
  intro n
  rw [h4 n]
  simp [HashMap.keys]

theorem HashMap.mem_keys_assign {κ ν : Type} [DecidableEq κ] (m : HashMap κ ν) (k a : κ)
    (v : Option ν) : a ∈ HashMap.keys (HashMap.assign m k v) ↔ a ∈ HashMap.keys m ∨ a = k := by
  rw [HashMap.keys_assign]
  split_ifs with h
  · constructor
    · intro ha; exact Or.inl ha
    · rintro (ha | ha)
      · exact ha
      · rw [ha]; exact h
  · simp

/-- The outer loop of `loadTrack`, read through the lookups of the index: every clip of
the list gets a submap that holds exactly the note events of the sequence, the other
keys keep what they had, and no key but the clips is added. -/
theorem loadClips_get (sequence : List MidiEvent) :
    ∀ (clips : List Clip) (roll : PianoRoll),
      ((HashMap.keys roll.patternMap).Nodup →
        (HashMap.keys (loadClips sequence clips roll).patternMap).Nodup) ∧
      (∀ c, c ∈ HashMap.keys (loadClips sequence clips roll).patternMap ↔
        c ∈ HashMap.keys roll.patternMap ∨ c ∈ clips) ∧
      (∀ c ∈ clips, ∃ sm : SequenceMap,
        HashMap.get (loadClips sequence clips roll).patternMap c = some sm ∧
        LoadedFrom c sequence sm) ∧
      (∀ c, c ∉ clips →
        HashMap.get (loadClips sequence clips roll).patternMap c =
          HashMap.get roll.patternMap c) := by
  intro clips
  induction clips with
  | nil =>
    intro roll
    refine ⟨fun h => h, ?_, ?_, ?_⟩
    · intro c; simp [loadClips]
    · intro c hc; simp at hc
    · intro c _; rfl
  | cons c0 rest ih =>
    intro roll
    have hpm : (loadSequence c0 sequence roll []).1.patternMap = roll.patternMap :=
      (loadSequence_spec c0 sequence roll [] (by simp [HashMap.keys]) (by simp)).1
    obtain ⟨k1, k2, k3, k4⟩ := ih
      { (loadSequence c0 sequence roll []).1 with
        patternMap := HashMap.assign (loadSequence c0 sequence roll []).1.patternMap c0
          (some (loadSequence c0 sequence roll []).2) }
    simp only [hpm] at k1 k2 k3 k4
    simp only [loadClips, hpm]
    refine ⟨?_, ?_, ?_, ?_⟩
    · intro hnd
      exact k1 (HashMap.nodup_keys_assign _ _ hnd)
    · intro c
      rw [k2 c, HashMap.mem_keys_assign, List.mem_cons]
      tauto
    · intro c hc
      by_cases hr : c ∈ rest
      · exact k3 c hr
      · have hc0 : c = c0 := by
          rcases List.mem_cons.1 hc with h | h
          · exact h
          · exact (hr h).elim
        rw [k4 c hr, hc0, HashMap.get_assign_self]
        exact ⟨_, rfl, loadSequence_loadedFrom c0 sequence roll⟩
    · intro c hc
      simp only [List.mem_cons, not_or] at hc
      rw [k4 c hc.2, HashMap.get_assign_of_ne _ _ _ _ hc.1]

theorem loadTrack_get (roll : PianoRoll) (t : MidiTrack) :
    ((HashMap.keys roll.patternMap).Nodup →
      (HashMap.keys (loadTrack roll t).patternMap).Nodup) ∧
    (∀ c, c ∈ HashMap.keys (loadTrack roll t).patternMap ↔
      c ∈ HashMap.keys roll.patternMap ∨ c ∈ t.clips) ∧
    (∀ c ∈ t.clips, ∃ sm : SequenceMap,
      HashMap.get (loadTrack roll t).patternMap c = some sm ∧
      LoadedFrom c t.sequence sm) ∧
    (∀ c, c ∉ t.clips →
      HashMap.get (loadTrack roll t).patternMap c = HashMap.get roll.patternMap c) := by
  unfold loadTrack MidiTrack.clips
  cases t.pattern with
  | none =>
    refine ⟨fun h => h, ?_, ?_, ?_⟩
    · intro c; simp
    · intro c hc; simp at hc
    · intro c _; rfl
  | some clips => exact loadClips_get t.sequence clips roll

/-- The loop over the tracks, read through the lookups of the index, when no clip is
in the patterns of two of the tracks. -/
theorem loadTracks_get (d : Decls) :
    ∀ (ts : List MidiTrack) (roll : PianoRoll),
      (∀ t ∈ ts, ∀ t2 ∈ ts, ∀ c ∈ t.clips, c ∈ t2.clips → t2 = t) →
      ((HashMap.keys roll.patternMap).Nodup →
        (HashMap.keys (loadTracks d ts roll).patternMap).Nodup) ∧
      (∀ c, c ∈ HashMap.keys (loadTracks d ts roll).patternMap ↔
        c ∈ HashMap.keys roll.patternMap ∨ ∃ t ∈ ts, c ∈ t.clips) ∧
      (∀ t ∈ ts, ∀ c ∈ t.clips, ∃ sm : SequenceMap,
        HashMap.get (loadTracks d ts roll).patternMap c = some sm ∧
        LoadedFrom c t.sequence sm) ∧
      (∀ c, (∀ t ∈ ts, c ∉ t.clips) →
        HashMap.get (loadTracks d ts roll).patternMap c = HashMap.get roll.patternMap c) := by
  intro ts
  induction ts with
  | nil =>
    intro roll _
    refine ⟨fun h => h, ?_, ?_, ?_⟩
    · intro c; simp [loadTracks]
    · intro t ht; simp at ht
    · intro c _; rfl
  | cons t0 rest ih =>
    intro roll hown
    obtain ⟨l1, l2, l3, l4⟩ := loadTrack_get roll t0
    obtain ⟨k1, k2, k3, k4⟩ := ih
      { loadTrack roll t0 with
        backgroundsCache :=
          updateBackgroundsOf d t0.sequence (loadTrack roll t0).backgroundsCache }
      (fun t ht t2 ht2 => hown t (List.mem_cons_of_mem _ ht) t2 (List.mem_cons_of_mem _ ht2))
    simp only [loadTracks]
    refine ⟨?_, ?_, ?_, ?_⟩
    · intro hnd
      exact k1 (l1 hnd)
    · intro c
      rw [k2 c]
      simp only [l2 c, List.mem_cons, exists_eq_or_imp]
      tauto
    · intro t ht c hc
      by_cases hr : ∃ t2 ∈ rest, c ∈ t2.clips
      · obtain ⟨t2, ht2, hc2⟩ := hr
        have heq : t2 = t := hown t ht t2 (List.mem_cons_of_mem _ ht2) c hc hc2
        rw [← heq]
        exact k3 t2 ht2 c hc2
      · have hnone : ∀ t2 ∈ rest, c ∉ t2.clips := fun t2 ht2 hc2 => hr ⟨t2, ht2, hc2⟩
        have ht0 : t = t0 := by
          rcases List.mem_cons.1 ht with h | h
          · exact h
          · exact (hnone t h hc).elim
        rw [k4 c hnone]
        rw [ht0] at hc ⊢
        exact l3 c hc
    · intro c hc
      rw [k4 c (fun t ht => hc t (List.mem_cons_of_mem _ ht))]
      exact l4 c (hc t0 (List.mem_cons_self _ _))

/-- C20: when no clip is in the patterns of two tracks of the document, after
`reloadRollContent` the selection is empty and the index is a structural mirror of the
document, whatever the roll held before: no clip is a key twice; for every track with
a pattern and every clip of the pattern the index holds a submap under the clip whose
keys are exactly the note events of the track's sequence, each once and each bound to
a component of this note in this clip; and every key of the index is a clip of the
pattern of a track. -/
theorem reloadRollContent_structural_mirror (d : Decls) (p : Project) (roll : PianoRoll)
    (hown : ∀ t ∈ p.tracks, ∀ t2 ∈ p.tracks, ∀ c ∈ t.clips, c ∈ t2.clips → t2 = t) :
    (reloadRollContent d p roll).selection = [] ∧
    (HashMap.keys (reloadRollContent d p roll).patternMap).Nodup ∧
    (∀ t ∈ p.tracks, ∀ clips, t.pattern = some clips → ∀ c ∈ clips,
      ∃ sm : SequenceMap,
        HashMap.get (reloadRollContent d p roll).patternMap c = some sm ∧
        LoadedFrom c t.sequence sm) ∧
    (∀ c ∈ HashMap.keys (reloadRollContent d p roll).patternMap,
      ∃ t ∈ p.tracks, ∃ clips, t.pattern = some clips ∧ c ∈ clips) := by
  obtain ⟨h1, h2, h3, _⟩ := loadTracks_get d p.tracks
    { roll with selection := [], backgroundsCache := [], patternMap := [] } hown
  unfold reloadRollContent
  refine ⟨?_, h1 (by simp [HashMap.keys]), ?_, ?_⟩
  · rw [loadTracks_selection]
  · intro t ht clips hp c hc
    exact h3 t ht c (by simp [MidiTrack.clips, hp, hc])
  · intro c hc
    rcases (h2 c).1 hc with h | ⟨t, ht, hct⟩
    · simp [HashMap.keys] at h
    · cases hp : t.pattern with
      | none => simp [MidiTrack.clips, hp] at hct
      | some clips =>
        refine ⟨t, ht, clips, hp, ?_⟩
        simpa [MidiTrack.clips, hp] using hct

/-- C20, witness: the sample project is loaded into `rollAB`, which held a selection
and an index before. -/
theorem reloadRollContent_structural_mirror_witness :
    (reloadRollContent Sample.decls Sample.project
      { Sample.rollAB with selection := [0] }).selection = [] ∧
    (HashMap.keys (reloadRollContent Sample.decls Sample.project
      { Sample.rollAB with selection := [0] }).patternMap).Nodup ∧
    (∀ t ∈ Sample.project.tracks, ∀ clips, t.pattern = some clips → ∀ c ∈ clips,
      ∃ sm : SequenceMap,
        HashMap.get (reloadRollContent Sample.decls Sample.project
          { Sample.rollAB with selection := [0] }).patternMap c = some sm ∧
        LoadedFrom c t.sequence sm) ∧
    (∀ c ∈ HashMap.keys (reloadRollContent Sample.decls Sample.project
        { Sample.rollAB with selection := [0] }).patternMap,
      ∃ t ∈ Sample.project.tracks, ∃ clips, t.pattern = some clips ∧ c ∈ clips) :=
  reloadRollContent_structural_mirror Sample.decls Sample.project
    { Sample.rollAB with selection := [0] } (by decide)

/-! ### The example scenario -/

/-- C22: for the document with one track, one clip and the two notes (key 60, beat 0,
length 1) and (key 64, beat 1, length 1), whatever the roll held before, the index has
exactly 2 entries after `reloadRollContent`; after `onRemoveMidiEvent` for the note at
beat 1 exactly 1 entry remains, it is the entry of the note at beat 0, and its
component is not in the selection. -/
theorem example_scenario_load_then_remove (d : Decls) (roll : PianoRoll) :
    (reloadRollContent d Sample.twoNotes roll).entryCount = 2 ∧
    ∃ (roll2 : PianoRoll) (c : NoteComponent),
      onRemoveMidiEvent d Sample.twoNotes (reloadRollContent d Sample.twoNotes roll)
        (.note Sample.noteB) = some roll2 ∧
      roll2.entryCount = 1 ∧
      roll2.patternMap = [(Sample.clipA, some [(Sample.noteA, some c)])] ∧
      c.note = Sample.noteA ∧ c.ptr ∉ roll2.selection := by
  refine ⟨rfl, _, _, rfl, rfl, rfl, rfl, ?_⟩
  exact List.not_mem_nil _

/-! ### Rendering the rows -/

/-- The images of a scheme, written as a map over the heights `0, 1, ...`. -/
theorem renderBackgroundCacheFor_eq_map (d : Decls) (root : Int) (scale : Scale) :
    renderBackgroundCacheFor d root scale =
      (List.range (d.PIANOROLL_MAX_ROW_HEIGHT + 1).toNat).map
        (fun j : Nat => renderRowsPattern d scale root (j : Int)) := by
  simp [renderBackgroundCacheFor, List.map_eq_flatMap, List.flatMap_assoc]

/-- C23: for every scale, root key and every row height below
`PIANOROLL_MIN_ROW_HEIGHT` (zero and negative heights too), `renderRowsPattern` returns
an image of 1 by 1 pixels; and `renderBackgroundCacheFor` returns one image for every
height from 0 to `PIANOROLL_MAX_ROW_HEIGHT` inclusive, the one at place `j` being what
`renderRowsPattern` returns for the height `j`. -/
theorem renderRowsPattern_placeholder (d : Decls) (scale : Scale) (root height : Int)
    (hlow : height < d.PIANOROLL_MIN_ROW_HEIGHT) :
    renderRowsPattern d scale root height = { width := 1, height := 1 } ∧
    (renderBackgroundCacheFor d root scale).length = (d.PIANOROLL_MAX_ROW_HEIGHT + 1).toNat ∧
    ∀ j : Nat, (j : Int) ≤ d.PIANOROLL_MAX_ROW_HEIGHT →
      ∃ hj : j < (renderBackgroundCacheFor d root scale).length,
        (renderBackgroundCacheFor d root scale)[j] = renderRowsPattern d scale root j := by
  refine ⟨?_, ?_, ?_⟩
  · unfold renderRowsPattern
    rw [if_pos hlow]
  · simp [renderBackgroundCacheFor_eq_map]
  · intro j hj
    have hlen : j < (renderBackgroundCacheFor d root scale).length := by
      simp only [renderBackgroundCacheFor_eq_map, List.length_map, List.length_range]
      omega
    refine ⟨hlen, ?_⟩
    simp [renderBackgroundCacheFor_eq_map]

/-- C23, witness: with rows of 6 to 30 pixels, the height 3 gives the placeholder and
the scheme of C major has 31 images. -/
theorem renderRowsPattern_placeholder_witness :
    renderRowsPattern Sample.decls Sample.major 0 3 = { width := 1, height := 1 } ∧
    (renderBackgroundCacheFor Sample.decls 0 Sample.major).length =
      (Sample.decls.PIANOROLL_MAX_ROW_HEIGHT + 1).toNat ∧
    ∀ j : Nat, (j : Int) ≤ Sample.decls.PIANOROLL_MAX_ROW_HEIGHT →
      ∃ hj : j < (renderBackgroundCacheFor Sample.decls 0 Sample.major).length,
        (renderBackgroundCacheFor Sample.decls 0 Sample.major)[j] =
          renderRowsPattern Sample.decls Sample.major 0 j :=
  renderRowsPattern_placeholder Sample.decls Sample.major 0 3 (by decide)

/-! ### From pixels to keys -/

theorem getUnchecked_natCast (cache : List HighlightingScheme) (i : Nat)
    (hi : i < cache.length) : getUnchecked cache (i : Int) = some cache[i] := by
  unfold getUnchecked
  rw [if_pos (Int.ofNat_nonneg i)]
  simp [hi]

theorem getUnchecked_some_bounds {cache : List HighlightingScheme} {i : Int}
    {x : HighlightingScheme} (h : getUnchecked cache i = some x) :
    0 ≤ i ∧ i < cache.length := by
  unfold getUnchecked at h
  split_ifs at h with h0
  refine ⟨h0, ?_⟩
  have := (List.getElem?_eq_some_iff.1 h).1
  omega

theorem tdiv_two_natCast (s e : Nat) : Int.tdiv ((s : Int) + (e : Int)) 2 = ((s + e) / 2 : Nat) := by
  rw [Int.tdiv_eq_ediv (by omega) (by omega)]
  push_cast
  rfl

/-- One pass of the loop with unchecked reads, on a window inside the array, is the
pass of `searchLoop`: no read is outside the array. -/
theorem searchIteration_natCast (d : Decls) (cache : List HighlightingScheme)
    (target : KeySignatureEvent) (s e : Nat) (hs : s < e) (he : e ≤ cache.length) :
    searchIteration d cache target s e =
      if d.compareElements target.id (cache[s]).id = 0 then .returned (s : Int)
      else if (s + e) / 2 = s then .broke
      else if d.compareElements target.id (cache[(s + e) / 2]).id ≥ 0 then
        .next (((s + e) / 2 : Nat) : Int) e
      else .next s (((s + e) / 2 : Nat) : Int) := by
  unfold searchIteration
  rw [getUnchecked_natCast cache s (by omega)]
  simp only [tdiv_two_natCast]
  rw [getUnchecked_natCast cache ((s + e) / 2) (by omega)]
  by_cases h0 : d.compareElements target.id (cache[s]).id = 0
  · simp only [h0, ↓reduceIte]
  · simp only [h0, ↓reduceIte]
    by_cases hh : (s + e) / 2 = s
    · have : (((s + e) / 2 : Nat) : Int) = (s : Int) := by exact_mod_cast hh
      simp only [hh, this, ↓reduceIte]
    · have : ¬ (((s + e) / 2 : Nat) : Int) = (s : Int) := by
        intro h; exact hh (by exact_mod_cast h)
      simp only [hh, this, ↓reduceIte]

/-- The run with unchecked reads gives the value of `searchLoop`: it never reads
outside the array, and fuel for the width of the window is enough. -/
theorem searchRun_eq_searchLoop (d : Decls) (cache : List HighlightingScheme)
    (target : KeySignatureEvent) :
    ∀ (fuel s e : Nat) (he : e ≤ cache.length) (hf : e - s ≤ fuel),
      searchRun d cache target fuel s e = .value (searchLoop d cache target fuel s e he hf) := by
  intro fuel
  induction fuel with
  | zero =>
    intro s e he hf
    have : ¬ ((s : Int) < (e : Int)) := by omega
    simp only [searchRun, this, ↓reduceIte, searchLoop]
  | succ n ih =>
    intro s e he hf
    unfold searchRun searchLoop
    by_cases hs : s < e
    · have hsi : (s : Int) < (e : Int) := by omega
      simp only [hsi, hs, ↓reduceIte, ↓reduceDIte]
      rw [searchIteration_natCast d cache target s e hs he]
      by_cases h0 : d.compareElements target.id (cache[s]).id = 0
      · simp only [h0, ↓reduceIte]
      · simp only [h0, ↓reduceIte]
        by_cases hh : (s + e) / 2 = s
        · simp only [hh, ↓reduceIte, ↓reduceDIte]
        · simp only [hh, ↓reduceIte, ↓reduceDIte]
          by_cases hc : d.compareElements target.id (cache[(s + e) / 2]).id ≥ 0
          · simp only [hc, ↓reduceIte]
            exact ih _ _ _ _
          · simp only [hc, ↓reduceIte]
            exact ih _ _ _ _
    · have hsi : ¬ ((s : Int) < (e : Int)) := by omega
      simp only [hsi, hs, ↓reduceIte, ↓reduceDIte]

/-- The value of `searchLoop` does not depend on the fuel, once it covers the width of
the window. -/
theorem searchLoop_fuel (d : Decls) (cache : List HighlightingScheme)
    (target : KeySignatureEvent) :
    ∀ (fuel fuel2 s e : Nat) (he : e ≤ cache.length) (hf : e - s ≤ fuel)
      (hf2 : e - s ≤ fuel2),
      searchLoop d cache target fuel s e he hf = searchLoop d cache target fuel2 s e he hf2 := by
  intro fuel
  induction fuel with
  | zero =>
    intro fuel2 s e he hf hf2
    have hs : ¬ s < e := by omega
    cases fuel2 with
    | zero => rfl
    | succ m => simp only [searchLoop, hs, ↓reduceDIte]
  | succ n ih =>
    intro fuel2 s e he hf hf2
    cases fuel2 with
    | zero =>
      have hs : ¬ s < e := by omega
      simp only [searchLoop, hs, ↓reduceDIte]
    | succ m =>
      unfold searchLoop
      by_cases hs : s < e
      · simp only [hs, ↓reduceDIte]
        by_cases h0 : d.compareElements target.id (cache[s]).id = 0
        · simp only [h0, ↓reduceIte]
        · simp only [h0, ↓reduceIte]
          by_cases hh : (s + e) / 2 = s
          · simp only [hh, ↓reduceDIte]
          · simp only [hh, ↓reduceDIte]
            by_cases hc : d.compareElements target.id (cache[(s + e) / 2]).id ≥ 0
            · simp only [hc, ↓reduceIte]
              exact ih _ _ _ _ _ _
            · simp only [hc, ↓reduceIte]
              exact ih _ _ _ _ _ _
      · simp only [hs, ↓reduceDIte]

/-- With fuel for the whole array the run gives the value of the function. -/
theorem searchRun_of_enough_fuel (d : Decls) (cache : List HighlightingScheme)
    (target : KeySignatureEvent) (fuel : Nat) (hfuel : cache.length ≤ fuel) :
    searchRun d cache target fuel 0 cache.length =
      .value (binarySearchForHighlightingScheme d cache target) := by
  have h1 := searchRun_eq_searchLoop d cache target fuel 0 cache.length (le_refl _) (by omega)
  simp only [Nat.cast_zero] at h1
  rw [h1]
  unfold binarySearchForHighlightingScheme
  rw [searchLoop_fuel d cache target fuel cache.length 0 cache.length]

/-- A pass of the loop that goes on has read inside the array and leaves a window that
is not empty, lies inside the old one and is narrower. -/
theorem searchIteration_next (d : Decls) (cache : List HighlightingScheme)
    (target : KeySignatureEvent) (s e s2 e2 : Int) (hs : s < e)
    (h : searchIteration d cache target s e = .next s2 e2) :
    s2 < e2 ∧ e2 - s2 < e - s ∧ s ≤ s2 ∧ e2 ≤ e := by
  unfold searchIteration at h
  cases h1 : getUnchecked cache s with
  | none => simp [h1] at h
  | some scheme =>
    have hb := getUnchecked_some_bounds h1
    simp only [h1] at h
    split_ifs at h with h0 hh
    have hhalf1 : s ≤ Int.tdiv (s + e) 2 := by
      rw [Int.tdiv_eq_ediv (by omega) (by omega)]; omega
    have hhalf2 : Int.tdiv (s + e) 2 < e := by
      rw [Int.tdiv_eq_ediv (by omega) (by omega)]; omega
    cases h2 : getUnchecked cache (Int.tdiv (s + e) 2) with
    | none => simp [h2] at h
    | some scheme2 =>
      simp only [h2] at h
      split_ifs at h with hc
      · simp only [SearchStep.next.injEq] at h
        obtain ⟨rfl, rfl⟩ := h
        omega
      · simp only [SearchStep.next.injEq] at h
        obtain ⟨rfl, rfl⟩ := h
        omega

/-! ### The claims on the loop of the search -/

/-- C25: for every cache, sorted or not, and every target key signature, the run of
`binarySearchForHighlightingScheme` with unchecked reads ends with the value of the
function and not with a read outside the array; the value is -1 or an index `i` with
`0 ≤ i < size` whose scheme compares equal to the target; and on the empty cache it
is -1. -/
theorem binarySearch_reads_in_bounds (d : Decls) (cache : List HighlightingScheme)
    (target : KeySignatureEvent) :
    searchRun d cache target cache.length 0 cache.length =
      .value (binarySearchForHighlightingScheme d cache target) ∧
    (binarySearchForHighlightingScheme d cache target = -1 ∨
      ∃ (i : Nat) (hi : i < cache.length),
        binarySearchForHighlightingScheme d cache target = (i : Int) ∧
        d.compareElements target.id (cache[i]).id = 0) ∧
    binarySearchForHighlightingScheme d [] target = -1 :=
  ⟨searchRun_of_enough_fuel d cache target cache.length (le_refl _),
    binarySearch_sound d cache target, rfl⟩

/-- C30: for every cache and every comparator, consistent or not: a pass of the loop
that is entered with `s < e` and neither returns nor breaks leaves `s < e` and a
strictly smaller width `e - s`, inside the old window; and the run ends with a value
after at most as many passes as the cache has entries, the same value for every larger
number of passes. -/
theorem binarySearch_terminates (d : Decls) (cache : List HighlightingScheme)
    (target : KeySignatureEvent) :
    (∀ s e s2 e2 : Int, s < e → searchIteration d cache target s e = .next s2 e2 →
      s2 < e2 ∧ e2 - s2 < e - s ∧ s ≤ s2 ∧ e2 ≤ e) ∧
    (∀ fuel : Nat, cache.length ≤ fuel →
      searchRun d cache target fuel 0 cache.length =
        .value (binarySearchForHighlightingScheme d cache target)) :=
  ⟨fun s e s2 e2 hs h => searchIteration_next d cache target s e s2 e2 hs h,
    fun fuel hfuel => searchRun_of_enough_fuel d cache target fuel hfuel⟩

/-- C30, witness: in the cache of three schemes the first pass of the search for G
major goes on with the window from 1 to 3, and three passes are enough. -/
theorem binarySearch_terminates_witness :
    searchIteration Sample.decls Sample.cache3 Sample.keyG 0 3 = .next 1 3 ∧
    ((1 : Int) < 3 ∧ (3 : Int) - 1 < 3 - 0 ∧ (0 : Int) ≤ 1 ∧ (3 : Int) ≤ 3) ∧
    searchRun Sample.decls Sample.cache3 Sample.keyG 3 0 Sample.cache3.length =
      .value (binarySearchForHighlightingScheme Sample.decls Sample.cache3 Sample.keyG) :=
  ⟨by decide,
    (binarySearch_terminates Sample.decls Sample.cache3 Sample.keyG).1 0 3 1 3 (by decide)
      (by decide),
    (binarySearch_terminates Sample.decls Sample.cache3 Sample.keyG).2 3 (by decide)⟩

/-! ### Lookups of missing keys -/

/-- C21, the code at the failing input: the index holds `noteA` and `noteB` under
`clipA`; `noteC` has no entry and `clipC` no submap. After `onChangeMidiEvent` and
after `onRemoveMidiEvent` for `noteC` the submap of `clipA` has a new key `noteC` bound
to a null pointer; after `onChangeClip` and after `onRemoveClip` for `clipC` the index
has a new key `clipC` bound to a null pointer. The next `onAddMidiEvent` for the track
dereferences that null pointer. -/
theorem missing_entry_leaves_null_slot :
    HashMap.get Sample.mapAB Sample.noteC = none ∧
    HashMap.get Sample.rollAB.patternMap Sample.clipC = none ∧
    (onChangeMidiEvent Sample.decls Sample.project Sample.rollAB
        (.note Sample.noteC) (.note { Sample.noteC with key := 69 })).map
        (fun r => r.patternMap) =
      some [(Sample.clipA, some (Sample.mapAB ++ [(Sample.noteC, none)]))] ∧
    (onRemoveMidiEvent Sample.decls Sample.project Sample.rollAB (.note Sample.noteC)).map
        (fun r => r.patternMap) =
      some [(Sample.clipA, some (Sample.mapAB ++ [(Sample.noteC, none)]))] ∧
    (onChangeClip Sample.rollAB Sample.clipC Sample.clipB).patternMap =
      Sample.rollAB.patternMap ++ [(Sample.clipC, none)] ∧
    (onRemoveClip Sample.rollAB Sample.clipC).patternMap =
      Sample.rollAB.patternMap ++ [(Sample.clipC, none)] ∧
    (onRemoveClip Sample.rollAB Sample.clipC).patternMap ≠ Sample.rollAB.patternMap ∧
    onAddMidiEvent Sample.decls (onRemoveClip Sample.rollAB Sample.clipC)
      (.note Sample.noteC) = none := by
  refine ⟨by decide, by decide, by decide, by decide, by decide, by decide, by decide,
    by decide⟩

/-! ### The selection and the removed clip -/

/-- C26, the code at the failing input: the component of `noteA` (address 0) is
selected and is an entry of the submap of `clipA`; after `onRemoveClip(clipA)` the index
holds no submap, and the selection still holds the address 0. -/
theorem onRemoveClip_keeps_selection :
    Sample.selectedRoll.selection = [0] ∧
    (HashMap.get Sample.selectedRoll.patternMap Sample.clipA).bind
      (fun sm => (HashMap.get sm Sample.noteA).map (fun c => c.ptr)) = some 0 ∧
    (onRemoveClip Sample.selectedRoll Sample.clipA).patternMap = [] ∧
    (onRemoveClip Sample.selectedRoll Sample.clipA).selection = [0] := by
  refine ⟨by decide, by decide, by decide, by decide⟩

/-! ### The key range of the editable scope -/

theorem setRowHeight_rowHeight_congr (d : Decls) (roll roll2 : PianoRoll) (q : Int)
    (h : roll2.rowHeight = roll.rowHeight) :
    (setRowHeight d roll2 q).rowHeight = (setRowHeight d roll q).rowHeight := by
  unfold setRowHeight
  rw [h]
  split_ifs
  · exact h
  · rfl

/-- The row height after `setEditableScope` with `shouldZoomToArea` is the one that
`zoomToArea` sets for the key range of the focus. -/
theorem setEditableScope_rowHeight (d : Decls) (roll : PianoRoll) (activeTrack : Option Nat)
    (activeClip : Clip) (patternMap : PatternMap) (focus : Focus)
    (h : scopePattern activeTrack activeClip true roll.patternMap initialFocus =
      some (patternMap, focus)) (minBeat maxBeat : Rat) :
    (setEditableScope d roll activeTrack activeClip true).map (fun r => r.rowHeight) =
      some (zoomToArea d roll focus.focusMinKey focus.focusMaxKey minBeat maxBeat).rowHeight := by
  simp only [setEditableScope, h, ↓reduceIte, Option.map_some', Option.some.injEq]
  rw [zoomToArea_rowHeight, zoomToArea_rowHeight]
  exact setRowHeight_rowHeight_congr d roll _ _ rfl

/-- C27, the code at the failing input: with track 2 active, which has no note in the
index of `rollAB`, the loop of `setEditableScope` leaves the key range at
(`INT_MAX`, 0), and `maxKey > minKey` fails; with track 2 and its only note (key 48)
active in `rollTwoTracks` the key range is (48, 48), and `maxKey > minKey` fails. -/
theorem setEditableScope_key_range :
    (scopePattern (some 2) Sample.clipD true Sample.rollAB.patternMap initialFocus).map
      (fun r => (r.2.focusMinKey, r.2.focusMaxKey)) = some (INT_MAX, 0) ∧
    ¬ ((0 : Int) > INT_MAX) ∧
    (scopePattern (some 2) Sample.clipD true Sample.rollTwoTracks.patternMap
      initialFocus).map
      (fun r => (r.2.focusMinKey, r.2.focusMaxKey)) = some (48, 48) ∧
    ¬ ((48 : Int) > 48) ∧
    (setEditableScope Sample.decls Sample.rollTwoTracks (some 2) Sample.clipD true).map
      (fun r => r.rowHeight) =
      some (zoomToArea Sample.decls Sample.rollTwoTracks 48 48 0 2).rowHeight := by
  have hkeys : (scopePattern (some 2) Sample.clipD true Sample.rollTwoTracks.patternMap
      initialFocus).map (fun r => (r.2.focusMinKey, r.2.focusMaxKey)) = some (48, 48) := by
    decide
  refine ⟨by decide, by decide, hkeys, by decide, ?_⟩
  cases hsp : scopePattern (some 2) Sample.clipD true Sample.rollTwoTracks.patternMap
      initialFocus with
  | none => rw [hsp] at hkeys; cases hkeys
  | some r =>
    rw [hsp] at hkeys
    simp only [Option.map_some', Option.some.injEq, Prod.mk.injEq] at hkeys
    have h := setEditableScope_rowHeight Sample.decls Sample.rollTwoTracks (some 2)
      Sample.clipD r.1 r.2 hsp 0 2
    rw [hkeys.1, hkeys.2] at h
    exact h

/-! ### The submaps of the other tracks -/

/-- C28, the code at the failing input: the index holds the notes of track 1 under
`clipA` and the note of track 2 under `clipD`. After `onRemoveTrack` for track 1 the
submap of `clipD` has, behind its own entry, the keys `noteA` and `noteB` of track 1,
each bound to a null pointer. -/
theorem onRemoveTrack_touches_other_tracks :
    HashMap.get Sample.rollTwoTracks.patternMap Sample.clipD =
      some [(Sample.noteD, some Sample.compD)] ∧
    (onRemoveTrack Sample.decls Sample.project Sample.rollTwoTracks Sample.track).map
        (fun r => r.patternMap) =
      some [(Sample.clipA, some []),
        (Sample.clipD, some [(Sample.noteD, some Sample.compD), (Sample.noteA, none),
          (Sample.noteB, none)])] := by
  refine ⟨by decide, by decide⟩

/-! ### The schemes of the live key signatures -/

theorem Decls.SchemeOrder.eq_trans {d : Decls} (hd : d.SchemeOrder) {a b c : SchemeId}
    (h : d.compareElements a b = 0) (h2 : d.compareElements b c = 0) :
    d.compareElements a c = 0 :=
  (hd.eq_zero_iff a c).2
    (SchemeId.same_trans ((hd.eq_zero_iff a b).1 h) ((hd.eq_zero_iff b c).1 h2))

/-- The scheme of a key signature of the sequence, other than the object `key` itself,
is still in the cache after `removeBackgroundCacheFor (key)`. -/
theorem removeBackgroundCacheFor_keeps {d : Decls} (hd : d.SchemeOrder)
    (sequences : List KeySignatureEvent) (cache : List HighlightingScheme)
    (key k : KeySignatureEvent) (hk : k ∈ sequences) (haddr : k.addr ≠ key.addr)
    (x : HighlightingScheme) (hx : x ∈ cache) (hkx : d.compareElements k.id x.id = 0) :
    x ∈ removeBackgroundCacheFor d sequences cache key := by
  unfold removeBackgroundCacheFor
  split_ifs with hany
  · exact hx
  · have hne : d.compareElements k.id key.id ≠ 0 := by
      intro h0
      apply hany
      rw [List.any_eq_true]
      exact ⟨k, hk, by simp [haddr, h0]⟩
    dsimp only
    split_ifs with hidx
    · rcases binarySearch_sound d cache key with h | ⟨i, hi, h1, h2⟩
      · rw [h] at hidx; omega
      · rw [h1]
        simp only [Int.toNat_ofNat]
        obtain ⟨j, hj, hjx⟩ := List.mem_iff_getElem.1 hx
        rw [List.mem_eraseIdx_iff_getElem]
        refine ⟨j, hj, ?_, hjx⟩
        intro hji
        subst hji
        apply hne
        rw [← hjx] at hkx
        exact hd.eq_trans hkx (hd.eq_symm h2)
    · exact hx

theorem loadSequence_backgroundsCache (clip : Clip) :
    ∀ (events : List MidiEvent) (roll : PianoRoll) (sm : SequenceMap),
      (loadSequence clip events roll sm).1.backgroundsCache = roll.backgroundsCache := by
  intro events
  induction events with
  | nil => intro roll sm; rfl
  | cons e rest ih =>
    intro roll sm
    cases e with
    | note n => simp only [loadSequence]; rw [ih]
    | keySignature k => simp only [loadSequence]; rw [ih]
    | other t => simp only [loadSequence]; rw [ih]

theorem loadClips_backgroundsCache (sequence : List MidiEvent) :
    ∀ (clips : List Clip) (roll : PianoRoll),
      (loadClips sequence clips roll).backgroundsCache = roll.backgroundsCache := by
  intro clips
  induction clips with
  | nil => intro roll; rfl
  | cons c rest ih =>
    intro roll
    simp only [loadClips]
    rw [ih]
    exact loadSequence_backgroundsCache c sequence roll []

theorem loadTrack_backgroundsCache (roll : PianoRoll) (track : MidiTrack) :
    (loadTrack roll track).backgroundsCache = roll.backgroundsCache := by
  unfold loadTrack
  cases track.pattern with
  | none => rfl
  | some clips => exact loadClips_backgroundsCache _ clips roll

/-- The loop that renders the backgrounds of a sequence keeps the cache sorted, keeps
its schemes, and leaves a scheme for every key signature of the sequence. -/
theorem updateBackgroundsOf_spec {d : Decls} (hd : d.SchemeOrder) :
    ∀ (events : List MidiEvent) (cache : List HighlightingScheme), SortedCache d cache →
      SortedCache d (updateBackgroundsOf d events cache) ∧
      (∀ x ∈ cache, x ∈ updateBackgroundsOf d events cache) ∧
      (∀ k, MidiEvent.keySignature k ∈ events →
        ∃ x ∈ updateBackgroundsOf d events cache, d.compareElements k.id x.id = 0) := by
  intro events
  induction events with
  | nil => intro cache hs; exact ⟨hs, fun x hx => hx, fun k hk => by simp at hk⟩
  | cons e rest ih =>
    intro cache hs
    cases e with
    | note n =>
      obtain ⟨h1, h2, h3⟩ := ih cache hs
      simp only [updateBackgroundsOf]
      refine ⟨h1, h2, ?_⟩
      intro k hk
      simp only [List.mem_cons] at hk
      rcases hk with hk | hk
      · cases hk
      · exact h3 k hk
    | keySignature key =>
      obtain ⟨h1, h2, h3⟩ := ih (updateBackgroundCacheFor d cache key)
        (updateBackgroundCacheFor_sorted hd hs key)
      simp only [updateBackgroundsOf]
      refine ⟨h1, fun x hx => h2 x (updateBackgroundCacheFor_mem_of_mem d cache key x hx), ?_⟩
      intro k hk
      simp only [List.mem_cons, MidiEvent.keySignature.injEq] at hk
      rcases hk with hk | hk
      · obtain ⟨x, hx, hx0⟩ := updateBackgroundCacheFor_has hd cache key
        rw [hk]
        exact ⟨x, h2 x hx, hx0⟩
      · exact h3 k hk
    | other ty =>
      obtain ⟨h1, h2, h3⟩ := ih cache hs
      simp only [updateBackgroundsOf]
      refine ⟨h1, h2, ?_⟩
      intro k hk
      simp only [List.mem_cons] at hk
      rcases hk with hk | hk
      · cases hk
      · exact h3 k hk

/-- The loop over the tracks keeps the cache sorted, keeps its schemes, and leaves a
scheme for every key signature of every sequence. -/
theorem loadTracks_cache {d : Decls} (hd : d.SchemeOrder) :
    ∀ (ts : List MidiTrack) (roll : PianoRoll), SortedCache d roll.backgroundsCache →
      SortedCache d (loadTracks d ts roll).backgroundsCache ∧
      (∀ x ∈ roll.backgroundsCache, x ∈ (loadTracks d ts roll).backgroundsCache) ∧
      (∀ t ∈ ts, ∀ k, MidiEvent.keySignature k ∈ t.sequence →
        ∃ x ∈ (loadTracks d ts roll).backgroundsCache, d.compareElements k.id x.id = 0) := by
  intro ts
  induction ts with
  | nil => intro roll hs; exact ⟨hs, fun x hx => hx, fun t ht => by simp at ht⟩
  | cons t0 rest ih =>
    intro roll hs
    obtain ⟨u1, u2, u3⟩ := updateBackgroundsOf_spec hd t0.sequence
      (loadTrack roll t0).backgroundsCache (by rw [loadTrack_backgroundsCache]; exact hs)
    obtain ⟨h1, h2, h3⟩ := ih
      { loadTrack roll t0 with
        backgroundsCache :=
          updateBackgroundsOf d t0.sequence (loadTrack roll t0).backgroundsCache } u1
    simp only [loadTracks]
    refine ⟨h1, ?_, ?_⟩
    · intro x hx
      exact h2 x (u2 x (by rw [loadTrack_backgroundsCache]; exact hx))
    · intro t ht k hk
      rcases List.mem_cons.1 ht with rfl | ht
      · obtain ⟨x, hx, hx0⟩ := u3 k hk
        exact ⟨x, h2 x hx, hx0⟩
      · exact h3 t ht k hk

/-- After `reloadRollContent` the cache covers the key signatures of the document, when
each of them is an event of the sequence of one of the tracks. -/
theorem reloadRollContent_covers {d : Decls} (hd : d.SchemeOrder) (p : Project)
    (roll : PianoRoll)
    (hseq : ∀ k ∈ p.keySignatures, ∃ t ∈ p.tracks, MidiEvent.keySignature k ∈ t.sequence) :
    CacheCovers d p.keySignatures (reloadRollContent d p roll).backgroundsCache := by
  obtain ⟨h1, _, h3⟩ := loadTracks_cache hd p.tracks
    { roll with selection := [], backgroundsCache := [], patternMap := [] }
    (by simp [SortedCache])
  refine ⟨h1, ?_⟩
  intro k hk
  obtain ⟨t, ht, hkt⟩ := hseq k hk
  exact h3 t ht k hkt

/-- One notification of a mutation of the key signatures is handled and leaves a cache
that covers the key signatures of the document after the mutation. -/
theorem CacheCovers.deliverKey_preserves {d : Decls} (hd : d.SchemeOrder) (p : Project)
    (roll : PianoRoll) (m : KeyNotification)
    (hc : CacheCovers d p.keySignatures roll.backgroundsCache) (hadm : p.admitsKey m) :
    ∃ roll2 : PianoRoll,
      deliverKey d (p.atKeyDelivery m) roll m = some roll2 ∧
      CacheCovers d (p.applyKey m).keySignatures roll2.backgroundsCache := by
  obtain ⟨hs, hcov⟩ := hc
  cases m with
  | add key =>
    refine ⟨_, rfl, updateBackgroundCacheFor_sorted hd hs key, ?_⟩
    intro k hk
    simp only [Project.applyKey, List.mem_append, List.mem_singleton] at hk
    rcases hk with hk | hk
    · obtain ⟨x, hx, hx0⟩ := hcov k hk
      exact ⟨x, updateBackgroundCacheFor_mem_of_mem d _ key x hx, hx0⟩
    · rw [hk]
      exact updateBackgroundCacheFor_has hd _ key
  | change oldKey newKey =>
    simp only [deliverKey, onChangeMidiEvent, Project.atKeyDelivery]
    split_ifs with hguard
    · refine ⟨_, rfl, ?_, ?_⟩
      · exact updateBackgroundCacheFor_sorted hd
          (removeBackgroundCacheFor_sorted hs _ oldKey) newKey
      · intro k hk
        have hk2 := hk
        simp only [Project.applyKey, List.mem_map] at hk
        obtain ⟨k0, hk0, hk0k⟩ := hk
        split_ifs at hk0k with hrep
        · rw [← hk0k]
          exact updateBackgroundCacheFor_has hd _ newKey
        · rw [← hk0k] at hk2 ⊢
          obtain ⟨x, hx, hx0⟩ := hcov k0 hk0
          refine ⟨x, updateBackgroundCacheFor_mem_of_mem d _ newKey x ?_, hx0⟩
          exact removeBackgroundCacheFor_keeps hd _ _ oldKey k0 hk2
            (fun h => hrep (Or.inl h)) x hx hx0
    · refine ⟨roll, rfl, hs, ?_⟩
      have hsame : newKey.id.same oldKey.id = true := by
        apply SchemeId.same_symm
        rw [not_or, not_not, not_not] at hguard
        simp only [SchemeId.same, KeySignatureEvent.id, Bool.and_eq_true, decide_eq_true_eq]
        exact hguard
      intro k hk
      simp only [Project.applyKey, List.mem_map] at hk
      obtain ⟨k0, hk0, hk0k⟩ := hk
      split_ifs at hk0k with hrep
      · rw [← hk0k]
        obtain ⟨e, he, hsame2⟩ := hadm
        obtain ⟨x, hx, hx0⟩ := hcov e he
        refine ⟨x, hx, ?_⟩
        have h1 : d.compareElements newKey.id e.id = 0 :=
          (hd.eq_zero_iff _ _).2 (SchemeId.same_trans hsame (SchemeId.same_symm hsame2))
        exact hd.eq_trans h1 hx0
      · rw [← hk0k]
        exact hcov k0 hk0
  | remove key =>
    refine ⟨_, rfl, removeBackgroundCacheFor_sorted hs _ key, ?_⟩
    intro k hk
    simp only [Project.applyKey, List.mem_filter, decide_eq_true_eq] at hk
    obtain ⟨x, hx, hx0⟩ := hcov k hk.1
    exact ⟨x, removeBackgroundCacheFor_keeps hd _ _ key k hk.1 hk.2 x hx hx0, hx0⟩

/-- Every notification of a sequence of mutations of the key signatures is handled,
and the cache covers the key signatures of the document afterwards. -/
theorem CacheCovers.mirrorKeys_preserves {d : Decls} (hd : d.SchemeOrder) :
    ∀ (ms : List KeyNotification) (p : Project) (roll : PianoRoll),
      CacheCovers d p.keySignatures roll.backgroundsCache → p.admitsKeys ms →
      ∃ (p2 : Project) (roll2 : PianoRoll),
        mirrorKeys d p roll ms = some (p2, roll2) ∧
        CacheCovers d p2.keySignatures roll2.backgroundsCache := by
  intro ms
  induction ms with
  | nil => intro p roll hc _; exact ⟨p, roll, rfl, hc⟩
  | cons m rest ih =>
    intro p roll hc hadm
    obtain ⟨roll1, h1, hc1⟩ := CacheCovers.deliverKey_preserves hd p roll m hc hadm.1
    obtain ⟨p2, roll2, h2, hc2⟩ := ih (p.applyKey m) roll1 hc1 hadm.2
    exact ⟨p2, roll2, by simp only [mirrorKeys, h1, h2], hc2⟩

/-- C24: with a comparator that is a total order on (root key, scale), starting from
`reloadRollContent` for a document whose key signatures are events of the sequence of
one of its tracks, after every sequence of key signature notifications (an addition
and a change reported after the mutation, a removal before it) every notification is
handled, and `binarySearchForHighlightingScheme` returns, for every key signature that
is in the key signature sequence of the document, an index inside `backgroundsCache`
(so not -1) whose scheme compares equal to the key signature. -/
theorem live_key_signatures_have_schemes (d : Decls) (hd : d.SchemeOrder) (p : Project)
    (roll : PianoRoll) (ms : List KeyNotification)
    (hseq : ∀ k ∈ p.keySignatures, ∃ t ∈ p.tracks, MidiEvent.keySignature k ∈ t.sequence)
    (hadm : p.admitsKeys ms) :
    ∃ (p2 : Project) (roll2 : PianoRoll),
      mirrorKeys d p (reloadRollContent d p roll) ms = some (p2, roll2) ∧
      ∀ k ∈ p2.keySignatures, ∃ (i : Nat) (hi : i < roll2.backgroundsCache.length),
        binarySearchForHighlightingScheme d roll2.backgroundsCache k = (i : Int) ∧
        d.compareElements k.id (roll2.backgroundsCache[i]).id = 0 := by
  obtain ⟨p2, roll2, h1, hs, hcov⟩ := CacheCovers.mirrorKeys_preserves hd ms p
    (reloadRollContent d p roll) (reloadRollContent_covers hd p roll hseq) hadm
  refine ⟨p2, roll2, h1, ?_⟩
  intro k hk
  obtain ⟨x, hx, hx0⟩ := hcov k hk
  obtain ⟨i, hi, hix⟩ := List.mem_iff_getElem.1 hx
  subst hix
  exact ⟨i, hi, binarySearch_complete hd hs k i hi hx0, hx0⟩

/-- C24, witness: the sample project, with the key signature C major, is loaded; then E
flat minor is added and changed to F minor, and C major is removed. -/
theorem live_key_signatures_have_schemes_witness :
    ∃ (p2 : Project) (roll2 : PianoRoll),
      mirrorKeys Sample.decls Sample.project
        (reloadRollContent Sample.decls Sample.project Sample.rollAB)
        Sample.keyMutations = some (p2, roll2) ∧
      ∀ k ∈ p2.keySignatures, ∃ (i : Nat) (hi : i < roll2.backgroundsCache.length),
        binarySearchForHighlightingScheme Sample.decls roll2.backgroundsCache k = (i : Int) ∧
        Sample.decls.compareElements k.id (roll2.backgroundsCache[i]).id = 0 :=
  live_key_signatures_have_schemes Sample.decls Sample.decls_schemeOrder Sample.project
    Sample.rollAB Sample.keyMutations (by decide) (by decide)

end Helio
